import Mathlib

/-!
Buffer, contexts, formatter engine, syslog encoders and dispatch of the logging pipeline

A shallow embedding of `buffer.go`, `context.go`, `event.go`, `format.go` and of the
functions of `syslog.go` and `logger.go` the properties are about, followed by the
properties proved about them.

Conventions of the embedding
* a Go `byte` is a `Nat` below 256; a `[]byte` value is a `ByteSlice`, which keeps the
  visible elements and the rest of the backing array apart, so that length, capacity,
  reslicing and `copy` are the operations of Go and not list concatenation;
* a Go `string` holding well-formed UTF-8 text is the list of its code points
  (`GoString`); `stringBytes` gives its bytes and `len` the number of those bytes;
* a Go `string` that need not be UTF-8 is the list of its bytes; `stringToRunes` is the
  conversion `[]rune(s)` on it, which replaces what is not UTF-8 by U+FFFD, and the
  functions that convert their argument this way are given on bytes in the namespace
  `Raw`, where they agree with the functions on code points for well-formed text;
* a Go `int` is a `Nat` where the source only counts and indexes; a `uint` is a `Nat`
  with the arithmetic taken modulo `uintSize`;
* a pointer to a `context` is an index into a `Heap` where what a call leaves untouched
  is at stake, and the value of the context elsewhere;
* a panic is an `Except.error` carrying the panic value and the state of the buffer at
  the moment of the panic.
-/

namespace Billet

/-! ## Go slices of bytes -/

/-- A `[]byte` seen from its first element: `data` holds the elements `[0, len)` and
`spare` the elements of the backing array in `[len, cap)`. -/
structure ByteSlice where
  data : List Nat
  spare : List Nat
deriving DecidableEq, Repr

namespace ByteSlice

/-- Go `len(s)`. -/
def len (s : ByteSlice) : Nat := s.data.length

/-- Go `cap(s)`. -/
def cap (s : ByteSlice) : Nat := s.data.length + s.spare.length

/-- Go `s[:k]`: allowed up to the capacity, a run-time panic (`none`) beyond it. -/
def resliceTo (s : ByteSlice) (k : Nat) : Option ByteSlice :=
  if k ≤ s.cap then some ⟨(s.data ++ s.spare).take k, (s.data ++ s.spare).drop k⟩ else none

/-- Go `copy(s[off:], src)` for `off ≤ len(s)`: overwrites `min(len(s)-off, len(src))`
elements starting at `off`. -/
def copyAt (s : ByteSlice) (off : Nat) (src : List Nat) : ByteSlice :=
  let n := min (s.len - off) src.length
  ⟨s.data.take off ++ src.take n ++ s.data.drop (off + n), s.spare⟩

/-- Go `append(s, v)`: stores in place when there is spare capacity, and moves to a
fresh array otherwise (the capacity of the fresh array is the runtime's choice; the
model takes the smallest one). -/
def append1 (s : ByteSlice) (v : Nat) : ByteSlice :=
  match s.spare with
  | [] => ⟨s.data ++ [v], []⟩
  | _ :: rest => ⟨s.data ++ [v], rest⟩

end ByteSlice

/-- Go `make([]byte, n, c)`; `make([]byte, n)` is `make n n`. -/
def make (n c : Nat) : ByteSlice := ⟨List.replicate n 0, List.replicate (c - n) 0⟩

/-! ## Go strings and runes -/

/-- A Go `string` holding well-formed UTF-8 text, as the sequence of its code points;
`[]rune(s)` is the list itself and `string(runes)` is the identity. A string that need not
be UTF-8 is the list of its bytes, converted by `stringToRunes`. -/
abbrev GoString := List Char

/-- A Go `rune` (`int32`). -/
abbrev rune := Int

/-- The rune of a code point. -/
def runeOf (c : Char) : rune := (c.toNat : Int)

/-- Go `utf8.EncodeRune`, from Go's `unicode/utf8`: the bytes stored for the rune `r`
(an erroneous rune is stored as U+FFFD). -/
def EncodeRune (r : rune) : List Nat :=
  let i := (r % 4294967296).toNat
  let enc3 (c : Nat) : List Nat :=
    [0xE0 ||| ((c >>> 12) % 256), 0x80 ||| (((c >>> 6) % 256) &&& 0x3F), 0x80 ||| ((c % 256) &&& 0x3F)]
  if i ≤ 0x7F then [i % 256]
  else if i ≤ 0x7FF then [0xC0 ||| ((i >>> 6) % 256), 0x80 ||| ((i % 256) &&& 0x3F)]
  else if i > 0x10FFFF ∨ (0xD800 ≤ i ∧ i ≤ 0xDFFF) then enc3 0xFFFD
  else if i ≤ 0xFFFF then enc3 i
  else
    [0xF0 ||| ((i >>> 18) % 256), 0x80 ||| (((i >>> 12) % 256) &&& 0x3F),
     0x80 ||| (((i >>> 6) % 256) &&& 0x3F), 0x80 ||| ((i % 256) &&& 0x3F)]

/-- The bytes of a string: the UTF-8 encodings of its code points, in order. -/
def stringBytes (s : GoString) : List Nat := s.flatMap (fun c => EncodeRune (runeOf c))

/-- Go `len(s)` for a string: its number of bytes. -/
def strlen (s : GoString) : Nat := (stringBytes s).length

/-- Go's runtime `decoderune`, called on a string whose first byte is 0x80 or more: the
rune at the start of `s` and the number of bytes it takes. A start that is no well-formed
sequence (a stray or missing continuation byte, an overlong form, a surrogate half, a
value beyond U+10FFFF) gives U+FFFD and takes one byte. -/
def decoderune (s : List Nat) : rune × Nat :=
  match s with
  | [] => (0xFFFD, 1)
  | s0 :: tail =>
    if 0xC0 ≤ s0 ∧ s0 < 0xE0 then
      match tail with
      | s1 :: _ =>
        if 0x80 ≤ s1 ∧ s1 ≤ 0xBF then
          let r := ((s0 &&& 0x1F) <<< 6) ||| (s1 &&& 0x3F)
          if 0x7F < r then ((r : Int), 2) else (0xFFFD, 1)
        else (0xFFFD, 1)
      | _ => (0xFFFD, 1)
    else if 0xE0 ≤ s0 ∧ s0 < 0xF0 then
      match tail with
      | s1 :: s2 :: _ =>
        if (0x80 ≤ s1 ∧ s1 ≤ 0xBF) ∧ (0x80 ≤ s2 ∧ s2 ≤ 0xBF) then
          let r := (((s0 &&& 0x0F) <<< 12) ||| ((s1 &&& 0x3F) <<< 6)) ||| (s2 &&& 0x3F)
          if 0x7FF < r ∧ ¬ (0xD800 ≤ r ∧ r ≤ 0xDFFF) then ((r : Int), 3)
          else (0xFFFD, 1)
        else (0xFFFD, 1)
      | _ => (0xFFFD, 1)
    else if 0xF0 ≤ s0 ∧ s0 < 0xF8 then
      match tail with
      | s1 :: s2 :: s3 :: _ =>
        if (0x80 ≤ s1 ∧ s1 ≤ 0xBF) ∧ (0x80 ≤ s2 ∧ s2 ≤ 0xBF) ∧ (0x80 ≤ s3 ∧ s3 ≤ 0xBF) then
          let r := ((((s0 &&& 0x07) <<< 18) ||| ((s1 &&& 0x3F) <<< 12)) |||
            ((s2 &&& 0x3F) <<< 6)) ||| (s3 &&& 0x3F)
          if 0xFFFF < r ∧ r ≤ 0x10FFFF then ((r : Int), 4) else (0xFFFD, 1)
        else (0xFFFD, 1)
      | _ => (0xFFFD, 1)
    else (0xFFFD, 1)

/-- The loop `for _, r := range s` of Go's runtime over the bytes of a string: a byte
below 0x80 is its own rune, and from any other byte on `decoderune` gives the rune and the
number of bytes to pass; `skip` counts the bytes of the last rune that are still to be
passed over. -/
def stringToRunes.go : Nat → List Nat → List rune
  | _, [] => []
  | skip + 1, _ :: rest => stringToRunes.go skip rest
  | 0, c :: rest =>
    if c < 0x80 then (c : Int) :: stringToRunes.go 0 rest
    else
      let d := decoderune (c :: rest)
      d.1 :: stringToRunes.go (d.2 - 1) rest

/-- Go `[]rune(s)` for a string given by its bytes, well-formed UTF-8 or not. -/
def stringToRunes (s : List Nat) : List rune := stringToRunes.go 0 s

/-- Go `string(r)` for a rune: the code point, and U+FFFD for a value that is none. -/
def runeToChar (r : rune) : Char :=
  if 0 ≤ r ∧ r ≤ 0x10FFFF ∧ ¬ (0xD800 ≤ r ∧ r ≤ 0xDFFF) then Char.ofNat r.toNat
  else Char.ofNat 0xFFFD

/-- Go `string(runes)`: the runes converted one by one; the result is well-formed text,
given by its code points. -/
def runesToString (runes : List rune) : GoString := runes.map runeToChar

/-! ## buffer.go -/

/-- The values the modelled code panics with. -/
inductive PanicValue where
  | errBufferWrite
  | sliceBounds
  | unknownLevel
deriving DecidableEq, Repr

/-- The `buffer` struct. The scratch array `runebuf` is overwritten before each of its
uses and read nowhere else, so it is not part of the state. -/
structure buffer where
  bytes : ByteSlice
  read : Bool
deriving DecidableEq, Repr

/-- A panic: its value and the buffer as the panic left it. -/
structure Panic where
  value : PanicValue
  state : buffer
deriving DecidableEq, Repr

def NewBuffer : buffer := { bytes := make 64 64, read := false }

/-- The function `NewBufferFrom(bytes)`: `bytes[:0]`, the storage kept as capacity. -/
def NewBufferFrom (bytes : ByteSlice) : buffer :=
  { bytes := ⟨[], bytes.data ++ bytes.spare⟩, read := false }

namespace buffer

/-- The function `Bytes()`: the visible bytes, and the buffer switched to the read state. -/
def Bytes (b : buffer) : List Nat × buffer := (b.bytes.data, { b with read := true })

def Len (b : buffer) : Nat := b.bytes.len

def ensureCapacity (b : buffer) (size : Nat) : buffer :=
  let curlen := b.bytes.len
  let curcap := b.bytes.cap
  if curlen + size > curcap then
    let new := make curlen (2 * curcap + size)
    { b with bytes := new.copyAt 0 b.bytes.data }
  else b

def WriteByte (b : buffer) (value : Nat) : Except Panic buffer :=
  if b.read then .error ⟨.errBufferWrite, b⟩
  else
    let b1 := b.ensureCapacity 1
    .ok { b1 with bytes := b1.bytes.append1 value }

def Write (b : buffer) (value : List Nat) : Except Panic buffer :=
  if b.read then .error ⟨.errBufferWrite, b⟩
  else
    let origlen := b.bytes.len
    let b1 := b.ensureCapacity value.length
    match b1.bytes.resliceTo (origlen + value.length) with
    | none => .error ⟨.sliceBounds, b1⟩
    | some s => .ok { b1 with bytes := s.copyAt origlen value }

def WriteString (b : buffer) (value : GoString) : Except Panic buffer :=
  if b.read then .error ⟨.errBufferWrite, b⟩
  else
    let origlen := b.bytes.len
    let b1 := b.ensureCapacity (strlen value)
    match b1.bytes.resliceTo (origlen + strlen value) with
    | none => .error ⟨.sliceBounds, b1⟩
    | some s => .ok { b1 with bytes := s.copyAt origlen (stringBytes value) }

/-- The function `WriteRune`: `byte(value)` keeps the low eight bits of the rune. -/
def WriteRune (b : buffer) (value : rune) : Except Panic buffer :=
  if b.read then .error ⟨.errBufferWrite, b⟩
  else if value < 128 then b.WriteByte (value % 256).toNat
  else b.Write (EncodeRune value)

end buffer


/-! ## context.go and event.go -/

/-- Modelled from the spec: the `fieldList` type, declared in a file that is not among
the sources. "A persistent singly-linked sequence of field entries: appending a field
returns a new head node pointing at the previous list"; the nil pointer is the empty
list. A value is kept as its display string (`basicValue` applies `fmt.Sprint` at
insertion). -/
inductive fieldList where
  | empty
  | node (key : GoString) (value : GoString) (prev : fieldList)
deriving DecidableEq, Repr

namespace fieldList

/-- Modelled from the spec: "append = allocate new head node pointing at existing tail". -/
def append (l : fieldList) (key value : GoString) : fieldList := node key value l

/-- The entries in insertion order, oldest first. -/
def entries : fieldList → List (GoString × GoString)
  | empty => []
  | node key value prev => prev.entries ++ [(key, value)]

/-- Modelled from the spec: "`Each(visit)`: visits every entry in insertion order,
duplicates included". The visitor is a Go closure; `σ` is the state it captures and
updates, and a panic in it ends the visit. -/
def Each {σ : Type} (l : fieldList) (fn : GoString → GoString → σ → Except Panic σ)
    (init : σ) : Except Panic σ :=
  l.entries.foldlM (fun st kv => fn kv.1 kv.2 st) init

/-- Modelled from the spec: "`NumFields()`: count of entries as seen by `Each`
(includes duplicates)". -/
def NumFields : fieldList → Nat
  | empty => 0
  | node _ _ prev => prev.NumFields + 1

end fieldList

/-- The Go map type `Fields`, as an association list with distinct keys. -/
abbrev Fields := List (GoString × GoString)

/-- Go `m[key] = value`. -/
def Fields.set : Fields → GoString → GoString → Fields
  | [], key, value => [(key, value)]
  | (k, v) :: rest, key, value =>
    if k = key then (k, value) :: rest else (k, v) :: Fields.set rest key value

/-- Go `m[key]`; the display string of the nil value stands for a missing key. -/
def Fields.get : Fields → GoString → GoString
  | [], _ => "<nil>".toList
  | (k, v) :: rest, key => if k = key then v else Fields.get rest key

/-- Modelled from the spec: "`Fields()`: materializes a key→value mapping where a later
insertion of the same key overwrites an earlier one (last-write-wins), keys unique". -/
def fieldList.Fields (l : fieldList) : Fields :=
  l.entries.foldl (fun m kv => Fields.set m kv.1 kv.2) []

/-- The `context` struct, the one implementation of the `Context` interface. -/
structure context where
  name : GoString
  fieldList : fieldList
deriving DecidableEq, Repr

namespace context

def Name (c : context) : GoString := c.name

def Each {σ : Type} (c : context) (fn : GoString → GoString → σ → Except Panic σ)
    (init : σ) : Except Panic σ :=
  c.fieldList.Each fn init

def Fields (c : context) : Fields := c.fieldList.Fields

def NumFields (c : context) : Nat := c.fieldList.NumFields

/-- The function `basicValue`: `fmt.Sprint(value)`; a value is modelled by its display string. -/
def basicValue (value : GoString) : GoString := value

def WithField (c : context) (key value : GoString) : context :=
  if key = [] then c
  else { name := c.name, fieldList := c.fieldList.append key (basicValue value) }

def WithName (c : context) (name : GoString) : context :=
  { name := name, fieldList := c.fieldList }

/-- The function `With`: the entries of the map are visited in the order of the
association list, which stands for the order Go happens to range over the map in. -/
def With (c : context) (fields : Billet.Fields) : context :=
  fields.foldl (fun new kv => new.WithField kv.1 kv.2) c

end context

def newContext (name : GoString) : context := { name := name, fieldList := .empty }

def EmptyContext : context := newContext []

/-- Modelled from the spec: the `Level` type, declared in a file that is not among the
sources: "an ordered enumeration `DEBUG < INFO < WARN < ERROR < FATAL`"; `other` stands
for the values of the Go type that carry none of the five names. -/
inductive Level where
  | DEBUG
  | INFO
  | WARN
  | ERROR
  | FATAL
  | other (n : Nat)
deriving DecidableEq, Repr

/-- The `Event` struct; an instant is a number, an error its message. -/
structure Event where
  Time : Nat
  Level : Level
  Context : context
  Frames : List Nat
  Error : Option GoString
  Message : GoString
deriving DecidableEq, Repr

/-! ## context.go on the heap

Contexts are handled through pointers. The definitions above describe a context by its
value; the ones below keep the structs in a heap, so that what a call leaves untouched
can be stated. A pointer is the index of a cell, and allocation adds a cell at the end. -/

/-- A `context` struct in the heap: its name and the pointer to its field list, `none`
being nil. -/
structure contextCell where
  name : GoString
  fieldList : Option Nat
deriving DecidableEq, Repr

/-- Modelled from the spec: a node of the `fieldList` type, which is not among the
sources: one entry and the pointer to the previous list. -/
structure fieldNode where
  key : GoString
  value : GoString
  prev : Option Nat
deriving DecidableEq, Repr

/-- The heap: the `context` structs and the field-list nodes allocated so far. -/
structure Heap where
  contexts : List contextCell
  nodes : List fieldNode
deriving DecidableEq, Repr

namespace Heap

/-- Modelled from the spec: `fieldList.append`, "append = allocate new head node
pointing at existing tail"; no node is written after its creation. -/
def fieldListAppend (h : Heap) (fl : Option Nat) (key value : GoString) : Heap × Option Nat :=
  ({ h with nodes := h.nodes ++ [{ key := key, value := value, prev := fl }] },
    some h.nodes.length)

/-- The function `newContext` on the heap. -/
def newContext (h : Heap) (name : GoString) : Heap × Nat :=
  ({ h with contexts := h.contexts ++ [{ name := name, fieldList := none }] },
    h.contexts.length)

/-- The method `WithField` on the heap, for the receiver `c`; `none` when `c` points to
no struct. -/
def WithField (h : Heap) (c : Nat) (key value : GoString) : Option (Heap × Nat) :=
  match h.contexts[c]? with
  | none => none
  | some cell =>
    if key = [] then some (h, c)
    else
      let r := h.fieldListAppend cell.fieldList key (context.basicValue value)
      some ({ r.1 with contexts := r.1.contexts ++ [{ name := cell.name, fieldList := r.2 }] },
        r.1.contexts.length)

/-- The method `WithName` on the heap, for the receiver `c`; `none` when `c` points to
no struct. -/
def WithName (h : Heap) (c : Nat) (name : GoString) : Option (Heap × Nat) :=
  match h.contexts[c]? with
  | none => none
  | some cell =>
    some ({ h with contexts := h.contexts ++ [{ name := name, fieldList := cell.fieldList }] },
      h.contexts.length)

/-- The entries of the list each node heads, oldest first, for the nodes in the order of
their allocation: a node's list is the list of the node before it, or nothing for nil,
followed by its own entry. -/
def nodeTable (nodes : List fieldNode) : List (List (GoString × GoString)) :=
  nodes.foldl (fun t n =>
    t ++ [(match n.prev with
      | none => []
      | some p => t.getD p []) ++ [(n.key, n.value)]]) []

/-- The entries of the field list a pointer leads to. -/
def entriesOf (h : Heap) (fl : Option Nat) : List (GoString × GoString) :=
  match fl with
  | none => []
  | some p => (nodeTable h.nodes).getD p []

end Heap

/-- The field list with the given entries, oldest first. -/
def fieldList.ofEntries (es : List (GoString × GoString)) : fieldList :=
  es.foldl (fun l kv => l.append kv.1 kv.2) fieldList.empty

/-- The value of the context a pointer leads to: what `Name`, `Each`, `Fields` and
`NumFields` see through it. -/
def Heap.read (h : Heap) (c : Nat) : Option context :=
  match h.contexts[c]? with
  | none => none
  | some cell =>
    some { name := cell.name, fieldList := fieldList.ofEntries (h.entriesOf cell.fieldList) }

/-! ## format.go: the combinators -/

/-- The type `Formatter`, `func(buffer Buffer, event *Event)`: the buffer is passed through. -/
abbrev Formatter := buffer → Event → Except Panic buffer

def Render (formatter : Formatter) (event : Event) : Except Panic (List Nat) :=
  match formatter NewBuffer event with
  | .error p => .error p
  | .ok buffer => .ok buffer.Bytes.1

def Literal (s : GoString) : Formatter := fun buffer _ => buffer.WriteString s

/-- The loop of the closure `Join` returns: `n` is `len(formatters)`, `i` the index. -/
def Join.loop (sep : GoString) (n : Nat) : Nat → List Formatter → Formatter
  | _, [], buffer, _ => .ok buffer
  | i, formatter :: rest, buffer, event =>
    let origlen := buffer.Len
    match formatter buffer event with
    | .error p => .error p
    | .ok b1 =>
      if b1.Len > origlen ∧ (i : Int) < (n : Int) - 1 then
        match b1.WriteString sep with
        | .error p => .error p
        | .ok b2 => Join.loop sep n (i + 1) rest b2 event
      else Join.loop sep n (i + 1) rest b1 event

def Join (sep : GoString) (formatters : List Formatter) : Formatter :=
  fun buffer event => Join.loop sep formatters.length 0 formatters buffer event

/-- Go `runes[lo:hi]`, a run-time panic (`none`) when the bounds are out of range. -/
def sliceRunes (runes : List Char) (lo hi : Nat) : Option GoString :=
  if lo ≤ hi ∧ hi ≤ runes.length then some ((runes.drop lo).take (hi - lo)) else none

/-- The variables of `splitFormat`. -/
structure splitState where
  segments : List GoString
  segstart : Nat
  lastrune : Char
deriving DecidableEq, Repr

/-- The loop of `splitFormat` over `runes`, at index `i` with the runes from `i` on
still to visit. `segend` is `i - 1`; the branch is entered only after a `%`, so `i ≥ 1`. -/
def splitFormat.loop (runes : List Char) : List Char → Nat → splitState → Option splitState
  | [], _, st => some st
  | r :: rest, i, st =>
    if st.lastrune = '%' ∧ r = '%' then
      splitFormat.loop runes rest (i + 1) { st with lastrune := Char.ofNat 0 }
    else if st.lastrune = '%' ∧ r = 'v' then
      let segend := i - 1
      if st.segstart ≠ segend then
        match sliceRunes runes st.segstart segend with
        | none => none
        | some seg =>
          splitFormat.loop runes rest (i + 1)
            { segments := st.segments ++ [seg] ++ ["%v".toList], segstart := i + 1, lastrune := r }
      else
        splitFormat.loop runes rest (i + 1)
          { segments := st.segments ++ ["%v".toList], segstart := i + 1, lastrune := r }
    else splitFormat.loop runes rest (i + 1) { st with lastrune := r }

/-- The end of `splitFormat`, after the loop: the last segment, if any. -/
def splitFormat.finish (runes : List Char) (st : splitState) : Option (List GoString) :=
  if st.segstart < runes.length then
    match sliceRunes runes st.segstart runes.length with
    | none => none
    | some seg => some (st.segments ++ [seg])
  else some st.segments

/-- The function `splitFormat`; `none` is a panic on a slice out of range. -/
def splitFormat (format : GoString) : Option (List GoString) :=
  let runes := format
  match splitFormat.loop runes runes 0 { segments := [], segstart := 0, lastrune := Char.ofNat 0 } with
  | none => none
  | some st => splitFormat.finish runes st

/-- The first loop of `FormatFormatter`: the chain built from the segments. -/
def FormatFormatter.chain (formatters : List Formatter) : List GoString → Nat → List Formatter
  | [], _ => []
  | seg :: rest, formatterIdx =>
    if h : seg = "%v".toList ∧ formatterIdx < formatters.length then
      formatters.get ⟨formatterIdx, h.2⟩ :: FormatFormatter.chain formatters rest (formatterIdx + 1)
    else if seg = "%v".toList then
      Literal "%!v(MISSING)".toList :: FormatFormatter.chain formatters rest formatterIdx
    else Literal seg :: FormatFormatter.chain formatters rest formatterIdx

/-- The closure `FormatFormatter` returns: the formatters of the chain, one after the other. -/
def runChain : List Formatter → Formatter
  | [], buffer, _ => .ok buffer
  | formatter :: rest, buffer, event =>
    match formatter buffer event with
    | .error p => .error p
    | .ok b1 => runChain rest b1 event

/-- The function `FormatFormatter`; `none` is a panic while the formatter is built. -/
def FormatFormatter (format : GoString) (formatters : List Formatter) : Option Formatter :=
  match splitFormat format with
  | none => none
  | some segments => some (runChain (FormatFormatter.chain formatters segments 0))

/-! ## The parts of Go's standard library that the formatters call -/

/-- What the model takes from Go's library as given: the Unicode tables beyond ASCII and
the escaping of `strconv`. `escapedRune r` is the text `strconv.QuoteRune(r)` puts
between its two quote characters, `Quote` is `strconv.Quote`. -/
structure GoLib where
  IsLetter : Char → Bool
  IsNumber : Char → Bool
  IsPunct : Char → Bool
  IsSymbol : Char → Bool
  escapedRune : Char → GoString
  Quote : GoString → GoString

/-- A stand-in for the library in examples whose text is printable ASCII without
quotes and backslashes: no code point beyond ASCII is classified, and `escapedRune` and
`Quote` are what `strconv` gives for such text. -/
def plainLib : GoLib :=
  { IsLetter := fun _ => false
    IsNumber := fun _ => false
    IsPunct := fun _ => false
    IsSymbol := fun _ => false
    escapedRune := fun r => [r]
    Quote := fun s => '"' :: (s ++ ['"']) }

/-- Go `unicode.IsControl`: the category Cc, U+0000..U+001F and U+007F..U+009F. -/
def IsControl (r : Char) : Bool :=
  decide (r.toNat ≤ 0x1F) || (decide (0x7F ≤ r.toNat) && decide (r.toNat ≤ 0x9F))

/-- Go `unicode.IsSpace`: the property White_Space. -/
def IsSpace (r : Char) : Bool :=
  let n := r.toNat
  decide (n = 0x09) || decide (n = 0x0A) || decide (n = 0x0B) || decide (n = 0x0C) ||
  decide (n = 0x0D) || decide (n = 0x20) || decide (n = 0x85) || decide (n = 0xA0) ||
  decide (n = 0x1680) || (decide (0x2000 ≤ n) && decide (n ≤ 0x200A)) ||
  decide (n = 0x2028) || decide (n = 0x2029) || decide (n = 0x202F) ||
  decide (n = 0x205F) || decide (n = 0x3000)

/-- Go `strings.TrimSpace`: the string without its leading and trailing white space. -/
def TrimSpace (s : GoString) : GoString :=
  ((s.dropWhile IsSpace).reverse.dropWhile IsSpace).reverse

/-- Go `strconv.QuoteRune`: the escaped rune between two single quotes. -/
def QuoteRune (lib : GoLib) (r : Char) : GoString := '\'' :: (lib.escapedRune r ++ ['\''])

/-- Go `unicode.IsLetter`, exact on ASCII. -/
def IsLetter (lib : GoLib) (r : Char) : Bool :=
  if r.toNat < 128 then
    (decide (0x41 ≤ r.toNat) && decide (r.toNat ≤ 0x5A)) ||
    (decide (0x61 ≤ r.toNat) && decide (r.toNat ≤ 0x7A))
  else lib.IsLetter r

/-- Go `unicode.IsNumber`, exact on ASCII. -/
def IsNumber (lib : GoLib) (r : Char) : Bool :=
  if r.toNat < 128 then decide (0x30 ≤ r.toNat) && decide (r.toNat ≤ 0x39)
  else lib.IsNumber r

/-- Go `unicode.IsPunct`, exact on ASCII. -/
def IsPunct (lib : GoLib) (r : Char) : Bool :=
  if r.toNat < 128 then "!\"#%&'()*,-./:;?@[\\]_\x7b\x7d".toList.contains r
  else lib.IsPunct r

/-- Go `unicode.IsSymbol`, exact on ASCII. -/
def IsSymbol (lib : GoLib) (r : Char) : Bool :=
  if r.toNat < 128 then "$+<=>^|~".toList.contains r || decide (r.toNat = 0x60)
  else lib.IsSymbol r

/-- Go's `<` on strings: the bytes compared lexicographically. -/
def bytesLess : List Nat → List Nat → Bool
  | [], [] => false
  | [], _ :: _ => true
  | _ :: _, [] => false
  | a :: as, b :: bs => if a < b then true else if b < a then false else bytesLess as bs

/-- Insertion of a string into a sorted list of strings. -/
def insertString (x : GoString) : List GoString → List GoString
  | [] => [x]
  | y :: rest =>
    if bytesLess (stringBytes y) (stringBytes x) then y :: insertString x rest
    else x :: y :: rest

/-- Go `sort.Strings`: the strings in increasing order. -/
def sortStrings : List GoString → List GoString
  | [] => []
  | x :: rest => insertString x (sortStrings rest)

/-! ## format.go: messages and contexts -/

/-- The loop of `FormatMessage` over the runes of the trimmed message.
`quoted[1 : len(quoted)-1]` drops the two quote characters, one byte each. -/
def FormatMessage.loop (lib : GoLib) : List Char → buffer → Except Panic buffer
  | [], buffer => .ok buffer
  | r :: rest, buffer =>
    if r = ' ' then
      match buffer.WriteRune (runeOf r) with
      | .error p => .error p
      | .ok b1 => FormatMessage.loop lib rest b1
    else if IsControl r ∨ IsSpace r then
      let quoted := QuoteRune lib r
      match buffer.WriteString (quoted.drop 1).dropLast with
      | .error p => .error p
      | .ok b1 => FormatMessage.loop lib rest b1
    else
      match buffer.WriteRune (runeOf r) with
      | .error p => .error p
      | .ok b1 => FormatMessage.loop lib rest b1

def FormatMessage (lib : GoLib) : Formatter := fun buffer event =>
  let trimmed := TrimSpace event.Message
  FormatMessage.loop lib trimmed buffer

/-- The closure `special` of `humanString`. -/
def humanString.special (lib : GoLib) (r : Char) : Bool :=
  if r = '"' ∨ r = '\'' ∨ r = '\\' ∨ r.toNat = 0 then true
  else if IsLetter lib r ∨ IsNumber lib r ∨ IsPunct lib r ∨ IsSymbol lib r then false
  else true

def humanString (lib : GoLib) (s : GoString) : List Nat :=
  if s.any (humanString.special lib) then stringBytes (lib.Quote s) else stringBytes s

/-- The function `humanValue`: the value is a string or is turned into one by `fmt.Sprint`; either
way the string is the display string that models the value. -/
def humanValue (lib : GoLib) (v : GoString) : List Nat := humanString lib v

/-- The second loop of `FormatHumanContext`: `n` is `len(sortedKeys)`, `i` the index. -/
def FormatHumanContext.loop (lib : GoLib) (fields : Fields) (n : Nat) :
    Nat → List GoString → buffer → Except Panic buffer
  | _, [], buffer => .ok buffer
  | i, k :: rest, buffer =>
    match buffer.WriteString k with
    | .error p => .error p
    | .ok b1 =>
      match b1.WriteRune (runeOf '=') with
      | .error p => .error p
      | .ok b2 =>
        match b2.Write (humanValue lib (fields.get k)) with
        | .error p => .error p
        | .ok b3 =>
          if (i : Int) < (n : Int) - 1 then
            match b3.WriteRune (runeOf ' ') with
            | .error p => .error p
            | .ok b4 => FormatHumanContext.loop lib fields n (i + 1) rest b4
          else FormatHumanContext.loop lib fields n (i + 1) rest b3

/-- The function `FormatHumanContext`. The keys are gathered by ranging over the map, in the order of
the association list here, and then sorted. -/
def FormatHumanContext (lib : GoLib) : Formatter := fun buffer event =>
  let fields := event.Context.Fields
  let sortedKeys := sortStrings (fields.map Prod.fst)
  FormatHumanContext.loop lib fields sortedKeys.length 0 sortedKeys buffer

def HumanMessage (lib : GoLib) : Formatter :=
  Join " ".toList [FormatMessage lib, FormatHumanContext lib]

/-! ## format.go: RFC 5424 structured data -/

/-- The loop of `validStructuredKey` over the runes of the name. -/
def validStructuredKey.loop : List Char → Bool
  | [] => true
  | r :: rest =>
    if r.toNat ≤ 32 then false
    else if r.toNat ≥ 127 then false
    else if r = '=' ∨ r = ']' ∨ r = '"' then false
    else validStructuredKey.loop rest

def validStructuredKey (name : GoString) : Bool :=
  if strlen name > 32 then false else validStructuredKey.loop name

/-- The loop of `formatStructuredValue` over the runes of the value. -/
def formatStructuredValue.loop : List Char → buffer → Except Panic buffer
  | [], buffer => .ok buffer
  | r :: rest, buffer =>
    if r = '\'' then
      match buffer.WriteRune (runeOf '\\') with
      | .error p => .error p
      | .ok b1 =>
        match b1.WriteRune (runeOf '\'') with
        | .error p => .error p
        | .ok b2 => formatStructuredValue.loop rest b2
    else if r = '\\' then
      match buffer.WriteRune (runeOf '\\') with
      | .error p => .error p
      | .ok b1 =>
        match b1.WriteRune (runeOf '\\') with
        | .error p => .error p
        | .ok b2 => formatStructuredValue.loop rest b2
    else if r = ']' then
      match buffer.WriteRune (runeOf '\\') with
      | .error p => .error p
      | .ok b1 =>
        match b1.WriteRune (runeOf ']') with
        | .error p => .error p
        | .ok b2 => formatStructuredValue.loop rest b2
    else
      match buffer.WriteRune (runeOf r) with
      | .error p => .error p
      | .ok b1 => formatStructuredValue.loop rest b1

/-- The function `formatStructuredValue`: the value is a string or is turned into one by
`fmt.Sprint`; either way `s` is the display string that models the value. -/
def formatStructuredValue (buf : buffer) (v : GoString) : Except Panic buffer :=
  let s := v
  formatStructuredValue.loop s buf

def formatStructuredPair (buf : buffer) (name : GoString) (value : GoString) :
    Except Panic buffer :=
  match buf.WriteString name with
  | .error p => .error p
  | .ok b1 =>
    match b1.WriteRune (runeOf '=') with
    | .error p => .error p
    | .ok b2 =>
      match b2.WriteRune (runeOf '"') with
      | .error p => .error p
      | .ok b3 =>
        match formatStructuredValue b3 value with
        | .error p => .error p
        | .ok b4 => b4.WriteRune (runeOf '"')

/-- The closure `formatStructuredContext` passes to `Each`; the state is the buffer and
the captured variable `count`. -/
def formatStructuredContext.visit (numfields : Nat) (name value : GoString)
    (st : buffer × Nat) : Except Panic (buffer × Nat) :=
  if !validStructuredKey name then .ok st
  else
    match formatStructuredPair st.1 name value with
    | .error p => .error p
    | .ok b1 =>
      if (st.2 : Int) < (numfields : Int) - 1 then
        match b1.WriteRune (runeOf ' ') with
        | .error p => .error p
        | .ok b2 => .ok (b2, st.2 + 1)
      else .ok (b1, st.2 + 1)

def formatStructuredContext (buf : buffer) (ctx : context) : Except Panic buffer :=
  let count := 0
  let numfields := ctx.NumFields
  match ctx.Each (formatStructuredContext.visit numfields) (buf, count) with
  | .error p => .error p
  | .ok st => .ok st.1

def FormatStructuredContext : Formatter := fun buffer event =>
  formatStructuredContext buffer event.Context

/-! ## format.go on strings that need not be UTF-8

`splitFormat` and `formatStructuredValue` convert their argument with `[]rune(s)`, and
`WriteString` copies the bytes of its argument. The definitions of this section take the
argument as its bytes, whatever they are. -/

namespace Raw

/-- The method `WriteString` for a string given by its bytes. -/
def WriteString (b : buffer) (value : List Nat) : Except Panic buffer :=
  if b.read then .error ⟨.errBufferWrite, b⟩
  else
    let origlen := b.bytes.len
    let b1 := b.ensureCapacity value.length
    match b1.bytes.resliceTo (origlen + value.length) with
    | none => .error ⟨.sliceBounds, b1⟩
    | some s => .ok { b1 with bytes := s.copyAt origlen value }

/-- Go `runes[lo:hi]`, a run-time panic (`none`) when the bounds are out of range. -/
def sliceRunes (runes : List rune) (lo hi : Nat) : Option (List rune) :=
  if lo ≤ hi ∧ hi ≤ runes.length then some ((runes.drop lo).take (hi - lo)) else none

/-- The variables of `splitFormat`. A segment is the result of `string(runes[a:b])` or the
string `%v`, well-formed text either way. -/
structure splitState where
  segments : List GoString
  segstart : Nat
  lastrune : rune
deriving DecidableEq, Repr

/-- The loop of `splitFormat` over `runes`, at index `i` with the runes from `i` on
still to visit. `segend` is `i - 1`; the branch is entered only after a `%`, so `i ≥ 1`. -/
def splitFormat.loop (runes : List rune) : List rune → Nat → splitState → Option splitState
  | [], _, st => some st
  | r :: rest, i, st =>
    if st.lastrune = runeOf '%' ∧ r = runeOf '%' then
      splitFormat.loop runes rest (i + 1) { st with lastrune := 0 }
    else if st.lastrune = runeOf '%' ∧ r = runeOf 'v' then
      let segend := i - 1
      if st.segstart ≠ segend then
        match sliceRunes runes st.segstart segend with
        | none => none
        | some seg =>
          splitFormat.loop runes rest (i + 1)
            { segments := st.segments ++ [runesToString seg] ++ ["%v".toList],
              segstart := i + 1, lastrune := r }
      else
        splitFormat.loop runes rest (i + 1)
          { segments := st.segments ++ ["%v".toList], segstart := i + 1, lastrune := r }
    else splitFormat.loop runes rest (i + 1) { st with lastrune := r }

/-- The end of `splitFormat`, after the loop: the last segment, if any. -/
def splitFormat.finish (runes : List rune) (st : splitState) : Option (List GoString) :=
  if st.segstart < runes.length then
    match sliceRunes runes st.segstart runes.length with
    | none => none
    | some seg => some (st.segments ++ [runesToString seg])
  else some st.segments

/-- The function `splitFormat` for a template given by its bytes; `none` is a panic on a
slice out of range. -/
def splitFormat (format : List Nat) : Option (List GoString) :=
  let runes := stringToRunes format
  match splitFormat.loop runes runes 0 { segments := [], segstart := 0, lastrune := 0 } with
  | none => none
  | some st => splitFormat.finish runes st

/-- The function `FormatFormatter` for a template given by its bytes; `none` is a panic
while the formatter is built. -/
def FormatFormatter (format : List Nat) (formatters : List Formatter) : Option Formatter :=
  match splitFormat format with
  | none => none
  | some segments => some (runChain (Billet.FormatFormatter.chain formatters segments 0))

/-- The loop of `formatStructuredValue` over the runes of the value. -/
def formatStructuredValue.loop : List rune → buffer → Except Panic buffer
  | [], buffer => .ok buffer
  | r :: rest, buffer =>
    if r = runeOf '\'' then
      match buffer.WriteRune (runeOf '\\') with
      | .error p => .error p
      | .ok b1 =>
        match b1.WriteRune (runeOf '\'') with
        | .error p => .error p
        | .ok b2 => formatStructuredValue.loop rest b2
    else if r = runeOf '\\' then
      match buffer.WriteRune (runeOf '\\') with
      | .error p => .error p
      | .ok b1 =>
        match b1.WriteRune (runeOf '\\') with
        | .error p => .error p
        | .ok b2 => formatStructuredValue.loop rest b2
    else if r = runeOf ']' then
      match buffer.WriteRune (runeOf '\\') with
      | .error p => .error p
      | .ok b1 =>
        match b1.WriteRune (runeOf ']') with
        | .error p => .error p
        | .ok b2 => formatStructuredValue.loop rest b2
    else
      match buffer.WriteRune r with
      | .error p => .error p
      | .ok b1 => formatStructuredValue.loop rest b1

/-- The function `formatStructuredValue` for a value that is a string, given by its
bytes: the loop runs over `[]rune(s)`. -/
def formatStructuredValue (buf : buffer) (v : List Nat) : Except Panic buffer :=
  let s := v
  formatStructuredValue.loop (stringToRunes s) buf

/-- The function `formatStructuredPair` for a name and a string value given by their
bytes. -/
def formatStructuredPair (buf : buffer) (name : List Nat) (value : List Nat) :
    Except Panic buffer :=
  match WriteString buf name with
  | .error p => .error p
  | .ok b1 =>
    match b1.WriteRune (runeOf '=') with
    | .error p => .error p
    | .ok b2 =>
      match b2.WriteRune (runeOf '"') with
      | .error p => .error p
      | .ok b3 =>
        match formatStructuredValue b3 value with
        | .error p => .error p
        | .ok b4 => b4.WriteRune (runeOf '"')

end Raw

/-! ## syslog.go -/

/-- The width of Go's `uint` on a 64-bit platform: `Facility`, `severity` and `priority`
are `uint`, and their arithmetic wraps around at this bound. -/
def uintSize : Nat := 18446744073709551616

/-- The type `Facility`, a `uint`. -/
abbrev Facility := Nat

def KERN : Facility := 0
def USER : Facility := 1
def MAIL : Facility := 2
def DAEMON : Facility := 3
def AUTH : Facility := 4
def SYSLOG : Facility := 5
def LPR : Facility := 6
def NEWS : Facility := 7
def UUCP : Facility := 8
def CRON : Facility := 9
def AUTHPRIV : Facility := 10
def FTP : Facility := 11
def NTP : Facility := 12
def AUDIT : Facility := 13
def ALERT : Facility := 14
def LOCAL0 : Facility := 16
def LOCAL1 : Facility := 17
def LOCAL2 : Facility := 18
def LOCAL3 : Facility := 19
def LOCAL4 : Facility := 20
def LOCAL5 : Facility := 21
def LOCAL6 : Facility := 22
def LOCAL7 : Facility := 23

def sEMERGENCY : Nat := 0
def sALERT : Nat := 1
def sCRITICAL : Nat := 2
def sERROR : Nat := 3
def sWARN : Nat := 4
def sNOTICE : Nat := 5
def sINFO : Nat := 6
def sDEBUG : Nat := 7

/-- The function `severityFor`; `none` is its panic on an unknown level. -/
def severityFor (level : Level) : Option Nat :=
  match level with
  | Level.DEBUG => some sDEBUG
  | Level.INFO => some sINFO
  | Level.WARN => some sWARN
  | Level.ERROR => some sERROR
  | Level.FATAL => some sCRITICAL
  | Level.other _ => none

/-- The function `priorityFor`: `priority(8*facility) + priority(severityFor(level))` in
`uint` arithmetic; `none` is the panic of `severityFor`. -/
def priorityFor (facility : Facility) (level : Level) : Option Nat :=
  match severityFor level with
  | none => none
  | some sev => some (((8 * facility) % uintSize + sev) % uintSize)

/-- Go `fmt.Sprintf("<%d>", n)` for an unsigned `n`: the decimal digits between angle
brackets. -/
def sprintfPri (n : Nat) : GoString := '<' :: (Nat.toDigits 10 n ++ ['>'])

def priFormatter (facility : Facility) : Formatter := fun buf event =>
  match priorityFor facility event.Level with
  | none => .error ⟨PanicValue.unknownLevel, buf⟩
  | some pri => buf.WriteString (sprintfPri pri)

/-- The function `rfc5424ContextFormatter`; a nil transformer is `none`. A panic while
the structured data is written to the local buffer `sub` leaves `buf` as it then is. -/
def rfc5424ContextFormatter (structuredId : GoString)
    (transformer : Option (context → context)) : Formatter := fun buf e =>
  match buf.WriteString structuredId with
  | .error p => .error p
  | .ok b1 =>
    let ctx := match transformer with
      | some t => t e.Context
      | none => e.Context
    let sub := NewBuffer
    match formatStructuredContext sub ctx with
    | .error p => .error ⟨p.value, b1⟩
    | .ok sub1 =>
      if sub1.Len > 0 then
        match b1.WriteRune (runeOf ' ') with
        | .error p => .error p
        | .ok b2 => b2.Write sub1.Bytes.1
      else .ok b1

/-! ## logger.go -/

/-- A value of the interface `Collector`, by its identity: the registry is a map keyed by
collectors. -/
abbrev Collector := Nat

/-- Modelled from the spec: the place of a level in the order
"`DEBUG < INFO < WARN < ERROR < FATAL`" of the `Level` type, which is not among the
sources; `none` for a value that carries none of the five names. -/
def levelRank (level : Level) : Option Nat :=
  match level with
  | Level.DEBUG => some 0
  | Level.INFO => some 1
  | Level.WARN => some 2
  | Level.ERROR => some 3
  | Level.FATAL => some 4
  | Level.other _ => none

/-- Modelled from the spec: the `worker` type, which is not among the sources: "one
worker per registered Collector". A worker is known by the number `newWorker` made it
with and by its collector; what it holds is its entry in the table of worker states. -/
structure worker where
  id : Nat
  collector : Collector
deriving DecidableEq, Repr

/-- Modelled from the spec: what a worker holds. "The worker filters every incoming Event
by `event.level >= threshold` before enqueuing; it owns a bounded queue of capacity
`bufferSize`"; `discardOnFull` is its policy on a full queue and `queue` holds the events
enqueued and not yet delivered, oldest first. -/
structure workerState where
  threshold : Level
  bufferSize : Nat
  discardOnFull : Bool
  queue : List Event
deriving DecidableEq, Repr

/-- The type `entry`, as `collect` builds it: it holds the worker. -/
structure entry where
  worker : worker
deriving DecidableEq, Repr

/-- The map type `registry`, from collectors to entries, as an association list with
distinct keys; its order stands for the order Go happens to range over the map in. -/
abbrev registry := List (Collector × entry)

/-- Go `m[key] = value` on a registry. -/
def registry.set : registry → Collector → entry → registry
  | [], c, e => [(c, e)]
  | (k, v) :: rest, c, e =>
    if k = c then (k, e) :: rest else (k, v) :: registry.set rest c e

/-- The `logger` struct. -/
structure logger where
  context : context
  registry : registry
  skipFrames : Int
deriving DecidableEq, Repr

def newLogger : logger := { context := EmptyContext, registry := [], skipFrames := 0 }

/-- The state the logger works in: the root logger, the states of the workers
`newWorker` has made, the worker number `i` at place `i`, and the calls
`worker.send(event)` made so far, in order, each with the number of the worker it was made
on. -/
structure World where
  RootLogger : logger
  workers : List workerState
  sends : List (Nat × Event)
deriving DecidableEq, Repr

/-- The state at program start: `RootLogger = newLogger()`. -/
def World.start : World := { RootLogger := newLogger, workers := [], sends := [] }

/-- How a call that may block ends: it returns, or it waits in the state given. Nothing
in the model takes an event out of a queue, so a call that waits goes on waiting. -/
inductive Outcome where
  | returned (w : World)
  | blocked (w : World)
deriving DecidableEq, Repr

/-- Modelled from the spec: `newWorker(c)`, which is not among the sources: a worker of
its own for the collector, with an empty queue. The call passes the collector and nothing
else, so the threshold, the capacity and the policy of the worker are not the arguments
of `CollectAsync`; `settings c` stands for what `newWorker` takes them to be. -/
def newWorker (settings : Collector → Level × Nat × Bool) (w : World) (c : Collector) :
    World × worker :=
  ({ w with workers := w.workers ++
      [{ threshold := (settings c).1, bufferSize := (settings c).2.1,
         discardOnFull := (settings c).2.2, queue := [] }] },
    { id := w.workers.length, collector := c })

/-- Modelled from the spec: the filter of a worker, "`event.level >= threshold`", in the
order `DEBUG < INFO < WARN < ERROR < FATAL`; a level with no place in that order passes
no threshold. -/
def workerState.accepts (s : workerState) (event : Event) : Bool :=
  match levelRank event.Level, levelRank s.threshold with
  | some l, some t => decide (t ≤ l)
  | _, _ => false

/-- Modelled from the spec: `worker.send(event)`, which is not among the sources. The call
is recorded; the worker "filters every incoming Event by `event.level >= threshold`
before enqueuing"; "enqueue policy on a full queue: if `discardOnFull` is true the new
event is dropped; if false, enqueue blocks the dispatching caller until space is
available or shutdown is signaled". -/
def worker.send (w : World) (wk : worker) (event : Event) : Outcome :=
  let w1 := { w with sends := w.sends ++ [(wk.id, event)] }
  match w.workers[wk.id]? with
  | none => .returned w1
  | some s =>
    if !s.accepts event then .returned w1
    else if s.queue.length < s.bufferSize then
      .returned { w1 with workers := w1.workers.set wk.id { s with queue := s.queue ++ [event] } }
    else if s.discardOnFull then .returned w1
    else .blocked w1

/-- The method `collect` of the root logger. -/
def logger.collect (settings : Collector → Level × Nat × Bool) (w : World) (c : Collector) :
    World :=
  let r := newWorker settings w c
  { r.1 with RootLogger :=
      { r.1.RootLogger with registry := r.1.RootLogger.registry.set c { worker := r.2 } } }

/-- The loop of `dispatchEvent` over the entries of the registry: one call of `send`
after the other, the next one made when the one before it has returned. -/
def logger.dispatchEvent.loop (event : Event) : List (Collector × entry) → World → Outcome
  | [], w => .returned w
  | kv :: rest, w =>
    match worker.send w kv.2.worker event with
    | .blocked w1 => .blocked w1
    | .returned w1 => logger.dispatchEvent.loop event rest w1

/-- The method `dispatchEvent` of the root logger. -/
def logger.dispatchEvent (w : World) (event : Event) : Outcome :=
  logger.dispatchEvent.loop event w.RootLogger.registry w

/-- The function `CollectAsync`: the threshold, the buffer size and the discard flag are
not used. -/
def CollectAsync (settings : Collector → Level × Nat × Bool) (w : World) (threshold : Level)
    (bufsize : Int) (discard : Bool) (c : Collector) : World :=
  logger.collect settings w c

/-- The method `close`; the result is the error, `none` being nil. The `select` has one
case, a timer of one second (`time.After(time.Second)`): the method waits for it and
returns the error `timeout`. The parameter `timeout` is read nowhere. -/
def logger.close (l : logger) (timeout : Int) : Option GoString :=
  some "timeout".toList

def Close (w : World) (timeout : Int) : Option GoString :=
  w.RootLogger.close timeout

/-! ## Reference definitions, written from the description of the behaviour -/

/-- A formatter that, for the event `ev`, returns normally on every buffer that has not
been read, leaves it unread and adds the bytes `out` at its end, changing nothing else of
its contents. -/
def Appends (f : Formatter) (ev : Event) (out : List Nat) : Prop :=
  ∀ b : buffer, b.read = false →
    ∃ b1, f b ev = .ok b1 ∧ b1.read = false ∧ b1.bytes.data = b.bytes.data ++ out

/-- A piece of a template: literal text or a `%v` placeholder. -/
inductive Segment where
  | literal (text : GoString)
  | placeholder
deriving DecidableEq, Repr

/-- The literal text collected so far, as a segment; nothing when there is none. -/
def Segment.flush (cur : GoString) : List Segment :=
  if cur = [] then [] else [Segment.literal cur]

/-- The template read from left to right with the literal text `cur` collected so far:
`%%` is an escaped percent sign and belongs to the literal text, `%v` is a placeholder,
any other code point is literal text. -/
def parseTemplate.go (cur : GoString) : List Char → List Segment
  | [] => Segment.flush cur
  | [c] => Segment.flush (cur ++ [c])
  | c :: d :: rest =>
    if c = '%' ∧ d = '%' then parseTemplate.go (cur ++ [c, d]) rest
    else if c = '%' ∧ d = 'v' then
      Segment.flush cur ++ Segment.placeholder :: parseTemplate.go [] rest
    else parseTemplate.go (cur ++ [c]) (d :: rest)

/-- The literal segments and placeholders of a template. -/
def parseTemplate (format : GoString) : List Segment := parseTemplate.go [] format

/-- The formatters a template stands for: a literal segment writes its text, the
placeholder number `k` (from 0) runs the formatter number `k`, or writes the marker
`%!v(MISSING)` when there is none. -/
def bindSegments (formatters : List Formatter) : List Segment → Nat → List Formatter
  | [], _ => []
  | Segment.literal text :: rest, k => Literal text :: bindSegments formatters rest k
  | Segment.placeholder :: rest, k =>
    (match formatters[k]? with
      | some f => f
      | none => Literal "%!v(MISSING)".toList) :: bindSegments formatters rest (k + 1)

/-- The bytes a template renders to when `outs` lists the outputs of the formatters. -/
def renderSegments (outs : List (List Nat)) : List Segment → Nat → List Nat
  | [], _ => []
  | Segment.literal text :: rest, k => stringBytes text ++ renderSegments outs rest k
  | Segment.placeholder :: rest, k =>
    (match outs[k]? with
      | some o => o
      | none => stringBytes "%!v(MISSING)".toList) ++ renderSegments outs rest (k + 1)

/-- The segments as `splitFormat` lists them: a placeholder is the string `%v`. -/
def segmentStrings : List Segment → List GoString
  | [] => []
  | Segment.literal text :: rest => text :: segmentStrings rest
  | Segment.placeholder :: rest => "%v".toList :: segmentStrings rest

/-- The bytes `Join` writes when `outs` lists the outputs of its formatters: each output
in order, and the separator after an output that is not empty and not the last one. -/
def joinSpec (sep : List Nat) : List (List Nat) → List Nat
  | [] => []
  | [o] => o
  | o :: o2 :: rest => o ++ (if o = [] then [] else sep) ++ joinSpec sep (o2 :: rest)

/-- The sanitized message, as bytes: the message without its surrounding white space,
a space kept as it is, any other control or white-space code point replaced by its
escaped form, every other code point kept as it is. -/
def sanitizedMessage (lib : GoLib) (message : GoString) : List Nat :=
  (TrimSpace message).flatMap (fun r =>
    if r = ' ' then EncodeRune (runeOf r)
    else if IsControl r ∨ IsSpace r then stringBytes (lib.escapedRune r)
    else EncodeRune (runeOf r))

/-- The escaped form of a structured-data value: `'`, `\` and `]` get a backslash in
front, every other code point stays as it is. -/
def escapeStructured (s : GoString) : GoString :=
  s.flatMap (fun c => if c = '\'' ∨ c = '\\' ∨ c = ']' then ['\\', c] else [c])

/-- The bytes of one structured-data pair: the name, `=`, and the escaped value between
double quotes. -/
def structuredPair (name value : GoString) : List Nat :=
  stringBytes (name ++ "=\"".toList ++ escapeStructured value ++ "\"".toList)

/-- The bytes of the structured data of the entries `entries` of a context with `N`
entries in all, `j` pairs having been written before: an entry with a valid key gives
its pair, followed by a space when `j < N - 1`; an entry with an invalid key gives
nothing. -/
def structuredSpec (N : Nat) : List (GoString × GoString) → Nat → List Nat
  | [], _ => []
  | (k, v) :: rest, j =>
    if validStructuredKey k then
      structuredPair k v ++ (if j + 1 < N then [32] else []) ++ structuredSpec N rest (j + 1)
    else structuredSpec N rest j

/-- Go `utf8.ValidRune`: a code point up to U+10FFFF that is not a surrogate half. -/
def ValidRune (r : Int) : Prop := 0 ≤ r ∧ r ≤ 0x10FFFF ∧ ¬ (0xD800 ≤ r ∧ r ≤ 0xDFFF)

/-- The UTF-8 encoding of the code point `n`, as the standard defines it: one byte below
U+0080, and two, three or four bytes below U+0800, below U+10000 and from there on, the
first byte marked 110, 1110 or 11110 and each following byte marked 10 and carrying six
bits. -/
def utf8Encoding (n : Nat) : List Nat :=
  if n < 0x80 then [n]
  else if n < 0x800 then [0xC0 + n / 64, 0x80 + n % 64]
  else if n < 0x10000 then [0xE0 + n / 4096, 0x80 + n / 64 % 64, 0x80 + n % 64]
  else [0xF0 + n / 262144, 0x80 + n / 4096 % 64, 0x80 + n / 64 % 64, 0x80 + n % 64]

/-- The context reached from `c` by the successive calls `WithField(k, v)` for the
pairs of `kvs`, in order. -/
def withFieldCalls (c : context) (kvs : List (GoString × GoString)) : context :=
  kvs.foldl (fun c kv => c.WithField kv.1 kv.2) c

/-- The state reached from program start by the calls
`CollectAsync(threshold, bufsize, discard, c)` for the tuples of `regs`, in order, with
workers made as `settings` says. -/
def registered (settings : Collector → Level × Nat × Bool)
    (regs : List (Level × Int × Bool × Collector)) : World :=
  regs.foldl (fun w r => CollectAsync settings w r.1 r.2.1 r.2.2.1 r.2.2.2) World.start

/-- A worker on which `send(event)` would wait in the state `w`: the event passes its
threshold, its queue is full and it does not discard. -/
def worker.blocks (w : World) (wk : worker) (event : Event) : Bool :=
  match w.workers[wk.id]? with
  | none => false
  | some s => s.accepts event && decide (s.bufferSize ≤ s.queue.length) && !s.discardOnFull

/-- The order of strings `sort.Strings` sorts by: `a` is not after `b`. -/
def strLE (a b : GoString) : Prop := bytesLess (stringBytes b) (stringBytes a) = false

/-- The bytes of one pair of the human-readable context: the key, `=`, and the value
as `humanValue` renders it. -/
def humanPair (lib : GoLib) (fields : Fields) (k : GoString) : List Nat :=
  stringBytes k ++ EncodeRune (runeOf '=') ++ humanValue lib (fields.get k)

/-- The reading back of an escaped structured-data value: from left to right, a
backslash and the code point after it are replaced by that code point. -/
def unescapeStructured : List Char → List Char
  | [] => []
  | [c] => [c]
  | c :: d :: rest =>
    if c = '\\' then d :: unescapeStructured rest else c :: unescapeStructured (d :: rest)

/-- The number of code points of a value that `formatStructuredValue` escapes. -/
def escapedCount (s : GoString) : Nat :=
  (s.filter (fun c => decide (c = '\'' ∨ c = '\\' ∨ c = ']'))).length

/-- A heap in which every field-list pointer of a context leads to an allocated node. -/
def Heap.WF (h : Heap) : Prop :=
  ∀ cell ∈ h.contexts, ∀ p, cell.fieldList = some p → p < h.nodes.length

/-! # Properties -/

/-! ## Buffer -/

theorem ensureCapacity_data (b : buffer) (size : Nat) :
    (b.ensureCapacity size).bytes.data = b.bytes.data := by
  unfold buffer.ensureCapacity
  simp only []
  split
  · simp [ByteSlice.copyAt, make, ByteSlice.len]
  · rfl

theorem ensureCapacity_read (b : buffer) (size : Nat) :
    (b.ensureCapacity size).read = b.read := by
  unfold buffer.ensureCapacity
  simp only []
  split <;> rfl

theorem ensureCapacity_cap (b : buffer) (size : Nat) :
    b.bytes.len + size ≤ (b.ensureCapacity size).bytes.cap := by
  unfold buffer.ensureCapacity
  simp only []
  split
  · simp [ByteSlice.copyAt, make, ByteSlice.len, ByteSlice.cap]
    omega
  · omega

theorem reslice_copy (s : ByteSlice) (v : List Nat) (h : s.len + v.length ≤ s.cap) :
    ∃ t, s.resliceTo (s.len + v.length) = some t ∧
      (t.copyAt s.len v).data = s.data ++ v ∧ (t.copyAt s.len v).cap = s.cap := by
  obtain ⟨d, sp⟩ := s
  simp only [ByteSlice.len, ByteSlice.cap] at h
  refine ⟨⟨(d ++ sp).take (d.length + v.length), (d ++ sp).drop (d.length + v.length)⟩, ?_, ?_, ?_⟩
  · simp [ByteSlice.resliceTo, ByteSlice.cap, ByteSlice.len, h]
  · have h1 : min (d.length + v.length) (d.length + sp.length) = d.length + v.length := by omega
    have h2 : min v.length sp.length = v.length := by omega
    have h3 : List.take (d.length + v.length) d = d := List.take_of_length_le (by omega)
    simp [ByteSlice.copyAt, ByteSlice.len, List.take_append_eq_append_take, h1, h2, h3]
  · simp [ByteSlice.copyAt, ByteSlice.len, ByteSlice.cap, List.take_append_eq_append_take]
    omega

theorem Write_unread (b : buffer) (value : List Nat) (h : b.read = false) :
    ∃ b1, b.Write value = .ok b1 ∧ b1.read = false ∧
      b1.bytes.data = b.bytes.data ++ value := by
  have hcap := ensureCapacity_cap b value.length
  have hdata := ensureCapacity_data b value.length
  have hlen : (b.ensureCapacity value.length).bytes.len = b.bytes.len := by
    simp [ByteSlice.len, hdata]
  rw [← hlen] at hcap
  obtain ⟨t, ht, hd, _⟩ := reslice_copy (b.ensureCapacity value.length).bytes value hcap
  rw [hlen] at ht hd
  refine ⟨{ b.ensureCapacity value.length with bytes := t.copyAt b.bytes.len value }, ?_, ?_, ?_⟩
  · simp [buffer.Write, h, ht]
  · simp [ensureCapacity_read, h]
  · simp [hd, hdata]

theorem WriteString_unread (b : buffer) (value : GoString) (h : b.read = false) :
    ∃ b1, b.WriteString value = .ok b1 ∧ b1.read = false ∧
      b1.bytes.data = b.bytes.data ++ stringBytes value := by
  have hcap := ensureCapacity_cap b (strlen value)
  have hdata := ensureCapacity_data b (strlen value)
  have hlen : (b.ensureCapacity (strlen value)).bytes.len = b.bytes.len := by
    simp [ByteSlice.len, hdata]
  rw [← hlen] at hcap
  obtain ⟨t, ht, hd, _⟩ := reslice_copy (b.ensureCapacity (strlen value)).bytes (stringBytes value) hcap
  rw [hlen] at ht hd
  refine ⟨{ b.ensureCapacity (strlen value) with bytes := t.copyAt b.bytes.len (stringBytes value) }, ?_, ?_, ?_⟩
  · have ht2 : (b.ensureCapacity (strlen value)).bytes.resliceTo (b.bytes.len + strlen value) = some t := ht
    simp [buffer.WriteString, h, ht2]
  · simp [ensureCapacity_read, h]
  · simp [hd, hdata]

theorem WriteByte_unread (b : buffer) (value : Nat) (h : b.read = false) :
    ∃ b1, b.WriteByte value = .ok b1 ∧ b1.read = false ∧
      b1.bytes.data = b.bytes.data ++ [value] := by
  refine ⟨_, by simp only [buffer.WriteByte, h]; rfl, ?_, ?_⟩
  · simp [ensureCapacity_read, h]
  · simp only [ByteSlice.append1]
    split <;> simp [ensureCapacity_data]

theorem EncodeRune_ascii (r : Int) (h0 : 0 ≤ r) (h : r < 128) :
    EncodeRune r = [(r % 256).toNat] := by
  have h1 : r % 4294967296 = r := Int.emod_eq_of_lt h0 (by omega)
  have h2 : r % 256 = r := Int.emod_eq_of_lt h0 (by omega)
  have h3 : r.toNat ≤ 127 := by omega
  have h4 : r.toNat % 256 = r.toNat := Nat.mod_eq_of_lt (by omega)
  simp [EncodeRune, h1, h2, h3, h4]

theorem WriteRune_unread (b : buffer) (c : Char) (h : b.read = false) :
    ∃ b1, b.WriteRune (runeOf c) = .ok b1 ∧ b1.read = false ∧
      b1.bytes.data = b.bytes.data ++ EncodeRune (runeOf c) := by
  by_cases hc : runeOf c < 128
  · have h0 : 0 ≤ runeOf c := by simp [runeOf]
    obtain ⟨b1, hw, hr, hd⟩ := WriteByte_unread b (runeOf c % 256).toNat h
    exact ⟨b1, by simp [buffer.WriteRune, h, hc, hw], hr, by rw [hd, EncodeRune_ascii _ h0 hc]⟩
  · obtain ⟨b1, hw, hr, hd⟩ := Write_unread b (EncodeRune (runeOf c)) h
    exact ⟨b1, by simp [buffer.WriteRune, h, hc, hw], hr, hd⟩

/-- C1: on a buffer that has not been read, `Write(value)` returns normally and leaves
the previous contents followed by `value`: `Len()` grows by `len(value)`, no earlier byte
is changed or dropped, whether or not the write makes the capacity grow. -/
theorem Write_appends (b : buffer) (value : List Nat) (h : b.read = false) :
    ∃ b1, b.Write value = .ok b1 ∧ b1.bytes.data = b.bytes.data ++ value ∧
      b1.Len = b.Len + value.length ∧ b1.bytes.data.take b.Len = b.bytes.data ∧
      b1.read = false := by
  obtain ⟨b1, hw, hr, hd⟩ := Write_unread b value h
  refine ⟨b1, hw, hd, ?_, ?_, hr⟩
  · simp [buffer.Len, ByteSlice.len, hd]
  · simp [buffer.Len, ByteSlice.len, hd]

/-- Witness of C1: a full buffer of capacity 2 receives three bytes, which forces a growth. -/
theorem Write_appends_witness :
    (buffer.mk ⟨[1, 2], []⟩ false).read = false ∧
    ∃ b1, (buffer.mk ⟨[1, 2], []⟩ false).Write [3, 4, 5] = .ok b1 ∧
      b1.bytes.data = (buffer.mk ⟨[1, 2], []⟩ false).bytes.data ++ [3, 4, 5] ∧
      b1.Len = (buffer.mk ⟨[1, 2], []⟩ false).Len + [3, 4, 5].length ∧
      b1.bytes.data.take (buffer.mk ⟨[1, 2], []⟩ false).Len = (buffer.mk ⟨[1, 2], []⟩ false).bytes.data ∧
      b1.read = false :=
  ⟨rfl, Write_appends (buffer.mk ⟨[1, 2], []⟩ false) [3, 4, 5] rfl⟩

/-- C2: once `Bytes()` has been called the buffer is in the read state, and in that
state `Write`, `WriteByte`, `WriteRune` and `WriteString` panic with `errBufferWrite`
for every argument, the buffer being left exactly as it was. -/
theorem write_after_read (b : buffer) (h : b.read = true) :
    (∀ b0 : buffer, b0.Bytes.2.read = true) ∧
    (∀ value, b.Write value = .error ⟨.errBufferWrite, b⟩) ∧
    (∀ value, b.WriteByte value = .error ⟨.errBufferWrite, b⟩) ∧
    (∀ value, b.WriteRune value = .error ⟨.errBufferWrite, b⟩) ∧
    (∀ value, b.WriteString value = .error ⟨.errBufferWrite, b⟩) := by
  refine ⟨fun _ => rfl, ?_, ?_, ?_, ?_⟩ <;> intro value
  · simp [buffer.Write, h]
  · simp [buffer.WriteByte, h]
  · simp [buffer.WriteRune, h]
  · simp [buffer.WriteString, h]

/-- Witness of C2: the buffer left by `Bytes()` on a fresh buffer. -/
theorem write_after_read_witness :
    NewBuffer.Bytes.2.read = true ∧
    (∀ b0 : buffer, b0.Bytes.2.read = true) ∧
    (∀ value, NewBuffer.Bytes.2.Write value = .error ⟨.errBufferWrite, NewBuffer.Bytes.2⟩) ∧
    (∀ value, NewBuffer.Bytes.2.WriteByte value = .error ⟨.errBufferWrite, NewBuffer.Bytes.2⟩) ∧
    (∀ value, NewBuffer.Bytes.2.WriteRune value = .error ⟨.errBufferWrite, NewBuffer.Bytes.2⟩) ∧
    (∀ value, NewBuffer.Bytes.2.WriteString value = .error ⟨.errBufferWrite, NewBuffer.Bytes.2⟩) :=
  ⟨rfl, write_after_read NewBuffer.Bytes.2 rfl⟩

/-! ## Templates -/

theorem parseTemplate_go_cons (cur : GoString) (r : Char) (rest : List Char) (hr : r ≠ '%') :
    parseTemplate.go cur (r :: rest) = parseTemplate.go (cur ++ [r]) rest := by
  cases rest with
  | nil => simp [parseTemplate.go]
  | cons d rest => simp [parseTemplate.go, hr]

theorem segmentStrings_append (a b : List Segment) :
    segmentStrings (a ++ b) = segmentStrings a ++ segmentStrings b := by
  induction a with
  | nil => rfl
  | cons x a ih => cases x <;> simp [segmentStrings, ih]

theorem segmentStrings_flush (cur : GoString) :
    segmentStrings (Segment.flush cur) = if cur = [] then [] else [cur] := by
  unfold Segment.flush
  split <;> simp [segmentStrings]

theorem sliceRunes_left (pre rest : List Char) (s : Nat) (h : s ≤ pre.length) :
    sliceRunes (pre ++ rest) s pre.length = some (pre.drop s) := by
  have h1 : List.drop s (pre ++ rest) = List.drop s pre ++ rest := by
    rw [List.drop_append_of_le_length h]
  have h2 : (List.drop s pre).length = pre.length - s := by simp
  simp only [sliceRunes, h, List.length_append, Nat.le_add_right, and_self, if_true, h1]
  rw [← h2, List.take_left']
  rfl

theorem splitFormat_loop_spec (runes : List Char) :
    ∀ (rest pre : List Char) (st : splitState), runes = pre ++ rest →
      ((st.lastrune ≠ '%' → st.segstart ≤ pre.length →
        (splitFormat.loop runes rest pre.length st).bind (splitFormat.finish runes) =
          some (st.segments ++ segmentStrings (parseTemplate.go (pre.drop st.segstart) rest))) ∧
       (∀ pre1, st.lastrune = '%' → pre = pre1 ++ ['%'] → st.segstart ≤ pre1.length →
        (splitFormat.loop runes rest pre.length st).bind (splitFormat.finish runes) =
          some (st.segments ++
            segmentStrings (parseTemplate.go (pre1.drop st.segstart) ('%' :: rest))))) := by
  intro rest
  induction rest with
  | nil =>
    intro pre st hrunes
    have hlen : runes.length = pre.length := by rw [hrunes]; simp
    have hsl : ∀ s, s ≤ pre.length → sliceRunes runes s runes.length = some (pre.drop s) := by
      intro s h
      have := sliceRunes_left pre [] s h
      rwa [← hrunes, ← hlen] at this
    constructor
    · intro _ hs
      simp only [splitFormat.loop, Option.bind, splitFormat.finish, parseTemplate.go,
        segmentStrings_flush, hsl _ hs]
      by_cases hlt : st.segstart < pre.length
      · have hne : List.drop st.segstart pre ≠ [] := by
          intro h0
          have := congrArg List.length h0
          simp at this
          omega
        simp [hlen, hlt, hne]
      · have he : List.drop st.segstart pre = [] := List.drop_eq_nil_of_le (by omega)
        simp [hlen, hlt, he]
    · intro pre1 _ hpre hs
      have hlt : st.segstart < pre.length := by rw [hpre]; simp; omega
      have hd : List.drop st.segstart pre = List.drop st.segstart pre1 ++ ['%'] := by
        rw [hpre]
        exact List.drop_append_of_le_length hs
      simp only [splitFormat.loop, Option.bind, splitFormat.finish, parseTemplate.go,
        segmentStrings_flush, hsl _ (Nat.le_of_lt hlt)]
      simp [hlen, hlt, hd]
  | cons r rest ih =>
    intro pre st hrunes
    have hrunes1 : runes = (pre ++ [r]) ++ rest := by simp [hrunes]
    have hlen : (pre ++ [r]).length = pre.length + 1 := by simp
    constructor
    · intro hl hs
      have hstep : splitFormat.loop runes (r :: rest) pre.length st =
          splitFormat.loop runes rest (pre.length + 1) { st with lastrune := r } := by
        simp [splitFormat.loop, hl]
      rw [hstep, ← hlen]
      by_cases hr : r = '%'
      · have := (ih (pre ++ [r]) { st with lastrune := r } hrunes1).2 pre hr (by rw [hr]) hs
        rw [this, hr]
      · have := (ih (pre ++ [r]) { st with lastrune := r } hrunes1).1 hr (by simp; omega)
        rw [this, parseTemplate_go_cons _ _ _ hr]
        simp [List.drop_append_of_le_length hs]
    · intro pre1 hl hpre hs
      subst hpre
      by_cases hr : r = '%'
      · have hstep : splitFormat.loop runes (r :: rest) (pre1 ++ ['%']).length st =
            splitFormat.loop runes rest ((pre1 ++ ['%']).length + 1)
              { st with lastrune := Char.ofNat 0 } := by
          simp [splitFormat.loop, hl, hr]
        rw [hstep, ← hlen]
        have := (ih (pre1 ++ ['%'] ++ [r]) { st with lastrune := Char.ofNat 0 } hrunes1).1
          (show Char.ofNat 0 ≠ '%' by decide) (by simp; omega)
        rw [this, hr]
        simp only [List.append_assoc, List.drop_append_of_le_length hs]
        simp [parseTemplate.go]
      · by_cases hv : r = 'v'
        · have hi : (pre1 ++ ['%']).length - 1 = pre1.length := by simp
          have hgo : parseTemplate.go (List.drop st.segstart pre1) ('%' :: r :: rest) =
              Segment.flush (List.drop st.segstart pre1) ++
                Segment.placeholder :: parseTemplate.go [] rest := by
            simp [parseTemplate.go, hv]
          have hdrop : List.drop (pre1 ++ ['%'] ++ [r]).length (pre1 ++ ['%'] ++ [r]) = [] :=
            List.drop_eq_nil_of_le (Nat.le_refl _)
          have hih := fun segs => (ih (pre1 ++ ['%'] ++ [r])
            { segments := segs, segstart := (pre1 ++ ['%'] ++ [r]).length, lastrune := r }
            hrunes1).1 hr (Nat.le_refl _)
          simp only [hdrop] at hih
          rw [hgo, segmentStrings_append, segmentStrings_flush]
          by_cases hseg : st.segstart = pre1.length
          · have hstep : splitFormat.loop runes (r :: rest) (pre1 ++ ['%']).length st =
                splitFormat.loop runes rest ((pre1 ++ ['%']).length + 1)
                  { segments := st.segments ++ ["%v".toList],
                    segstart := (pre1 ++ ['%']).length + 1, lastrune := r } := by
              simp [splitFormat.loop, hl, hv, hseg]
            have he : List.drop st.segstart pre1 = [] := List.drop_eq_nil_of_le (by omega)
            rw [hstep, ← hlen, hih, he]
            simp [segmentStrings]
          · have hsl : sliceRunes runes st.segstart pre1.length =
                some (List.drop st.segstart pre1) := by
              rw [hrunes, List.append_assoc]
              exact sliceRunes_left pre1 _ st.segstart hs
            have hstep : splitFormat.loop runes (r :: rest) (pre1 ++ ['%']).length st =
                splitFormat.loop runes rest ((pre1 ++ ['%']).length + 1)
                  { segments := st.segments ++ [List.drop st.segstart pre1] ++ ["%v".toList],
                    segstart := (pre1 ++ ['%']).length + 1, lastrune := r } := by
              simp [splitFormat.loop, hl, hv, hseg, hsl]
            have hne : List.drop st.segstart pre1 ≠ [] := by
              intro h0
              have := congrArg List.length h0
              simp at this
              omega
            rw [hstep, ← hlen, hih]
            simp [segmentStrings, hne]
        · have hstep : splitFormat.loop runes (r :: rest) (pre1 ++ ['%']).length st =
              splitFormat.loop runes rest ((pre1 ++ ['%']).length + 1)
                { st with lastrune := r } := by
            simp [splitFormat.loop, hl, hr, hv]
          rw [hstep, ← hlen]
          have := (ih (pre1 ++ ['%'] ++ [r]) { st with lastrune := r } hrunes1).1
            hr (by simp; omega)
          rw [this]
          have hd : List.drop st.segstart (pre1 ++ ['%'] ++ [r]) =
              List.drop st.segstart pre1 ++ ['%'] ++ [r] := by
            rw [List.append_assoc, List.drop_append_of_le_length hs, List.append_assoc]
          have hgo : parseTemplate.go (List.drop st.segstart pre1) ('%' :: r :: rest) =
              parseTemplate.go (List.drop st.segstart pre1 ++ ['%']) (r :: rest) := by
            simp [parseTemplate.go, hr, hv]
          rw [hd, hgo, parseTemplate_go_cons _ _ _ hr]

theorem splitFormat_eq (format : GoString) :
    splitFormat format = some (segmentStrings (parseTemplate format)) := by
  have h := (splitFormat_loop_spec format format []
    { segments := [], segstart := 0, lastrune := Char.ofNat 0 } rfl).1
    (show Char.ofNat 0 ≠ '%' by decide) (Nat.zero_le _)
  simp only [List.length_nil, List.drop_zero, List.nil_append] at h
  unfold splitFormat parseTemplate
  simp only []
  cases hl : splitFormat.loop format format 0
      { segments := [], segstart := 0, lastrune := Char.ofNat 0 } with
  | none => rw [hl] at h; simp at h
  | some st => rw [hl] at h; simpa using h

theorem append_singleton_eq_pair (cur : List Char) (c x y : Char)
    (h : cur ++ [c] = [x, y]) : cur = [x] ∧ c = y := by
  match cur, h with
  | [], h => simp at h
  | [a], h => simp at h; exact ⟨by simp [h.1], h.2⟩
  | a :: b :: t, h => simp at h

theorem parseTemplate_go_literal (n : Nat) :
    ∀ (input : List Char) (cur : GoString), input.length ≤ n →
      cur ≠ "%v".toList →
      (cur = ['%'] → ∃ d rest, input = d :: rest ∧ d ≠ 'v' ∧ d ≠ '%') →
      ∀ text, Segment.literal text ∈ parseTemplate.go cur input →
        text ≠ "%v".toList ∧ text ≠ [] := by
  induction n with
  | zero =>
    intro input cur hn h1 _ text hmem
    have : input = [] := List.length_eq_zero.mp (Nat.le_zero.mp hn)
    subst this
    simp only [parseTemplate.go, Segment.flush] at hmem
    split at hmem
    · simp at hmem
    · simp at hmem; subst hmem; exact ⟨h1, by assumption⟩
  | succ n ih =>
    intro input cur hn h1 h2 text hmem
    match input, hn, h2, hmem with
    | [], _, _, hmem =>
      simp only [parseTemplate.go, Segment.flush] at hmem
      split at hmem
      · simp at hmem
      · simp at hmem; subst hmem; exact ⟨h1, by assumption⟩
    | [c], _, h2, hmem =>
      simp only [parseTemplate.go, Segment.flush] at hmem
      split at hmem
      · simp at hmem
      · simp at hmem
        subst hmem
        refine ⟨?_, by simp⟩
        intro he
        obtain ⟨hc, hcv⟩ := append_singleton_eq_pair cur c '%' 'v' he
        obtain ⟨d, rest, hd, hdv, _⟩ := h2 hc
        simp at hd
        exact hdv (hd.1 ▸ hcv)
    | c :: d :: rest, hn, h2, hmem =>
      simp only [List.length_cons] at hn
      unfold parseTemplate.go at hmem
      split at hmem
      · rename_i hcd
        refine ih rest (cur ++ [c, d]) (by omega) ?_ ?_ text hmem
        · intro he
          have := congrArg List.length he
          have h3 : cur = [] := by
            cases cur with
            | nil => rfl
            | cons a t => simp at this
          subst h3
          simp at he
          rw [hcd.2] at he
          exact absurd he.2 (by decide)
        · intro he
          have := congrArg List.length he
          simp at this
      · split at hmem
        · rename_i hcd
          simp only [List.mem_append, List.mem_cons] at hmem
          rcases hmem with hmem | hmem | hmem
          · simp only [Segment.flush] at hmem
            split at hmem
            · simp at hmem
            · simp at hmem; subst hmem; exact ⟨h1, by assumption⟩
          · cases hmem
          · exact ih rest [] (by omega) (by decide) (by intro h; cases h) text hmem
        · rename_i hn1 hn2
          refine ih (d :: rest) (cur ++ [c]) (by simp; omega) ?_ ?_ text hmem
          · intro he
            obtain ⟨hc, hcv⟩ := append_singleton_eq_pair cur c '%' 'v' he
            obtain ⟨d1, rest1, hd, hdv, _⟩ := h2 hc
            simp at hd
            exact hdv (hd.1 ▸ hcv)
          · intro he
            have h3 : cur = [] ∧ c = '%' := by
              cases cur with
              | nil => simp at he; exact ⟨rfl, he⟩
              | cons a t => 
                have := congrArg List.length he
                simp at this
            refine ⟨d, rest, rfl, ?_, ?_⟩
            · intro hdv; exact hn2 ⟨h3.2, hdv⟩
            · intro hdp; exact hn1 ⟨h3.2, hdp⟩

theorem parseTemplate_literal (format : GoString) (text : GoString)
    (h : Segment.literal text ∈ parseTemplate format) : text ≠ "%v".toList ∧ text ≠ [] :=
  parseTemplate_go_literal format.length format [] (Nat.le_refl _) (by decide)
    (by intro h; cases h) text h

theorem chain_eq_bindSegments (formatters : List Formatter) :
    ∀ (segs : List Segment) (k : Nat),
      (∀ text, Segment.literal text ∈ segs → text ≠ "%v".toList) →
      FormatFormatter.chain formatters (segmentStrings segs) (min k formatters.length) =
        bindSegments formatters segs k := by
  intro segs
  induction segs with
  | nil => intro k _; rfl
  | cons x segs ih =>
    intro k hlit
    have hrest : ∀ text, Segment.literal text ∈ segs → text ≠ "%v".toList :=
      fun text h => hlit text (List.mem_cons_of_mem _ h)
    cases x with
    | literal text =>
      have hne : text ≠ "%v".toList := hlit text (List.mem_cons_self _ _)
      simp only [segmentStrings, FormatFormatter.chain, bindSegments, hne, false_and,
        dite_false, if_false, ih k hrest]
    | placeholder =>
      by_cases hk : k < formatters.length
      · have hmin : min k formatters.length = k := Nat.min_eq_left (Nat.le_of_lt hk)
        have hmin1 : min (k + 1) formatters.length = k + 1 := Nat.min_eq_left hk
        have hget : formatters[k]? = some (formatters.get ⟨k, hk⟩) := by
          rw [List.getElem?_eq_getElem hk]; rfl
        simp only [segmentStrings, FormatFormatter.chain, bindSegments, hmin, hk, and_self,
          dite_true, hget]
        rw [← ih (k + 1) hrest, hmin1]
      · have hmin : min k formatters.length = formatters.length :=
          Nat.min_eq_right (Nat.le_of_not_lt hk)
        have hmin1 : min (k + 1) formatters.length = formatters.length :=
          Nat.min_eq_right (by omega)
        have hget : formatters[k]? = none := List.getElem?_eq_none (Nat.le_of_not_lt hk)
        simp only [segmentStrings, FormatFormatter.chain, bindSegments, hmin, Nat.lt_irrefl,
          and_false, dite_false, if_true, hget]
        rw [← ih (k + 1) hrest, hmin1]

theorem Literal_appends (s : GoString) (ev : Event) : Appends (Literal s) ev (stringBytes s) :=
  fun b h => WriteString_unread b s h

theorem forall₂_get? {α β : Type} (R : α → β → Prop) (l1 : List α) (l2 : List β)
    (h : List.Forall₂ R l1 l2) (k : Nat) :
    (l1[k]? = none ∧ l2[k]? = none) ∨
      ∃ a b, l1[k]? = some a ∧ l2[k]? = some b ∧ R a b := by
  induction h generalizing k with
  | nil => left; simp
  | cons hab _ ih =>
    cases k with
    | zero => right; exact ⟨_, _, by simp, by simp, hab⟩
    | succ k => simpa using ih k

theorem bindSegments_appends (formatters : List Formatter) (outs : List (List Nat))
    (ev : Event) (h : List.Forall₂ (fun f o => Appends f ev o) formatters outs) :
    ∀ (segs : List Segment) (k : Nat),
      Appends (runChain (bindSegments formatters segs k)) ev (renderSegments outs segs k) := by
  intro segs
  induction segs with
  | nil => intro k b hb; exact ⟨b, rfl, hb, by simp [renderSegments]⟩
  | cons x segs ih =>
    intro k b hb
    cases x with
    | literal text =>
      obtain ⟨b1, hw, hr1, hd1⟩ := Literal_appends text ev b hb
      obtain ⟨b2, hw2, hr2, hd2⟩ := ih k b1 hr1
      exact ⟨b2, by simp [bindSegments, runChain, hw, hw2], hr2,
        by simp [renderSegments, hd2, hd1]⟩
    | placeholder =>
      rcases forall₂_get? _ _ _ h k with ⟨h1, h2⟩ | ⟨f, o, h1, h2, hfo⟩
      · obtain ⟨b1, hw, hr1, hd1⟩ := Literal_appends "%!v(MISSING)".toList ev b hb
        obtain ⟨b2, hw2, hr2, hd2⟩ := ih (k + 1) b1 hr1
        exact ⟨b2, by simp only [bindSegments, runChain, h1, hw, hw2], hr2,
          by simp [renderSegments, h2, hd2, hd1]⟩
      · obtain ⟨b1, hw, hr1, hd1⟩ := hfo b hb
        obtain ⟨b2, hw2, hr2, hd2⟩ := ih (k + 1) b1 hr1
        exact ⟨b2, by simp [bindSegments, runChain, h1, hw, hw2], hr2,
          by simp [renderSegments, h2, hd2, hd1]⟩

/-- For a template of well-formed text, given by its code points, `FormatFormatter` builds
the chain that runs one formatter per piece of the template. -/
theorem FormatFormatter_text (format : GoString) (formatters : List Formatter) :
    ∃ F, FormatFormatter format formatters = some F ∧
      F = runChain (bindSegments formatters (parseTemplate format) 0) ∧
      (∀ ev outs, List.Forall₂ (fun f o => Appends f ev o) formatters outs →
        Appends F ev (renderSegments outs (parseTemplate format) 0)) ∧
      (∀ rest, parseTemplate ("%v".toList ++ rest) = Segment.placeholder :: parseTemplate rest) ∧
      parseTemplate "a%v".toList = [Segment.literal "a".toList, Segment.placeholder] ∧
      (∀ A B : Formatter,
        FormatFormatter "%v:%v".toList [A, B] = some (runChain [A, Literal ":".toList, B])) := by
  have hchain := chain_eq_bindSegments formatters (parseTemplate format) 0
    (fun text h => (parseTemplate_literal format text h).1)
  have hF : FormatFormatter format formatters =
      some (runChain (bindSegments formatters (parseTemplate format) 0)) := by
    simp only [FormatFormatter, splitFormat_eq]
    rw [← hchain]
    simp
  refine ⟨_, hF, rfl, ?_, ?_, by decide, fun A B => rfl⟩
  · intro ev outs h
    exact bindSegments_appends formatters outs ev h _ 0
  · intro rest
    simp [parseTemplate, parseTemplate.go, Segment.flush]

/-- C4 (evaluation of the code): for the template `100%%` and no formatters,
`FormatFormatter` builds a formatter that adds the five bytes of `100%%`, both percent
signs included, which are not the four bytes of `100%`. -/
theorem FormatFormatter_escaped_percent :
    ∃ F, FormatFormatter "100%%".toList [] = some F ∧
      (∀ ev, Appends F ev (stringBytes "100%%".toList)) ∧
      stringBytes "100%%".toList ≠ stringBytes "100%".toList := by
  refine ⟨runChain [Literal "100%%".toList], rfl, ?_, by decide⟩
  intro ev b hb
  obtain ⟨b1, hw, hr, hd⟩ := Literal_appends "100%%".toList ev b hb
  exact ⟨b1, by simp only [runChain, hw], hr, hd⟩

/-! ## Join -/

theorem Join_loop_appends (sep : GoString) (ev : Event) (n : Nat) :
    ∀ (formatters : List Formatter) (outs : List (List Nat)),
      List.Forall₂ (fun f o => Appends f ev o) formatters outs →
      ∀ (i : Nat) (b : buffer), i + formatters.length = n → b.read = false →
        ∃ b1, Join.loop sep n i formatters b ev = .ok b1 ∧ b1.read = false ∧
          b1.bytes.data = b.bytes.data ++ joinSpec (stringBytes sep) outs := by
  intro formatters outs h
  induction h with
  | nil => intro i b _ hb; exact ⟨b, rfl, hb, by simp [joinSpec]⟩
  | @cons f o fs os hfo hrest ih =>
    intro i b hi hb
    obtain ⟨b1, hw, hr1, hd1⟩ := hfo b hb
    have hlen : b1.Len > b.Len ↔ o ≠ [] := by
      simp only [buffer.Len, ByteSlice.len, hd1, List.length_append]
      constructor
      · intro hgt h0; subst h0; simp at hgt
      · intro hne
        have : 0 < o.length := List.length_pos.mpr hne
        omega
    simp only [List.length_cons] at hi
    cases hrest with
    | nil =>
      have hlast : ¬ ((i : Int) < (n : Int) - 1) := by simp at hi; omega
      refine ⟨b1, ?_, hr1, by simp [joinSpec, hd1]⟩
      simp [Join.loop, hw, hlast]
    | @cons f2 o2 fs2 os2 hfo2 hrest2 =>
      have hnl : (i : Int) < (n : Int) - 1 := by simp at hi; omega
      have ih2 := ih (i + 1)
      by_cases ho : o = []
      · have hng : ¬ b1.Len > b.Len := fun hgt => (hlen.mp hgt) ho
        obtain ⟨b2, hw2, hr2, hd2⟩ := ih2 b1 (by simp at hi ⊢; omega) hr1
        refine ⟨b2, ?_, hr2, ?_⟩
        · simp only [Join.loop, hw, hng, false_and, if_false]
          exact hw2
        · simp [joinSpec, ho, hd2, hd1]
      · have hg : b1.Len > b.Len := hlen.mpr ho
        obtain ⟨b2, hws, hr2, hd2⟩ := WriteString_unread b1 sep hr1
        obtain ⟨b3, hw3, hr3, hd3⟩ := ih2 b2 (by simp at hi ⊢; omega) hr2
        refine ⟨b3, ?_, hr3, ?_⟩
        · simp only [Join.loop, hw, hg, hnl, and_self, if_true, hws]
          exact hw3
        · simp [joinSpec, ho, hd3, hd2, hd1]

/-- C5: for every separator and every list of formatters that only add bytes to the
buffer, `Join` adds the outputs of the formatters in order, with the separator right
after an output exactly when that output is not empty and its formatter is not the last
one. -/
theorem Join_appends (sep : GoString) (formatters : List Formatter) (outs : List (List Nat))
    (ev : Event) (h : List.Forall₂ (fun f o => Appends f ev o) formatters outs) :
    Appends (Join sep formatters) ev (joinSpec (stringBytes sep) outs) ∧
    (∀ E : Formatter, Appends E ev [] →
      Appends (Join " ".toList [E, Literal "x".toList]) ev (stringBytes "x".toList)) := by
  constructor
  · intro b hb
    exact Join_loop_appends sep ev formatters.length formatters outs h 0 b (by simp) hb
  · intro E hE b hb
    exact Join_loop_appends " ".toList ev 2 [E, Literal "x".toList] [[], stringBytes "x".toList]
      (List.Forall₂.cons hE (List.Forall₂.cons (Literal_appends _ _) List.Forall₂.nil))
      0 b rfl hb

/-- Witness of C5: `Join(" ", E, Literal("x"))`, with `E` a formatter that writes
nothing, adds exactly the byte of `x`, with no space in front. -/
theorem Join_appends_witness :
    List.Forall₂ (fun f o => Appends f ⟨0, Level.INFO, EmptyContext, [], none, []⟩ o)
      [fun b _ => .ok b, Literal "x".toList] [[], stringBytes "x".toList] ∧
    Appends (Join " ".toList [fun b _ => .ok b, Literal "x".toList])
      ⟨0, Level.INFO, EmptyContext, [], none, []⟩ (stringBytes "x".toList) :=
  have h : List.Forall₂ (fun f o => Appends f ⟨0, Level.INFO, EmptyContext, [], none, []⟩ o)
      [fun b _ => .ok b, Literal "x".toList] [[], stringBytes "x".toList] :=
    List.Forall₂.cons (fun b hb => ⟨b, rfl, hb, by simp⟩)
      (List.Forall₂.cons (Literal_appends _ _) List.Forall₂.nil)
  ⟨h, (Join_appends " ".toList _ _ _ h).1⟩

/-! ## Messages and human-readable contexts -/

theorem FormatMessage_loop_appends (lib : GoLib) :
    ∀ (runes : List Char) (b : buffer), b.read = false →
      ∃ b1, FormatMessage.loop lib runes b = .ok b1 ∧ b1.read = false ∧
        b1.bytes.data = b.bytes.data ++ runes.flatMap (fun r =>
          if r = ' ' then EncodeRune (runeOf r)
          else if IsControl r ∨ IsSpace r then stringBytes (lib.escapedRune r)
          else EncodeRune (runeOf r)) := by
  intro runes
  induction runes with
  | nil => intro b hb; exact ⟨b, rfl, hb, by simp⟩
  | cons r rest ih =>
    intro b hb
    by_cases hsp : r = ' '
    · obtain ⟨b1, hw, hr1, hd1⟩ := WriteRune_unread b r hb
      obtain ⟨b2, hw2, hr2, hd2⟩ := ih b1 hr1
      refine ⟨b2, ?_, hr2, ?_⟩
      · simp only [FormatMessage.loop, hsp, if_true]
        rw [← hsp, hw]
        exact hw2
      · rw [hd2, hd1]
        simp [hsp]
    · by_cases hcs : IsControl r ∨ IsSpace r
      · have hq : ((QuoteRune lib r).drop 1).dropLast = lib.escapedRune r := by
          simp [QuoteRune]
        obtain ⟨b1, hw, hr1, hd1⟩ := WriteString_unread b (lib.escapedRune r) hb
        obtain ⟨b2, hw2, hr2, hd2⟩ := ih b1 hr1
        refine ⟨b2, ?_, hr2, ?_⟩
        · simp only [FormatMessage.loop, hsp, if_false, hcs, if_true, hq, hw]
          exact hw2
        · rw [hd2, hd1]
          simp [hsp, hcs]
      · obtain ⟨b1, hw, hr1, hd1⟩ := WriteRune_unread b r hb
        obtain ⟨b2, hw2, hr2, hd2⟩ := ih b1 hr1
        refine ⟨b2, ?_, hr2, ?_⟩
        · simp only [FormatMessage.loop, hsp, if_false, hcs, hw]
          exact hw2
        · rw [hd2, hd1]
          simp [hsp, hcs]

theorem FormatMessage_appends (lib : GoLib) (ev : Event) :
    Appends (FormatMessage lib) ev (sanitizedMessage lib ev.Message) :=
  fun b hb => FormatMessage_loop_appends lib (TrimSpace ev.Message) b hb

theorem FormatHumanContext_no_fields (lib : GoLib) (ev : Event)
    (h : ev.Context.NumFields = 0) : Appends (FormatHumanContext lib) ev [] := by
  intro b hb
  have he : ev.Context.fieldList = fieldList.empty := by
    unfold context.NumFields at h
    cases hf : ev.Context.fieldList with
    | empty => rfl
    | node k v prev => rw [hf] at h; simp [fieldList.NumFields] at h
  refine ⟨b, ?_, hb, by simp⟩
  simp [FormatHumanContext, context.Fields, he, fieldList.Fields, fieldList.entries,
    sortStrings, FormatHumanContext.loop]

theorem HumanMessage_join_spec (lib : GoLib) (ev : Event) (b : buffer)
    (hctx : ev.Context.NumFields = 0) (hb : b.read = false) :
    ∃ b1, HumanMessage lib b ev = .ok b1 ∧ b1.read = false ∧
      b1.bytes.data = b.bytes.data ++
        joinSpec (stringBytes " ".toList) [sanitizedMessage lib ev.Message, []] :=
  Join_loop_appends " ".toList ev 2 [FormatMessage lib, FormatHumanContext lib]
    [sanitizedMessage lib ev.Message, []]
    (List.Forall₂.cons (FormatMessage_appends lib ev)
      (List.Forall₂.cons (FormatHumanContext_no_fields lib ev hctx) List.Forall₂.nil))
    0 b rfl hb

/-- C6 as stated fails: for the message `hi` and a context without fields the sanitized
message is `hi`, and `HumanMessage` adds `hi` followed by a space to an empty buffer,
whatever the library tables are. -/
theorem HumanMessage_trailing_space :
    (∀ lib : GoLib, sanitizedMessage lib "hi".toList = stringBytes "hi".toList) ∧
    (∀ lib : GoLib, ∃ b1,
      HumanMessage lib (NewBufferFrom ⟨[], []⟩)
        ⟨0, Level.INFO, EmptyContext, [], none, "hi".toList⟩ = .ok b1 ∧
      b1.bytes.data = stringBytes "hi ".toList) := by
  constructor
  · intro lib; rfl
  · intro lib
    obtain ⟨b1, h1, _, hd⟩ := HumanMessage_join_spec lib
      ⟨0, Level.INFO, EmptyContext, [], none, "hi".toList⟩ (NewBufferFrom ⟨[], []⟩) rfl rfl
    exact ⟨b1, h1, by rw [hd]; rfl⟩

/-- C6, amended: for every event whose context has no fields, `HumanMessage` adds the
sanitized message, followed by one separator space when the sanitized message is not
empty, and nothing else. -/
theorem HumanMessage_no_fields (lib : GoLib) (ev : Event) (b : buffer)
    (hctx : ev.Context.NumFields = 0) (hb : b.read = false) :
    ∃ b1, HumanMessage lib b ev = .ok b1 ∧ b1.read = false ∧
      b1.bytes.data = b.bytes.data ++ sanitizedMessage lib ev.Message ++
        (if sanitizedMessage lib ev.Message = [] then [] else stringBytes " ".toList) := by
  obtain ⟨b1, h1, hr, hd⟩ := HumanMessage_join_spec lib ev b hctx hb
  refine ⟨b1, h1, hr, ?_⟩
  rw [hd]
  simp [joinSpec]

/-- Witness of C6, amended: the message `hi` with the empty context, on an empty buffer. -/
theorem HumanMessage_no_fields_witness :
    (⟨0, Level.INFO, EmptyContext, [], none, "hi".toList⟩ : Event).Context.NumFields = 0 ∧
    (NewBufferFrom ⟨[], []⟩).read = false ∧
    ∃ b1, HumanMessage plainLib (NewBufferFrom ⟨[], []⟩)
        ⟨0, Level.INFO, EmptyContext, [], none, "hi".toList⟩ = .ok b1 ∧ b1.read = false ∧
      b1.bytes.data = (NewBufferFrom ⟨[], []⟩).bytes.data ++
        sanitizedMessage plainLib "hi".toList ++
        (if sanitizedMessage plainLib "hi".toList = [] then [] else stringBytes " ".toList) :=
  ⟨rfl, rfl, HumanMessage_no_fields plainLib
    ⟨0, Level.INFO, EmptyContext, [], none, "hi".toList⟩ (NewBufferFrom ⟨[], []⟩) rfl rfl⟩

set_option maxRecDepth 100000

/-- C7 (evaluation of the code): for the event with level INFO, message `hello world`
and the single field `env=prod`, `Render(HumanMessage, event)` returns the 64 zero bytes
a buffer from `NewBuffer` starts with, followed by the bytes of `hello world env=prod`. -/
theorem Render_HumanMessage_hello_world (lib : GoLib) :
    Render (HumanMessage lib)
      ⟨0, Level.INFO, EmptyContext.WithField "env".toList "prod".toList, [], none,
        "hello world".toList⟩ =
      .ok (List.replicate 64 0 ++ stringBytes "hello world env=prod".toList) := by
  rfl

/-! ## Structured data -/

theorem EncodeRune_length_pos (r : rune) : 1 ≤ (EncodeRune r).length := by
  unfold EncodeRune
  simp only []
  split
  · simp
  · split
    · simp
    · split
      · simp
      · split <;> simp

theorem strlen_ge_length (s : GoString) : s.length ≤ strlen s := by
  induction s with
  | nil => simp [strlen, stringBytes]
  | cons c s ih =>
    have h := EncodeRune_length_pos (runeOf c)
    simp only [strlen, stringBytes, List.flatMap_cons, List.length_append, List.length_cons] at ih ⊢
    omega

theorem validStructuredKey_loop_iff (name : List Char) :
    validStructuredKey.loop name = true ↔
      ∀ c ∈ name, 32 < c.toNat ∧ c.toNat < 127 ∧ c ≠ '=' ∧ c ≠ ']' ∧ c ≠ '"' := by
  induction name with
  | nil => simp [validStructuredKey.loop]
  | cons r rest ih =>
    simp only [validStructuredKey.loop, List.mem_cons, forall_eq_or_imp]
    by_cases h1 : r.toNat ≤ 32
    · simp [h1]
    · by_cases h2 : r.toNat ≥ 127
      · simp [h1, h2]
      · by_cases h3 : r = '=' ∨ r = ']' ∨ r = '"'
        · simp only [h1, h2, h3, if_true, if_false]
          constructor
          · intro h; cases h
          · rintro ⟨⟨_, _, a, b, c⟩, _⟩
            rcases h3 with h | h | h
            · exact absurd h a
            · exact absurd h b
            · exact absurd h c
        · simp only [h1, h2, h3, if_false, ih]
          push_neg at h3
          constructor
          · intro h; exact ⟨⟨by omega, by omega, h3.1, h3.2.1, h3.2.2⟩, h⟩
          · intro h; exact h.2

theorem strlen_ascii (s : GoString) (h : ∀ c ∈ s, c.toNat < 128) : strlen s = s.length := by
  induction s with
  | nil => simp [strlen, stringBytes]
  | cons c s ih =>
    have hc : c.toNat < 128 := h c (List.mem_cons_self _ _)
    have he : EncodeRune (runeOf c) = [((runeOf c) % 256).toNat] :=
      EncodeRune_ascii (runeOf c) (by simp [runeOf]) (by simp only [runeOf]; omega)
    have ih2 := ih (fun d hd => h d (List.mem_cons_of_mem _ hd))
    simp only [strlen, stringBytes, List.flatMap_cons, List.length_append, List.length_cons] at ih2 ⊢
    rw [he, ih2]
    simp
    omega

/-- C8: `validStructuredKey(name)` holds exactly when `name` has at most 32 code points,
each of them strictly between 32 and 127 and none of them `=`, `]` or `"`. The test the
code makes on the number of bytes decides the same as a test on the number of code
points. A key of 33 code points and a key that contains `=` are rejected, a key of 32
ASCII letters is accepted. -/
theorem validStructuredKey_iff (name : GoString) :
    (validStructuredKey name = true ↔
      name.length ≤ 32 ∧
        ∀ c ∈ name, 32 < c.toNat ∧ c.toNat < 127 ∧ c ≠ '=' ∧ c ≠ ']' ∧ c ≠ '"') ∧
    (name.length = 33 → validStructuredKey name = false) ∧
    ('=' ∈ name → validStructuredKey name = false) ∧
    (name.length = 32 →
      (∀ c ∈ name, (65 ≤ c.toNat ∧ c.toNat ≤ 90) ∨ (97 ≤ c.toNat ∧ c.toNat ≤ 122)) →
      validStructuredKey name = true) := by
  have hiff : validStructuredKey name = true ↔
      name.length ≤ 32 ∧
        ∀ c ∈ name, 32 < c.toNat ∧ c.toNat < 127 ∧ c ≠ '=' ∧ c ≠ ']' ∧ c ≠ '"' := by
    unfold validStructuredKey
    constructor
    · intro h
      by_cases hlen : strlen name > 32
      · simp [hlen] at h
      · simp only [hlen, if_false] at h
        have := strlen_ge_length name
        exact ⟨by omega, (validStructuredKey_loop_iff name).mp h⟩
    · rintro ⟨hlen, hall⟩
      have hascii : strlen name = name.length :=
        strlen_ascii name (fun c hc => by have := (hall c hc).2.1; omega)
      have hnot : ¬ strlen name > 32 := by omega
      simp only [hnot, if_false]
      exact (validStructuredKey_loop_iff name).mpr hall
  refine ⟨hiff, ?_, ?_, ?_⟩
  · intro h33
    cases hv : validStructuredKey name with
    | false => rfl
    | true => have := (hiff.mp hv).1; omega
  · intro hmem
    cases hv : validStructuredKey name with
    | false => rfl
    | true => exact absurd rfl ((hiff.mp hv).2 '=' hmem).2.2.1
  · intro h32 halpha
    refine hiff.mpr ⟨by omega, ?_⟩
    intro c hc
    have ha := halpha c hc
    refine ⟨by omega, by omega, ?_, ?_, ?_⟩ <;> intro he <;> rw [he] at ha <;>
      simp at ha

theorem stringBytes_append (a b : GoString) :
    stringBytes (a ++ b) = stringBytes a ++ stringBytes b := by
  simp [stringBytes]

theorem stringBytes_singleton (c : Char) : stringBytes [c] = EncodeRune (runeOf c) := by
  simp [stringBytes]

theorem formatStructuredValue_loop_appends :
    ∀ (s : List Char) (b : buffer), b.read = false →
      ∃ b1, formatStructuredValue.loop s b = .ok b1 ∧ b1.read = false ∧
        b1.bytes.data = b.bytes.data ++ stringBytes (escapeStructured s) := by
  intro s
  induction s with
  | nil => intro b hb; exact ⟨b, rfl, hb, by simp [escapeStructured, stringBytes]⟩
  | cons r rest ih =>
    intro b hb
    have hcons : escapeStructured (r :: rest) =
        (if r = '\'' ∨ r = '\\' ∨ r = ']' then ['\\', r] else [r]) ++ escapeStructured rest := by
      simp [escapeStructured]
    by_cases h1 : r = '\''
    · obtain ⟨b1, hw1, hr1, hd1⟩ := WriteRune_unread b '\\' hb
      obtain ⟨b2, hw2, hr2, hd2⟩ := WriteRune_unread b1 '\'' hr1
      obtain ⟨b3, hw3, hr3, hd3⟩ := ih b2 hr2
      refine ⟨b3, ?_, hr3, ?_⟩
      · simp only [formatStructuredValue.loop, h1, if_true, hw1, hw2]
        exact hw3
      · rw [hd3, hd2, hd1, hcons, stringBytes_append]
        simp [h1, stringBytes]
    · by_cases h2 : r = '\\'
      · obtain ⟨b1, hw1, hr1, hd1⟩ := WriteRune_unread b '\\' hb
        obtain ⟨b2, hw2, hr2, hd2⟩ := WriteRune_unread b1 '\\' hr1
        obtain ⟨b3, hw3, hr3, hd3⟩ := ih b2 hr2
        refine ⟨b3, ?_, hr3, ?_⟩
        · simp only [formatStructuredValue.loop, h2, if_true, hw1, hw2]
          exact hw3
        · rw [hd3, hd2, hd1, hcons, stringBytes_append]
          simp [h2, stringBytes]
      · by_cases h3 : r = ']'
        · obtain ⟨b1, hw1, hr1, hd1⟩ := WriteRune_unread b '\\' hb
          obtain ⟨b2, hw2, hr2, hd2⟩ := WriteRune_unread b1 ']' hr1
          obtain ⟨b3, hw3, hr3, hd3⟩ := ih b2 hr2
          refine ⟨b3, ?_, hr3, ?_⟩
          · simp only [formatStructuredValue.loop, h3, if_true, hw1, hw2]
            exact hw3
          · rw [hd3, hd2, hd1, hcons, stringBytes_append]
            simp [h3, stringBytes]
        · obtain ⟨b1, hw1, hr1, hd1⟩ := WriteRune_unread b r hb
          obtain ⟨b3, hw3, hr3, hd3⟩ := ih b1 hr1
          refine ⟨b3, ?_, hr3, ?_⟩
          · simp only [formatStructuredValue.loop, h1, h2, h3, if_false, hw1]
            exact hw3
          · rw [hd3, hd1, hcons, stringBytes_append]
            simp [h1, h2, h3, stringBytes]

theorem formatStructuredPair_appends (b : buffer) (name value : GoString)
    (hb : b.read = false) :
    ∃ b1, formatStructuredPair b name value = .ok b1 ∧ b1.read = false ∧
      b1.bytes.data = b.bytes.data ++ structuredPair name value := by
  obtain ⟨b1, hw1, hr1, hd1⟩ := WriteString_unread b name hb
  obtain ⟨b2, hw2, hr2, hd2⟩ := WriteRune_unread b1 '=' hr1
  obtain ⟨b3, hw3, hr3, hd3⟩ := WriteRune_unread b2 '"' hr2
  obtain ⟨b4, hw4, hr4, hd4⟩ := formatStructuredValue_loop_appends value b3 hr3
  obtain ⟨b5, hw5, hr5, hd5⟩ := WriteRune_unread b4 '"' hr4
  refine ⟨b5, ?_, hr5, ?_⟩
  · simp only [formatStructuredPair, formatStructuredValue, hw1, hw2, hw3, hw4, hw5]
  · rw [hd5, hd4, hd3, hd2, hd1]
    simp [structuredPair, stringBytes_append, stringBytes]

/-- For a value of well-formed text, given by its code points, `formatStructuredValue`
adds the escaped value and `formatStructuredPair` the pair. -/
theorem formatStructuredValue_text (b : buffer) (name s : GoString) (hb : b.read = false) :
    (∃ b1, formatStructuredValue b s = .ok b1 ∧ b1.read = false ∧
      b1.bytes.data = b.bytes.data ++ stringBytes (escapeStructured s)) ∧
    ((∀ c ∈ s, c ≠ '\'' ∧ c ≠ '\\' ∧ c ≠ ']') → escapeStructured s = s) ∧
    (∃ b1, formatStructuredPair b name s = .ok b1 ∧ b1.read = false ∧
      b1.bytes.data = b.bytes.data ++ stringBytes name ++ stringBytes "=\"".toList ++
        stringBytes (escapeStructured s) ++ stringBytes "\"".toList) := by
  refine ⟨formatStructuredValue_loop_appends s b hb, ?_, ?_⟩
  · intro hs
    induction s with
    | nil => rfl
    | cons c s ih =>
      have hc := hs c (List.mem_cons_self _ _)
      have ih2 := ih (fun d hd => hs d (List.mem_cons_of_mem _ hd))
      simp only [escapeStructured, List.flatMap_cons] at ih2 ⊢
      rw [ih2]
      simp [hc.1, hc.2.1, hc.2.2]
  · obtain ⟨b1, hw, hr, hd⟩ := formatStructuredPair_appends b name s hb
    refine ⟨b1, hw, hr, ?_⟩
    rw [hd]
    simp [structuredPair, stringBytes]

theorem NumFields_eq_length (l : fieldList) : l.NumFields = l.entries.length := by
  induction l with
  | empty => rfl
  | node k v prev ih => simp [fieldList.NumFields, fieldList.entries, ih]

theorem formatStructuredContext_fold (N : Nat) :
    ∀ (es : List (GoString × GoString)) (b : buffer) (j : Nat), b.read = false →
      ∃ b1 j1, es.foldlM (fun st kv => formatStructuredContext.visit N kv.1 kv.2 st) (b, j) =
          (.ok (b1, j1) : Except Panic (buffer × Nat)) ∧ b1.read = false ∧
        b1.bytes.data = b.bytes.data ++ structuredSpec N es j := by
  intro es
  induction es with
  | nil => intro b j hb; exact ⟨b, j, rfl, hb, by simp [structuredSpec]⟩
  | cons e rest ih =>
    intro b j hb
    obtain ⟨k, v⟩ := e
    by_cases hv : validStructuredKey k = true
    · obtain ⟨b1, hw1, hr1, hd1⟩ := formatStructuredPair_appends b k v hb
      by_cases hj : j + 1 < N
      · have hji : (j : Int) < (N : Int) - 1 := by omega
        obtain ⟨b2, hw2, hr2, hd2⟩ := WriteRune_unread b1 ' ' hr1
        obtain ⟨b3, j3, hw3, hr3, hd3⟩ := ih b2 (j + 1) hr2
        refine ⟨b3, j3, ?_, hr3, ?_⟩
        · simp only [List.foldlM_cons, formatStructuredContext.visit, hv, Bool.not_true,
            Bool.false_eq_true, if_false, hw1, hji, if_true, hw2, bind, Except.bind]
          exact hw3
        · rw [hd3, hd2, hd1]
          have he : EncodeRune (runeOf ' ') = [32] := by decide
          simp [structuredSpec, hv, hj, he]
      · have hji : ¬ ((j : Int) < (N : Int) - 1) := by omega
        obtain ⟨b3, j3, hw3, hr3, hd3⟩ := ih b1 (j + 1) hr1
        refine ⟨b3, j3, ?_, hr3, ?_⟩
        · simp only [List.foldlM_cons, formatStructuredContext.visit, hv, Bool.not_true,
            Bool.false_eq_true, if_false, hw1, hji, bind, Except.bind]
          exact hw3
        · rw [hd3, hd1]
          simp [structuredSpec, hv, hj]
    · obtain ⟨b3, j3, hw3, hr3, hd3⟩ := ih b j hb
      refine ⟨b3, j3, ?_, hr3, ?_⟩
      · simp only [List.foldlM_cons, formatStructuredContext.visit, hv, Bool.not_false,
          if_true, bind, Except.bind]
        exact hw3
      · rw [hd3]
        simp [structuredSpec, hv]

theorem structuredSpec_all_valid (N : Nat) :
    ∀ (es : List (GoString × GoString)) (j : Nat), j + es.length = N →
      (∀ e ∈ es, validStructuredKey e.1 = true) →
      structuredSpec N es j =
        ([32] : List Nat).intercalate (es.map (fun e => structuredPair e.1 e.2)) := by
  intro es
  induction es with
  | nil => intro j _ _; simp [structuredSpec, List.intercalate]
  | cons e rest ih =>
    intro j hj hall
    obtain ⟨k, v⟩ := e
    have hv : validStructuredKey k = true := hall (k, v) (List.mem_cons_self _ _)
    have ih2 := ih (j + 1) (by simp at hj; omega)
      (fun e he => hall e (List.mem_cons_of_mem _ he))
    cases rest with
    | nil =>
      have hj1 : ¬ (j + 1 < N) := by simp at hj; omega
      simp [structuredSpec, hv, hj1, List.intercalate]
    | cons e2 rest2 =>
      have hj1 : j + 1 < N := by simp at hj; omega
      simp only [structuredSpec, hv, if_true, hj1] at ih2 ⊢
      rw [ih2]
      simp [List.intercalate, List.intersperse]

theorem structuredSpec_some_invalid (N : Nat) :
    ∀ (es : List (GoString × GoString)) (j : Nat),
      j + (es.filter (fun e => validStructuredKey e.1)).length < N →
      structuredSpec N es j =
        (es.filter (fun e => validStructuredKey e.1)).flatMap
          (fun e => structuredPair e.1 e.2 ++ [32]) := by
  intro es
  induction es with
  | nil => intro j _; simp [structuredSpec]
  | cons e rest ih =>
    intro j hj
    obtain ⟨k, v⟩ := e
    by_cases hv : validStructuredKey k = true
    · simp only [List.filter_cons, hv, if_true, List.length_cons] at hj
      have hj1 : j + 1 < N := by omega
      simp only [structuredSpec, hv, if_true, hj1, List.filter_cons, List.flatMap_cons]
      rw [ih (j + 1) (by omega)]
    · simp only [List.filter_cons, hv, if_false] at hj
      simp only [structuredSpec, hv, if_false, List.filter_cons]
      exact ih j hj

theorem filter_length_lt {α : Type} (p : α → Bool) (l : List α)
    (h : ∃ x ∈ l, p x = false) : (l.filter p).length < l.length := by
  induction l with
  | nil => obtain ⟨x, hx, _⟩ := h; cases hx
  | cons a l ih =>
    obtain ⟨x, hx, hpx⟩ := h
    by_cases hpa : p a = true
    · have hxl : x ∈ l := by
        rcases List.mem_cons.mp hx with h1 | h1
        · subst h1; rw [hpa] at hpx; cases hpx
        · exact h1
      have := ih ⟨x, hxl, hpx⟩
      simp [List.filter_cons, hpa]
      omega
    · have := List.length_filter_le p l
      simp [List.filter_cons, hpa]
      omega

/-- C10: for a context whose entries, as `Each` visits them, are `e_1..e_N` with
`N = NumFields()`, `formatStructuredContext` adds to a buffer that has not been read the
pairs of the entries with a valid key, in insertion order, the pair number `j` (from 0,
among the written pairs) followed by one space exactly when `j < N - 1`; entries with an
invalid key add nothing. Hence with only valid keys the pairs are separated by single
spaces with no space at the end, and with at least one invalid key every written pair,
the last one included, is followed by a space. -/
theorem formatStructuredContext_spec (ctx : context) (b : buffer) (hb : b.read = false) :
    ctx.NumFields = ctx.fieldList.entries.length ∧
    (∃ b1, formatStructuredContext b ctx = .ok b1 ∧ b1.read = false ∧
      b1.bytes.data = b.bytes.data ++ structuredSpec ctx.NumFields ctx.fieldList.entries 0) ∧
    ((∀ e ∈ ctx.fieldList.entries, validStructuredKey e.1 = true) →
      structuredSpec ctx.NumFields ctx.fieldList.entries 0 =
        ([32] : List Nat).intercalate
          (ctx.fieldList.entries.map (fun e => structuredPair e.1 e.2))) ∧
    ((∃ e ∈ ctx.fieldList.entries, validStructuredKey e.1 = false) →
      structuredSpec ctx.NumFields ctx.fieldList.entries 0 =
        (ctx.fieldList.entries.filter (fun e => validStructuredKey e.1)).flatMap
          (fun e => structuredPair e.1 e.2 ++ [32])) := by
  have hN : ctx.NumFields = ctx.fieldList.entries.length := NumFields_eq_length ctx.fieldList
  refine ⟨hN, ?_, ?_, ?_⟩
  · obtain ⟨b1, j1, hf, hr, hd⟩ :=
      formatStructuredContext_fold ctx.NumFields ctx.fieldList.entries b 0 hb
    refine ⟨b1, ?_, hr, hd⟩
    simp only [formatStructuredContext, context.Each, fieldList.Each, hf]
  · intro hall
    exact structuredSpec_all_valid _ _ 0 (by omega) hall
  · intro hex
    apply structuredSpec_some_invalid
    have := filter_length_lt (fun e : GoString × GoString => validStructuredKey e.1)
      ctx.fieldList.entries hex
    omega

/-- Witness of C10: the context with the fields `tag=dev`, `b=d=x` (invalid key) and
`tag=sometag`, on an empty buffer: both written pairs are followed by a space. -/
theorem formatStructuredContext_spec_witness :
    (NewBufferFrom ⟨[], []⟩).read = false ∧
    ∃ b1, formatStructuredContext (NewBufferFrom ⟨[], []⟩)
        (((EmptyContext.WithField "tag".toList "dev".toList).WithField "b=d".toList
          "x".toList).WithField "tag".toList "sometag".toList) = .ok b1 ∧
      b1.bytes.data = stringBytes "tag=\"dev\" tag=\"sometag\" ".toList := by
  obtain ⟨_, ⟨b1, h1, _, hd⟩, _, _⟩ := formatStructuredContext_spec
    (((EmptyContext.WithField "tag".toList "dev".toList).WithField "b=d".toList
      "x".toList).WithField "tag".toList "sometag".toList) (NewBufferFrom ⟨[], []⟩) rfl
  exact ⟨rfl, b1, h1, by rw [hd]; decide⟩

/-! ## Syslog priority and structured-data block -/

theorem formatStructuredContext_appends (ctx : context) (b : buffer) (hb : b.read = false) :
    ∃ b1, formatStructuredContext b ctx = .ok b1 ∧ b1.read = false ∧
      b1.bytes.data = b.bytes.data ++ structuredSpec ctx.NumFields ctx.fieldList.entries 0 := by
  obtain ⟨b1, j1, hf, hr, hd⟩ :=
    formatStructuredContext_fold ctx.NumFields ctx.fieldList.entries b 0 hb
  refine ⟨b1, ?_, hr, hd⟩
  simp only [formatStructuredContext, context.Each, fieldList.Each, hf]

theorem rfc5424ContextFormatter_run (structuredId : GoString)
    (transformer : Option (context → context)) (ev : Event) (ctx : context)
    (hctx : ctx = match transformer with
      | some t => t ev.Context
      | none => ev.Context) :
    Appends (rfc5424ContextFormatter structuredId transformer) ev
      (stringBytes structuredId ++ [32] ++ List.replicate 64 0 ++
        structuredSpec ctx.NumFields ctx.fieldList.entries 0) := by
  intro b hb
  obtain ⟨b1, hw1, hr1, hd1⟩ := WriteString_unread b structuredId hb
  obtain ⟨sub1, hs, _, hsd⟩ := formatStructuredContext_appends ctx NewBuffer rfl
  have hlen : sub1.Len > 0 := by
    simp [buffer.Len, ByteSlice.len, hsd, NewBuffer, make]
  obtain ⟨b2, hw2, hr2, hd2⟩ := WriteRune_unread b1 ' ' hr1
  obtain ⟨b3, hw3, hr3, hd3⟩ := Write_unread b2 sub1.Bytes.1 hr2
  refine ⟨b3, ?_, hr3, ?_⟩
  · rw [hctx] at hs
    simp only [rfc5424ContextFormatter, hw1, hs, hlen, if_true, hw2]
    exact hw3
  · have he : EncodeRune (runeOf ' ') = [32] := by decide
    rw [hd3, hd2, hd1, he]
    simp [buffer.Bytes, hsd, NewBuffer, make]

/-- C12 (evaluation of the code): for every structured ID, every transformer or none
and every event, `rfc5424ContextFormatter` adds the structured ID, then a space, then
the 64 zero bytes a buffer from `NewBuffer` starts with, then the structured data of the
context. For the ID `bogus@12345`, no transformer and the empty context it adds the ID,
a space and 64 zero bytes, and not the ID alone. -/
theorem rfc5424ContextFormatter_empty_context (structuredId : GoString)
    (transformer : Option (context → context)) (ev : Event) :
    Appends (rfc5424ContextFormatter structuredId transformer) ev
      (stringBytes structuredId ++ [32] ++ List.replicate 64 0 ++
        structuredSpec
          (match transformer with
            | some t => t ev.Context
            | none => ev.Context).NumFields
          (match transformer with
            | some t => t ev.Context
            | none => ev.Context).fieldList.entries 0) ∧
    Appends (rfc5424ContextFormatter "bogus@12345".toList none)
      ⟨0, Level.INFO, EmptyContext, [], none, []⟩
      (stringBytes "bogus@12345".toList ++ [32] ++ List.replicate 64 0) ∧
    stringBytes "bogus@12345".toList ++ [32] ++ List.replicate 64 0 ≠
      stringBytes "bogus@12345".toList := by
  refine ⟨rfc5424ContextFormatter_run structuredId transformer ev _ rfl, ?_, by decide⟩
  have h := rfc5424ContextFormatter_run "bogus@12345".toList none
    ⟨0, Level.INFO, EmptyContext, [], none, []⟩ EmptyContext rfl
  simpa [structuredSpec, EmptyContext, newContext, fieldList.entries] using h

/-! ## Capacity and runes -/

theorem ensureCapacity_cap_eq (b : buffer) (size : Nat) :
    (b.ensureCapacity size).bytes.cap =
      if b.bytes.len + size > b.bytes.cap then 2 * b.bytes.cap + size else b.bytes.cap := by
  unfold buffer.ensureCapacity
  simp only []
  split
  · simp [ByteSlice.copyAt, make, ByteSlice.len, ByteSlice.cap]
    omega
  · rfl

theorem Write_cap (b : buffer) (value : List Nat) (h : b.read = false) :
    ∃ b1, b.Write value = .ok b1 ∧
      b1.bytes.cap = (b.ensureCapacity value.length).bytes.cap := by
  have hcap := ensureCapacity_cap b value.length
  have hdata := ensureCapacity_data b value.length
  have hlen : (b.ensureCapacity value.length).bytes.len = b.bytes.len := by
    simp [ByteSlice.len, hdata]
  rw [← hlen] at hcap
  obtain ⟨t, ht, _, hc⟩ := reslice_copy (b.ensureCapacity value.length).bytes value hcap
  rw [hlen] at ht hc
  exact ⟨{ b.ensureCapacity value.length with bytes := t.copyAt b.bytes.len value },
    by simp [buffer.Write, h, ht], hc⟩

theorem WriteString_cap (b : buffer) (value : GoString) (h : b.read = false) :
    ∃ b1, b.WriteString value = .ok b1 ∧
      b1.bytes.cap = (b.ensureCapacity (strlen value)).bytes.cap := by
  have hcap := ensureCapacity_cap b (strlen value)
  have hdata := ensureCapacity_data b (strlen value)
  have hlen : (b.ensureCapacity (strlen value)).bytes.len = b.bytes.len := by
    simp [ByteSlice.len, hdata]
  rw [← hlen] at hcap
  obtain ⟨t, ht, _, hc⟩ :=
    reslice_copy (b.ensureCapacity (strlen value)).bytes (stringBytes value) hcap
  rw [hlen] at ht hc
  have ht2 : (b.ensureCapacity (strlen value)).bytes.resliceTo (b.bytes.len + strlen value) =
      some t := ht
  exact ⟨{ b.ensureCapacity (strlen value) with
      bytes := t.copyAt b.bytes.len (stringBytes value) },
    by simp [buffer.WriteString, h, ht2], hc⟩

theorem WriteByte_cap (b : buffer) (value : Nat) (h : b.read = false) :
    ∃ b1, b.WriteByte value = .ok b1 ∧
      b1.bytes.cap = (b.ensureCapacity 1).bytes.cap := by
  refine ⟨_, by simp only [buffer.WriteByte, h]; rfl, ?_⟩
  have hcap := ensureCapacity_cap b 1
  have hdata := ensureCapacity_data b 1
  simp only [ByteSlice.append1]
  split
  · rename_i hsp
    simp only [ByteSlice.cap, ByteSlice.len, hsp, hdata, List.length_nil] at hcap
    omega
  · rename_i x rest hsp
    simp [ByteSlice.cap, hsp]
    omega

/-- C17: on a buffer that has not been read, with length `n` and capacity `c`, a write
of `k` bytes by `Write`, `WriteString` or `WriteByte` (`k = 1`) leaves the capacity
`2 * c + k` when `n + k > c` and leaves it `c` otherwise; either way the capacity after
the write is at least `n + k`. -/
theorem write_capacity (b : buffer) (hb : b.read = false) :
    (∀ value : List Nat, ∃ b1, b.Write value = .ok b1 ∧
      b1.bytes.cap = (if b.Len + value.length > b.bytes.cap
        then 2 * b.bytes.cap + value.length else b.bytes.cap) ∧
      b.Len + value.length ≤ b1.bytes.cap) ∧
    (∀ value : GoString, ∃ b1, b.WriteString value = .ok b1 ∧
      b1.bytes.cap = (if b.Len + strlen value > b.bytes.cap
        then 2 * b.bytes.cap + strlen value else b.bytes.cap) ∧
      b.Len + strlen value ≤ b1.bytes.cap) ∧
    (∀ value : Nat, ∃ b1, b.WriteByte value = .ok b1 ∧
      b1.bytes.cap = (if b.Len + 1 > b.bytes.cap
        then 2 * b.bytes.cap + 1 else b.bytes.cap) ∧
      b.Len + 1 ≤ b1.bytes.cap) := by
  refine ⟨?_, ?_, ?_⟩
  · intro value
    obtain ⟨b1, hw, hc⟩ := Write_cap b value hb
    refine ⟨b1, hw, ?_, ?_⟩
    · rw [hc, ensureCapacity_cap_eq]; rfl
    · rw [hc]; exact ensureCapacity_cap b value.length
  · intro value
    obtain ⟨b1, hw, hc⟩ := WriteString_cap b value hb
    refine ⟨b1, hw, ?_, ?_⟩
    · rw [hc, ensureCapacity_cap_eq]; rfl
    · rw [hc]; exact ensureCapacity_cap b (strlen value)
  · intro value
    obtain ⟨b1, hw, hc⟩ := WriteByte_cap b value hb
    refine ⟨b1, hw, ?_, ?_⟩
    · rw [hc, ensureCapacity_cap_eq]; rfl
    · rw [hc]; exact ensureCapacity_cap b 1

/-- Witness of C17: a full buffer of capacity 2 receives three bytes and has capacity 7
afterwards. -/
theorem write_capacity_witness :
    (buffer.mk ⟨[1, 2], []⟩ false).read = false ∧
    ∃ b1, (buffer.mk ⟨[1, 2], []⟩ false).Write [3, 4, 5] = .ok b1 ∧ b1.bytes.cap = 7 := by
  obtain ⟨b1, hw, hc, _⟩ := (write_capacity (buffer.mk ⟨[1, 2], []⟩ false) rfl).1 [3, 4, 5]
  exact ⟨rfl, b1, hw, by rw [hc]; decide⟩

theorem lor_0x80 : ∀ y, y < 64 → 0x80 ||| y = 0x80 + y := by decide

theorem lor_0xC0 : ∀ y, y < 32 → 0xC0 ||| y = 0xC0 + y := by decide

theorem lor_0xE0 : ∀ y, y < 16 → 0xE0 ||| y = 0xE0 + y := by decide

theorem lor_0xF0 : ∀ y, y < 8 → 0xF0 ||| y = 0xF0 + y := by decide

theorem and_0x3F (x : Nat) : (x % 256) &&& 0x3F = x % 64 := by
  have h := Nat.and_pow_two_sub_one_eq_mod (x % 256) 6
  have h2 : (2 : Nat) ^ 6 - 1 = 0x3F := by decide
  rw [h2] at h
  rw [h]
  omega

theorem EncodeRune_ofNat (n : Nat) (hle : n ≤ 0x10FFFF)
    (hs : ¬ (0xD800 ≤ n ∧ n ≤ 0xDFFF)) : EncodeRune (n : Int) = utf8Encoding n := by
  have hi : ((n : Int) % 4294967296).toNat = n := by omega
  unfold EncodeRune utf8Encoding
  simp only [hi, Nat.shiftRight_eq_div_pow, and_0x3F]
  by_cases h1 : n ≤ 0x7F
  · have h1b : n < 0x80 := by omega
    have h1c : n % 256 = n := by omega
    simp only [h1, h1b, if_true, h1c]
  · have h1b : ¬ n < 0x80 := by omega
    simp only [h1, h1b, if_false]
    by_cases h2 : n ≤ 0x7FF
    · have h2b : n < 0x800 := by omega
      have e1 : n / 2 ^ 6 % 256 = n / 64 := by omega
      simp only [h2, h2b, if_true, e1]
      rw [lor_0xC0 _ (by omega), lor_0x80 _ (by omega)]
    · have h2b : ¬ n < 0x800 := by omega
      have h3 : ¬ (n > 0x10FFFF ∨ (0xD800 ≤ n ∧ n ≤ 0xDFFF)) := by omega
      simp only [h2, h2b, h3, if_false]
      by_cases h4 : n ≤ 0xFFFF
      · have h4b : n < 0x10000 := by omega
        have e1 : n / 2 ^ 12 % 256 = n / 4096 := by omega
        have e2 : (n / 2 ^ 6) % 64 = n / 64 % 64 := by omega
        simp only [h4, h4b, if_true, e1, e2]
        rw [lor_0xE0 _ (by omega), lor_0x80 _ (by omega), lor_0x80 _ (by omega)]
      · have h4b : ¬ n < 0x10000 := by omega
        have e1 : n / 2 ^ 18 % 256 = n / 262144 := by omega
        have e2 : (n / 2 ^ 12) % 64 = n / 4096 % 64 := by omega
        have e3 : (n / 2 ^ 6) % 64 = n / 64 % 64 := by omega
        simp only [h4, h4b, if_false, e1, e2, e3]
        rw [lor_0xF0 _ (by omega), lor_0x80 _ (by omega), lor_0x80 _ (by omega),
          lor_0x80 _ (by omega)]

theorem EncodeRune_eq_utf8Encoding (r : Int) (hv : ValidRune r) :
    EncodeRune r = utf8Encoding r.toNat := by
  obtain ⟨h0, hmax, hsur⟩ := hv
  have hn : (r.toNat : Int) = r := Int.toNat_of_nonneg h0
  have h := EncodeRune_ofNat r.toNat (by omega) (by omega)
  rw [hn] at h
  exact h

/-- C18: on a buffer that has not been read, `WriteRune(r)` for a valid rune `r` (a code
point up to U+10FFFF that is not a surrogate half) adds exactly the UTF-8 encoding of
`r`: the single byte `r` when `r < 128` and two to four bytes otherwise, each of them a
byte, so that `Len()` grows by the length of that encoding. -/
theorem WriteRune_utf8 (b : buffer) (r : Int) (hb : b.read = false) (hv : ValidRune r) :
    ∃ b1, b.WriteRune r = .ok b1 ∧ b1.read = false ∧
      b1.bytes.data = b.bytes.data ++ utf8Encoding r.toNat ∧
      b1.Len = b.Len + (utf8Encoding r.toNat).length ∧
      (r < 128 → utf8Encoding r.toNat = [r.toNat]) ∧
      (128 ≤ r → 2 ≤ (utf8Encoding r.toNat).length ∧ (utf8Encoding r.toNat).length ≤ 4) ∧
      (∀ x ∈ utf8Encoding r.toNat, x < 256) := by
  have henc := EncodeRune_eq_utf8Encoding r hv
  obtain ⟨h0, hmax, hsur⟩ := hv
  have hsmall : r < 128 → utf8Encoding r.toNat = [r.toNat] := by
    intro h
    have : r.toNat < 0x80 := by omega
    simp [utf8Encoding, this]
  have hlarge : 128 ≤ r →
      2 ≤ (utf8Encoding r.toNat).length ∧ (utf8Encoding r.toNat).length ≤ 4 := by
    intro h
    have : ¬ r.toNat < 0x80 := by omega
    unfold utf8Encoding
    simp only [this, if_false]
    split
    · simp
    · split <;> simp
  have hbytes : ∀ x ∈ utf8Encoding r.toNat, x < 256 := by
    have hle : r.toNat ≤ 0x10FFFF := by omega
    intro x hx
    unfold utf8Encoding at hx
    split at hx
    · simp at hx; omega
    · split at hx
      · simp at hx; omega
      · split at hx
        · simp at hx; omega
        · simp at hx; omega
  have hdata : ∃ b1, b.WriteRune r = .ok b1 ∧ b1.read = false ∧
      b1.bytes.data = b.bytes.data ++ utf8Encoding r.toNat := by
    by_cases hc : r < 128
    · obtain ⟨b1, hw, hr, hd⟩ := WriteByte_unread b (r % 256).toNat hb
      refine ⟨b1, by simp [buffer.WriteRune, hb, hc, hw], hr, ?_⟩
      rw [hd, hsmall hc]
      have : (r % 256).toNat = r.toNat := by omega
      rw [this]
    · obtain ⟨b1, hw, hr, hd⟩ := Write_unread b (EncodeRune r) hb
      exact ⟨b1, by simp [buffer.WriteRune, hb, hc, hw], hr, by rw [hd, henc]⟩
  obtain ⟨b1, hw, hr, hd⟩ := hdata
  refine ⟨b1, hw, hr, hd, ?_, hsmall, hlarge, hbytes⟩
  simp [buffer.Len, ByteSlice.len, hd]

/-- Witness of C18: the euro sign U+20AC on an empty buffer gives the bytes E2 82 AC. -/
theorem WriteRune_utf8_witness :
    (NewBufferFrom ⟨[], []⟩).read = false ∧ ValidRune 0x20AC ∧
    ∃ b1, (NewBufferFrom ⟨[], []⟩).WriteRune 0x20AC = .ok b1 ∧
      b1.bytes.data = [0xE2, 0x82, 0xAC] := by
  have hv : ValidRune 0x20AC := by unfold ValidRune; omega
  obtain ⟨b1, hw, _, hd, _⟩ := WriteRune_utf8 (NewBufferFrom ⟨[], []⟩) 0x20AC rfl hv
  exact ⟨rfl, hv, b1, hw, by rw [hd]; decide⟩

/-! ## Contexts -/

theorem foldl_append_entries (es : List (GoString × GoString)) :
    ∀ l : fieldList, (es.foldl (fun l kv => l.append kv.1 kv.2) l).entries = l.entries ++ es := by
  induction es with
  | nil => intro l; simp
  | cons e es ih =>
    intro l
    rw [List.foldl_cons, ih]
    simp [fieldList.append, fieldList.entries]

theorem ofEntries_entries (es : List (GoString × GoString)) :
    (fieldList.ofEntries es).entries = es := by
  simp [fieldList.ofEntries, foldl_append_entries, fieldList.entries]

theorem entries_injective (l1 l2 : fieldList) (h : l1.entries = l2.entries) : l1 = l2 := by
  induction l1 generalizing l2 with
  | empty =>
    cases l2 with
    | empty => rfl
    | node k v prev => simp [fieldList.entries] at h
  | node k v prev ih =>
    cases l2 with
    | empty => simp [fieldList.entries] at h
    | node k2 v2 prev2 =>
      simp only [fieldList.entries] at h
      have h1 := List.append_inj' h rfl
      simp at h1
      obtain ⟨hp, hk, hv⟩ := h1
      rw [ih prev2 hp, hk, hv]

theorem ofEntries_of_entries (l : fieldList) : fieldList.ofEntries l.entries = l :=
  entries_injective _ _ (ofEntries_entries _)

theorem nodeTable_append (nodes : List fieldNode) (n : fieldNode) :
    Heap.nodeTable (nodes ++ [n]) = Heap.nodeTable nodes ++
      [(match n.prev with
        | none => []
        | some p => (Heap.nodeTable nodes).getD p []) ++ [(n.key, n.value)]] := by
  simp [Heap.nodeTable, List.foldl_append]

theorem nodeTable_length (nodes : List fieldNode) :
    (Heap.nodeTable nodes).length = nodes.length := by
  induction nodes using List.reverseRecOn with
  | nil => rfl
  | append_singleton nodes n ih => rw [nodeTable_append]; simp [ih]

theorem entriesOf_append_node (h h2 : Heap) (n : fieldNode) (hn : h2.nodes = h.nodes ++ [n])
    (fl : Option Nat) (hfl : ∀ p, fl = some p → p < h.nodes.length) :
    h2.entriesOf fl = h.entriesOf fl := by
  cases fl with
  | none => rfl
  | some p =>
    have hp := hfl p rfl
    simp only [Heap.entriesOf, hn, nodeTable_append]
    rw [List.getD_append _ _ _ _ (by rw [nodeTable_length]; exact hp)]

theorem entriesOf_new_node (h h2 : Heap) (n : fieldNode) (hn : h2.nodes = h.nodes ++ [n]) :
    h2.entriesOf (some h.nodes.length) = h.entriesOf n.prev ++ [(n.key, n.value)] := by
  simp only [Heap.entriesOf, hn, nodeTable_append]
  rw [List.getD_append_right _ _ _ _ (by rw [nodeTable_length])]
  simp only [nodeTable_length, Nat.sub_self, List.getD_cons_zero]

theorem read_eq_some (h : Heap) (c : Nat) (x : context) (hr : h.read c = some x) :
    ∃ cell, h.contexts[c]? = some cell ∧ cell ∈ h.contexts ∧
      x = { name := cell.name, fieldList := fieldList.ofEntries (h.entriesOf cell.fieldList) } := by
  unfold Heap.read at hr
  cases hc : h.contexts[c]? with
  | none => rw [hc] at hr; cases hr
  | some cell =>
    rw [hc] at hr
    simp only [Option.some.injEq] at hr
    exact ⟨cell, rfl, List.getElem?_mem hc, hr.symm⟩

theorem read_frame (h h2 : Heap) (hwf : h.WF) (cell : contextCell)
    (hc : h2.contexts = h.contexts ++ [cell])
    (hn : h2.nodes = h.nodes ∨ ∃ n, h2.nodes = h.nodes ++ [n]) :
    ∀ p x, h.read p = some x → h2.read p = some x := by
  intro p x hr
  obtain ⟨cp, hcp, hmem, hx⟩ := read_eq_some h p x hr
  have hlt : p < h.contexts.length := by
    rcases Nat.lt_or_ge p h.contexts.length with hlt | hge
    · exact hlt
    · rw [List.getElem?_eq_none hge] at hcp; cases hcp
  have hcp2 : h2.contexts[p]? = some cp := by
    rw [hc, List.getElem?_append_left hlt, hcp]
  have hent : h2.entriesOf cp.fieldList = h.entriesOf cp.fieldList := by
    rcases hn with hn | ⟨n, hn⟩
    · simp only [Heap.entriesOf, hn]
    · exact entriesOf_append_node h h2 n hn cp.fieldList (hwf cp hmem)
  simp only [Heap.read, hcp2, hent, hx]

theorem ofEntries_append (es : List (GoString × GoString)) (k v : GoString) :
    fieldList.ofEntries (es ++ [(k, v)]) = (fieldList.ofEntries es).append k v := by
  simp [fieldList.ofEntries, List.foldl_append]

theorem Fields_set_get (m : Fields) (k v : GoString) : Fields.get (Fields.set m k v) k = v := by
  induction m with
  | nil => simp [Fields.set, Fields.get]
  | cons e m ih =>
    obtain ⟨k1, v1⟩ := e
    by_cases h : k1 = k
    · simp [Fields.set, Fields.get, h]
    · simp [Fields.set, Fields.get, h, ih]

theorem Fields_set_get_ne (m : Fields) (k v k2 : GoString) (hne : k ≠ k2) :
    Fields.get (Fields.set m k v) k2 = Fields.get m k2 := by
  induction m with
  | nil => simp [Fields.set, Fields.get, hne]
  | cons e m ih =>
    obtain ⟨k1, v1⟩ := e
    by_cases h : k1 = k
    · subst h
      simp [Fields.set, Fields.get, hne]
    · by_cases h2 : k1 = k2
      · subst h2
        simp [Fields.set, Fields.get, h]
      · simp [Fields.set, Fields.get, h, h2, ih]

theorem Fields_foldl_get_ne (post : List (GoString × GoString)) (k : GoString)
    (hpost : ∀ e ∈ post, e.1 ≠ k) :
    ∀ m : Fields, Fields.get (post.foldl (fun m kv => Fields.set m kv.1 kv.2) m) k =
      Fields.get m k := by
  induction post with
  | nil => intro m; rfl
  | cons e post ih =>
    intro m
    rw [List.foldl_cons, ih (fun e he => hpost e (List.mem_cons_of_mem _ he))]
    exact Fields_set_get_ne m e.1 e.2 k (hpost e (List.mem_cons_self _ _))

theorem Fields_last_wins (l : fieldList) (pre post : List (GoString × GoString))
    (k v : GoString) (hes : l.entries = pre ++ (k, v) :: post)
    (hpost : ∀ e ∈ post, e.1 ≠ k) : Fields.get l.Fields k = v := by
  simp only [fieldList.Fields, hes, List.foldl_append, List.foldl_cons]
  rw [Fields_foldl_get_ne post k hpost, Fields_set_get]

theorem With_filter (m : Fields) :
    ∀ c : context, c.With m = c.With (m.filter (fun kv => decide (kv.1 ≠ []))) := by
  induction m with
  | nil => intro c; rfl
  | cons e m ih =>
    intro c
    by_cases he : e.1 = []
    · have hw : c.WithField e.1 e.2 = c := by simp [context.WithField, he]
      have hf : (e :: m).filter (fun kv => decide (kv.1 ≠ [])) =
          m.filter (fun kv => decide (kv.1 ≠ [])) := by simp [List.filter_cons, he]
      rw [hf, ← ih c]
      simp only [context.With, List.foldl_cons, hw]
    · have hf : (e :: m).filter (fun kv => decide (kv.1 ≠ [])) =
          e :: m.filter (fun kv => decide (kv.1 ≠ [])) := by simp [List.filter_cons, he]
      rw [hf]
      simp only [context.With, List.foldl_cons]
      exact ih (c.WithField e.1 e.2)

/-- C14: `WithField` with the empty key returns its receiver: the same pointer, with the
heap as it was, hence the same name, the same sequence of fields and the same
`NumFields()`; so `With(mapping)` gives what it gives for the mapping without its entry
for the empty key. -/
theorem WithField_empty_key (c : context) (v : GoString) :
    c.WithField [] v = c ∧ (c.WithField [] v).Name = c.Name ∧
    (c.WithField [] v).fieldList.entries = c.fieldList.entries ∧
    (c.WithField [] v).NumFields = c.NumFields ∧
    (∀ (h : Heap) (p : Nat), h.read p = some c → h.WithField p [] v = some (h, p)) ∧
    (∀ m : Fields, c.With m = c.With (m.filter (fun kv => decide (kv.1 ≠ [])))) := by
  have h0 : c.WithField [] v = c := by simp [context.WithField]
  refine ⟨h0, by rw [h0], by rw [h0], by rw [h0], ?_, fun m => With_filter m c⟩
  intro h p hr
  obtain ⟨cell, hc, _, _⟩ := read_eq_some h p c hr
  simp [Heap.WithField, hc]

/-- Witness of C14: on the heap that holds the one context made by `newContext("app")`,
`WithField("", "x")` returns the pointer it was called on and the same heap. -/
theorem WithField_empty_key_witness :
    (Heap.newContext ⟨[], []⟩ "app".toList).1.read 0 = some (newContext "app".toList) ∧
    (Heap.newContext ⟨[], []⟩ "app".toList).1.WithField 0 [] "x".toList =
      some ((Heap.newContext ⟨[], []⟩ "app".toList).1, 0) :=
  ⟨rfl, (WithField_empty_key (newContext "app".toList) "x".toList).2.2.2.2.1
    (Heap.newContext ⟨[], []⟩ "app".toList).1 0 rfl⟩

theorem WithField_heap (h : Heap) (hwf : h.WF) (c1 : Nat) (x1 : context)
    (hread : h.read c1 = some x1) (k v : GoString) (hk : k ≠ []) :
    ∃ h2 c2, h.WithField c1 k v = some (h2, c2) ∧ h2.WF ∧
      (∀ p x, h.read p = some x → h2.read p = some x) ∧
      h2.read c2 = some (x1.WithField k v) := by
  obtain ⟨cell, hc, hmem, hx⟩ := read_eq_some h c1 x1 hread
  let n : fieldNode := { key := k, value := context.basicValue v, prev := cell.fieldList }
  let newCell : contextCell := { name := cell.name, fieldList := some h.nodes.length }
  let h2 : Heap := { contexts := h.contexts ++ [newCell], nodes := h.nodes ++ [n] }
  refine ⟨h2, h.contexts.length, ?_, ?_, ?_, ?_⟩
  · simp [Heap.WithField, hc, hk, Heap.fieldListAppend, h2, newCell, n]
  · intro cp hcp p hp
    simp only [h2, List.mem_append, List.mem_singleton, List.length_append,
      List.length_singleton] at hcp ⊢
    rcases hcp with hcp | hcp
    · have := hwf cp hcp p hp
      omega
    · rw [hcp] at hp
      simp only [newCell, Option.some.injEq] at hp
      omega
  · exact read_frame h h2 hwf newCell rfl (Or.inr ⟨n, rfl⟩)
  · have hget : h2.contexts[h.contexts.length]? = some newCell := by
      simp [h2]
    have hent : h2.entriesOf (some h.nodes.length) =
        h.entriesOf cell.fieldList ++ [(k, context.basicValue v)] :=
      entriesOf_new_node h h2 n rfl
    simp only [Heap.read, hget, newCell, hent, ofEntries_append, hx, context.WithField, hk,
      if_false]

theorem WithName_heap (h : Heap) (hwf : h.WF) (c1 : Nat) (x1 : context)
    (hread : h.read c1 = some x1) (name : GoString) :
    ∃ h2 c2, h.WithName c1 name = some (h2, c2) ∧ h2.WF ∧
      (∀ p x, h.read p = some x → h2.read p = some x) ∧
      h2.read c2 = some (x1.WithName name) := by
  obtain ⟨cell, hc, hmem, hx⟩ := read_eq_some h c1 x1 hread
  let newCell : contextCell := { name := name, fieldList := cell.fieldList }
  let h2 : Heap := { contexts := h.contexts ++ [newCell], nodes := h.nodes }
  refine ⟨h2, h.contexts.length, ?_, ?_, ?_, ?_⟩
  · simp [Heap.WithName, hc, h2, newCell]
  · intro cp hcp p hp
    simp only [h2, List.mem_append, List.mem_singleton] at hcp ⊢
    rcases hcp with hcp | hcp
    · exact hwf cp hcp p hp
    · rw [hcp] at hp
      exact hwf cell hmem p hp
  · exact read_frame h h2 hwf newCell rfl (Or.inl rfl)
  · have hget : h2.contexts[h.contexts.length]? = some newCell := by
      simp [h2]
    have hent : h2.entriesOf cell.fieldList = h.entriesOf cell.fieldList := rfl
    simp only [Heap.read, hget, newCell, hent, hx, context.WithName]

/-- C15: in a heap whose pointers lead to allocated cells, `c2 := c1.WithField(k, v)`
with a non-empty key allocates and writes no existing cell: every context that could be
read before, `c1` included, reads the same afterwards (same `Name()`, `Fields()`,
`NumFields()` and sequence visited by `Each`), while `c2` reads as `c1` with the entry
`(k, v)` added: `c2.Fields()[k]` is the display string of `v` and `c2.Name()` is
`c1.Name()`. Likewise `c1.WithName(n)` leaves every context as it was and gives a context
with the name `n` and the fields of `c1`. -/
theorem WithField_leaves_receiver (h : Heap) (hwf : h.WF) (c1 : Nat) (x1 : context)
    (hread : h.read c1 = some x1) (k v n : GoString) (hk : k ≠ []) :
    (∃ h2 c2, h.WithField c1 k v = some (h2, c2) ∧ h2.WF ∧
      (∀ p x, h.read p = some x → h2.read p = some x) ∧ h2.read c1 = some x1 ∧
      h2.read c2 = some (x1.WithField k v) ∧
      (x1.WithField k v).Fields.get k = v ∧ (x1.WithField k v).Name = x1.Name ∧
      (x1.WithField k v).fieldList.entries = x1.fieldList.entries ++ [(k, v)]) ∧
    (∃ h2 c2, h.WithName c1 n = some (h2, c2) ∧ h2.WF ∧
      (∀ p x, h.read p = some x → h2.read p = some x) ∧ h2.read c1 = some x1 ∧
      h2.read c2 = some (x1.WithName n) ∧
      (x1.WithName n).Name = n ∧ (x1.WithName n).Fields = x1.Fields ∧
      (x1.WithName n).fieldList.entries = x1.fieldList.entries) := by
  constructor
  · obtain ⟨h2, c2, hw, hwf2, hframe, hr2⟩ := WithField_heap h hwf c1 x1 hread k v hk
    have hent : (x1.WithField k v).fieldList.entries = x1.fieldList.entries ++ [(k, v)] := by
      simp [context.WithField, hk, fieldList.append, fieldList.entries, context.basicValue]
    refine ⟨h2, c2, hw, hwf2, hframe, hframe c1 x1 hread, hr2, ?_, ?_, hent⟩
    · exact Fields_last_wins _ x1.fieldList.entries [] k v hent (by simp)
    · simp [context.WithField, hk, context.Name]
  · obtain ⟨h2, c2, hw, hwf2, hframe, hr2⟩ := WithName_heap h hwf c1 x1 hread n
    exact ⟨h2, c2, hw, hwf2, hframe, hframe c1 x1 hread, hr2, rfl, rfl, rfl⟩

/-- Witness of C15: from the heap that holds `newContext("app")`, `WithField("a", "1")`
gives a second context with the field `a=1` and leaves the first one without fields. -/
theorem WithField_leaves_receiver_witness :
    (Heap.newContext ⟨[], []⟩ "app".toList).1.WF ∧
    (Heap.newContext ⟨[], []⟩ "app".toList).1.read 0 = some (newContext "app".toList) ∧
    "a".toList ≠ [] ∧
    ∃ h2 c2, (Heap.newContext ⟨[], []⟩ "app".toList).1.WithField 0 "a".toList "1".toList =
        some (h2, c2) ∧
      h2.read 0 = some (newContext "app".toList) ∧
      h2.read c2 = some ((newContext "app".toList).WithField "a".toList "1".toList) ∧
      ((newContext "app".toList).WithField "a".toList "1".toList).Fields.get "a".toList =
        "1".toList := by
  have hwf : (Heap.newContext ⟨[], []⟩ "app".toList).1.WF := by
    intro cell hcell p hp
    simp [Heap.newContext] at hcell
    rw [hcell] at hp
    cases hp
  obtain ⟨⟨h2, c2, hw, _, _, h1, h2r, hget, _, _⟩, _⟩ :=
    WithField_leaves_receiver (Heap.newContext ⟨[], []⟩ "app".toList).1 hwf 0
      (newContext "app".toList) rfl "a".toList "1".toList "n".toList (by decide)
  exact ⟨hwf, rfl, by decide, h2, c2, hw, h1, h2r, hget⟩

theorem withFieldCalls_entries (kvs : List (GoString × GoString))
    (hne : ∀ kv ∈ kvs, kv.1 ≠ []) :
    ∀ c : context, (withFieldCalls c kvs).fieldList.entries = c.fieldList.entries ++ kvs ∧
      (withFieldCalls c kvs).name = c.name := by
  induction kvs with
  | nil => intro c; simp [withFieldCalls]
  | cons kv kvs ih =>
    intro c
    have hk : kv.1 ≠ [] := hne kv (List.mem_cons_self _ _)
    have ih2 := ih (fun e he => hne e (List.mem_cons_of_mem _ he)) (c.WithField kv.1 kv.2)
    simp only [withFieldCalls, List.foldl_cons] at ih2 ⊢
    rw [ih2.1, ih2.2]
    simp [context.WithField, hk, fieldList.append, fieldList.entries, context.basicValue]

theorem foldlM_record (es : List (GoString × GoString)) :
    ∀ acc : List (GoString × GoString),
      es.foldlM (fun st kv => (.ok (st ++ [(kv.1, kv.2)]) : Except Panic _)) acc =
        .ok (acc ++ es) := by
  induction es with
  | nil => intro acc; simp [pure, Except.pure]
  | cons e es ih =>
    intro acc
    simp only [List.foldlM_cons, bind, Except.bind, ih]
    simp

/-- C16: the context reached from a context `c` by successive `WithField` calls with
non-empty keys has `NumFields()` equal to that of `c` plus the number of calls, `Each`
visits its entries in insertion order, duplicates included, and `Fields()` gives for each
key the value of its last insertion; from an empty context these are the number of
calls and the inserted pairs themselves. -/
theorem withFieldCalls_spec (c : context) (kvs : List (GoString × GoString))
    (hne : ∀ kv ∈ kvs, kv.1 ≠ []) :
    (withFieldCalls c kvs).NumFields = c.NumFields + kvs.length ∧
    (withFieldCalls c kvs).fieldList.entries = c.fieldList.entries ++ kvs ∧
    (withFieldCalls c kvs).Each (fun k v st => .ok (st ++ [(k, v)])) [] =
      .ok (c.fieldList.entries ++ kvs) ∧
    (∀ pre k v post, c.fieldList.entries ++ kvs = pre ++ (k, v) :: post →
      (∀ e ∈ post, e.1 ≠ k) → (withFieldCalls c kvs).Fields.get k = v) ∧
    (c.fieldList = fieldList.empty →
      (withFieldCalls c kvs).NumFields = kvs.length ∧
      (withFieldCalls c kvs).fieldList.entries = kvs) := by
  obtain ⟨hent, _⟩ := withFieldCalls_entries kvs hne c
  have hnum : (withFieldCalls c kvs).NumFields = c.NumFields + kvs.length := by
    simp only [context.NumFields, NumFields_eq_length, hent, List.length_append]
  refine ⟨hnum, hent, ?_, ?_, ?_⟩
  · simp only [context.Each, fieldList.Each, hent]
    have := foldlM_record (c.fieldList.entries ++ kvs) []
    simpa using this
  · intro pre k v post hes hpost
    exact Fields_last_wins _ pre post k v (hent.trans hes) hpost
  · intro hc
    rw [hnum, hent]
    simp [context.NumFields, hc, fieldList.NumFields, fieldList.entries]

/-- Witness of C16: for the calls `WithField("a", "1")` and `WithField("a", "2")` on the
empty context, `NumFields()` is 2, `Each` visits `(a,1)` and then `(a,2)`, and
`Fields()["a"]` is `2`. -/
theorem withFieldCalls_spec_witness :
    (∀ kv ∈ [("a".toList, "1".toList), ("a".toList, "2".toList)], kv.1 ≠ []) ∧
    (withFieldCalls EmptyContext
      [("a".toList, "1".toList), ("a".toList, "2".toList)]).NumFields = 2 ∧
    (withFieldCalls EmptyContext [("a".toList, "1".toList), ("a".toList, "2".toList)]).Each
        (fun k v st => .ok (st ++ [(k, v)])) [] =
      .ok [("a".toList, "1".toList), ("a".toList, "2".toList)] ∧
    (withFieldCalls EmptyContext
      [("a".toList, "1".toList), ("a".toList, "2".toList)]).Fields.get "a".toList =
        "2".toList := by
  have hne : ∀ kv ∈ [("a".toList, "1".toList), ("a".toList, "2".toList)], kv.1 ≠ [] := by
    decide
  obtain ⟨hn, _, he, hf, _⟩ := withFieldCalls_spec EmptyContext
    [("a".toList, "1".toList), ("a".toList, "2".toList)] hne
  exact ⟨hne, hn, he, hf [("a".toList, "1".toList)] "a".toList "2".toList [] rfl (by simp)⟩

/-! ## Logger -/

/-- C19 (evaluation of the code): `Close(timeout)` returns the error `timeout` in every
state and for every value of `timeout`; in particular at program start, when no
collector is registered, for a timeout of one second and for one of an hour (in
nanoseconds). -/
theorem Close_always_timeout :
    (∀ (w : World) (timeout : Int), Close w timeout = some "timeout".toList) ∧
    World.start.RootLogger.registry = [] ∧
    Close World.start 1000000000 = some "timeout".toList ∧
    Close World.start 3600000000000 = some "timeout".toList :=
  ⟨fun _ _ => rfl, rfl, rfl, rfl⟩

theorem registry_set_mem (m : registry) (c : Collector) (e : entry) :
    ∀ x, x ∈ registry.set m c e → x = (c, e) ∨ x ∈ m := by
  induction m with
  | nil => intro x hx; simp [registry.set] at hx; exact Or.inl hx
  | cons kv m ih =>
    obtain ⟨k, v⟩ := kv
    intro x hx
    by_cases hk : k = c
    · simp only [registry.set, hk, if_true, List.mem_cons] at hx ⊢
      rcases hx with hx | hx
      · exact Or.inl hx
      · exact Or.inr (Or.inr hx)
    · simp only [registry.set, hk, if_false, List.mem_cons] at hx ⊢
      rcases hx with hx | hx
      · exact Or.inr (Or.inl hx)
      · rcases ih x hx with h | h
        · exact Or.inl h
        · exact Or.inr (Or.inr h)

theorem registry_set_keys (m : registry) (c : Collector) (e : entry) :
    (∀ k, k ∈ (registry.set m c e).map Prod.fst ↔ k = c ∨ k ∈ m.map Prod.fst) ∧
    ((m.map Prod.fst).Nodup → ((registry.set m c e).map Prod.fst).Nodup) ∧
    (c, e) ∈ registry.set m c e := by
  induction m with
  | nil => simp [registry.set]
  | cons kv m ih =>
    obtain ⟨k, v⟩ := kv
    obtain ⟨ih1, ih2, ih3⟩ := ih
    by_cases hk : k = c
    · subst hk
      simp [registry.set]
    · refine ⟨?_, ?_, ?_⟩
      · intro x
        simp only [registry.set, hk, if_false, List.map_cons, List.mem_cons, ih1]
        tauto
      · intro hnd
        simp only [registry.set, hk, if_false, List.map_cons, List.nodup_cons] at hnd ⊢
        refine ⟨?_, ih2 hnd.2⟩
        intro hmem
        rcases (ih1 k).mp hmem with h | h
        · exact hk h
        · exact hnd.1 h
      · simp only [registry.set, hk, if_false, List.mem_cons]
        exact Or.inr ih3

theorem registry_set_ids (m : registry) (c : Collector) (e : entry)
    (hnd : (m.map (fun kv => kv.2.worker.id)).Nodup)
    (hfresh : ∀ x ∈ m, x.2.worker.id ≠ e.worker.id) :
    ((registry.set m c e).map (fun kv => kv.2.worker.id)).Nodup := by
  induction m with
  | nil => simp [registry.set]
  | cons kv m ih =>
    obtain ⟨k, v⟩ := kv
    simp only [List.map_cons, List.nodup_cons] at hnd
    by_cases hk : k = c
    · simp only [registry.set, hk, if_true, List.map_cons, List.nodup_cons]
      refine ⟨?_, hnd.2⟩
      intro hmem
      obtain ⟨x, hx, hxe⟩ := List.mem_map.mp hmem
      exact hfresh x (List.mem_cons_of_mem _ hx) hxe
    · simp only [registry.set, hk, if_false, List.map_cons, List.nodup_cons]
      refine ⟨?_, ih hnd.2 (fun x hx => hfresh x (List.mem_cons_of_mem _ hx))⟩
      intro hmem
      obtain ⟨x, hx, hxe⟩ := List.mem_map.mp hmem
      rcases registry_set_mem m c e x hx with h | h
      · rw [h] at hxe
        exact hfresh (k, v) (List.mem_cons_self _ _) hxe.symm
      · exact hnd.1 (List.mem_map.mpr ⟨x, h, hxe⟩)

/-! ## Human-readable contexts -/

theorem char_valid_bounds (c : Char) :
    c.toNat ≤ 0x10FFFF ∧ ¬ (0xD800 ≤ c.toNat ∧ c.toNat ≤ 0xDFFF) := by
  have h := c.valid
  simp only [UInt32.isValidChar, Nat.isValidChar] at h
  have : c.toNat = c.val.toNat := rfl
  omega

theorem EncodeRune_char (c : Char) : EncodeRune (runeOf c) = utf8Encoding c.toNat := by
  obtain ⟨h1, h2⟩ := char_valid_bounds c
  exact EncodeRune_ofNat c.toNat h1 h2

theorem utf8Encoding_prefix_free (a b : Nat) (ha : a ≤ 0x10FFFF) (hb : b ≤ 0x10FFFF)
    (X Y : List Nat) (h : utf8Encoding a ++ X = utf8Encoding b ++ Y) : a = b ∧ X = Y := by
  have hab : a = b := by
    unfold utf8Encoding at h
    split_ifs at h <;> simp at h <;> omega
  subst hab
  exact ⟨rfl, List.append_cancel_left h⟩

theorem stringBytes_injective : ∀ s t : GoString, stringBytes s = stringBytes t → s = t := by
  intro s
  induction s with
  | nil =>
    intro t h
    cases t with
    | nil => rfl
    | cons d t =>
      have hp := EncodeRune_length_pos (runeOf d)
      have := congrArg List.length h
      simp only [stringBytes, List.flatMap_cons, List.flatMap_nil, List.length_append,
        List.length_nil] at this
      omega
  | cons c s ih =>
    intro t h
    cases t with
    | nil =>
      have hp := EncodeRune_length_pos (runeOf c)
      have := congrArg List.length h
      simp only [stringBytes, List.flatMap_cons, List.flatMap_nil, List.length_append,
        List.length_nil] at this
      omega
    | cons d t =>
      simp only [stringBytes, List.flatMap_cons] at h
      rw [EncodeRune_char c, EncodeRune_char d] at h
      obtain ⟨hcd, hrest⟩ := utf8Encoding_prefix_free c.toNat d.toNat
        (char_valid_bounds c).1 (char_valid_bounds d).1 _ _ h
      have hc : c = d := by
        have := congrArg Char.ofNat hcd
        simpa using this
      rw [hc, ih t hrest]

theorem bytesLess_irrefl : ∀ a : List Nat, bytesLess a a = false := by
  intro a
  induction a with
  | nil => rfl
  | cons x a ih => simp [bytesLess, ih]

theorem bytesLess_asymm : ∀ a b : List Nat, bytesLess a b = true → bytesLess b a = false := by
  intro a
  induction a with
  | nil => intro b _; cases b <;> rfl
  | cons x a ih =>
    intro b h
    cases b with
    | nil => simp [bytesLess] at h
    | cons y b =>
      simp only [bytesLess] at h ⊢
      by_cases h1 : x < y
      · have h2 : ¬ y < x := by omega
        simp [h1, h2]
      · by_cases h2 : y < x
        · simp [h1, h2] at h
        · simp only [h1, h2, if_false] at h ⊢
          exact ih b h

theorem bytesLess_total : ∀ a b : List Nat,
    bytesLess a b = false → bytesLess b a = false → a = b := by
  intro a
  induction a with
  | nil => intro b h _; cases b with
    | nil => rfl
    | cons y b => simp [bytesLess] at h
  | cons x a ih =>
    intro b h1 h2
    cases b with
    | nil => simp [bytesLess] at h2
    | cons y b =>
      simp only [bytesLess] at h1 h2
      by_cases hxy : x < y
      · simp [hxy] at h1
      · by_cases hyx : y < x
        · simp [hyx] at h2
        · simp only [hxy, hyx, if_false] at h1 h2
          have : x = y := by omega
          rw [this, ih b h1 h2]

theorem bytesLess_trans : ∀ a b c : List Nat,
    bytesLess a b = true → bytesLess b c = true → bytesLess a c = true := by
  intro a
  induction a with
  | nil =>
    intro b c h1 h2
    cases b with
    | nil => simp [bytesLess] at h1
    | cons y b =>
      cases c with
      | nil => simp [bytesLess] at h2
      | cons z c => rfl
  | cons x a ih =>
    intro b c h1 h2
    cases b with
    | nil => simp [bytesLess] at h1
    | cons y b =>
      cases c with
      | nil => simp [bytesLess] at h2
      | cons z c =>
        simp only [bytesLess] at h1 h2 ⊢
        by_cases hxy : x < y
        · by_cases hyz : y < z
          · have : x < z := by omega
            simp [this]
          · by_cases hzy : z < y
            · simp [hyz, hzy] at h2
            · have : x < z := by omega
              simp [this]
        · by_cases hyx : y < x
          · simp [hxy, hyx] at h1
          · simp only [hxy, hyx, if_false] at h1
            have hxy2 : x = y := by omega
            subst hxy2
            by_cases hxz : x < z
            · simp [hxz]
            · by_cases hzx : z < x
              · simp [hxz, hzx] at h2
              · simp only [hxz, hzx, if_false] at h2 ⊢
                exact ih b c h1 h2

theorem strLE_of_less (a b : GoString)
    (h : bytesLess (stringBytes a) (stringBytes b) = true) : strLE a b :=
  bytesLess_asymm _ _ h

theorem strLE_trans (a b c : GoString) (h1 : strLE a b) (h2 : strLE b c) : strLE a c := by
  unfold strLE at *
  cases hca : bytesLess (stringBytes c) (stringBytes a) with
  | false => rfl
  | true =>
    cases hab : bytesLess (stringBytes a) (stringBytes b) with
    | true =>
      have := bytesLess_trans _ _ _ hca hab
      rw [this] at h2
      cases h2
    | false =>
      have he := bytesLess_total _ _ hab h1
      rw [he] at hca
      rw [hca] at h2
      cases h2

theorem insertString_perm (x : GoString) (l : List GoString) :
    (insertString x l).Perm (x :: l) := by
  induction l with
  | nil => exact List.Perm.refl _
  | cons y l ih =>
    unfold insertString
    split
    · exact ((List.Perm.cons y ih).trans (List.Perm.swap x y l))
    · exact List.Perm.refl _

theorem sortStrings_perm (l : List GoString) : (sortStrings l).Perm l := by
  induction l with
  | nil => exact List.Perm.refl _
  | cons x l ih =>
    exact (insertString_perm x (sortStrings l)).trans (List.Perm.cons x ih)

theorem insertString_sorted (x : GoString) (l : List GoString)
    (hl : l.Pairwise strLE) : (insertString x l).Pairwise strLE := by
  induction l with
  | nil => simp [insertString]
  | cons y l ih =>
    rw [List.pairwise_cons] at hl
    unfold insertString
    split
    · rename_i hyx
      rw [List.pairwise_cons]
      refine ⟨?_, ih hl.2⟩
      intro a ha
      rcases List.mem_cons.mp ((insertString_perm x l).mem_iff.mp ha) with h | h
      · rw [h]; exact strLE_of_less y x hyx
      · exact hl.1 a h
    · rename_i hyx
      have hxy : strLE x y := by
        unfold strLE
        simpa using hyx
      rw [List.pairwise_cons, List.pairwise_cons]
      refine ⟨?_, hl.1, hl.2⟩
      intro a ha
      rcases List.mem_cons.mp ha with h | h
      · rw [h]; exact hxy
      · exact strLE_trans x y a hxy (hl.1 a h)

theorem sortStrings_sorted (l : List GoString) : (sortStrings l).Pairwise strLE := by
  induction l with
  | nil => simp [sortStrings]
  | cons x l ih => exact insertString_sorted x _ ih

theorem sortStrings_strict (l : List GoString) (hnd : l.Nodup) :
    (sortStrings l).Pairwise
      (fun a b => bytesLess (stringBytes a) (stringBytes b) = true) := by
  have hs := sortStrings_sorted l
  have hn : (sortStrings l).Nodup := (sortStrings_perm l).nodup_iff.mpr hnd
  have hboth := hs.and hn
  refine hboth.imp ?_
  intro a b hab
  obtain ⟨hle, hne⟩ := hab
  cases hlt : bytesLess (stringBytes a) (stringBytes b) with
  | true => rfl
  | false => exact absurd (stringBytes_injective _ _ (bytesLess_total _ _ hlt hle)) hne

theorem sortStrings_congr (l1 l2 : List GoString) (hp : l1.Perm l2) :
    sortStrings l1 = sortStrings l2 := by
  haveI : IsAntisymm GoString strLE :=
    ⟨fun a b h1 h2 => stringBytes_injective _ _ (bytesLess_total _ _ h2 h1)⟩
  exact List.eq_of_perm_of_sorted
    (((sortStrings_perm l1).trans hp).trans (sortStrings_perm l2).symm)
    (sortStrings_sorted l1) (sortStrings_sorted l2)

theorem Fields_set_keys (m : Fields) (k v : GoString) :
    (Fields.set m k v).map Prod.fst =
      if k ∈ m.map Prod.fst then m.map Prod.fst else m.map Prod.fst ++ [k] := by
  induction m with
  | nil => simp [Fields.set]
  | cons e m ih =>
    obtain ⟨k1, v1⟩ := e
    by_cases h : k1 = k
    · simp [Fields.set, h]
    · have h2 : ¬ k = k1 := fun h3 => h h3.symm
      simp only [Fields.set, h, if_false, List.map_cons, ih, List.mem_cons, h2, false_or]
      split <;> simp

theorem Fields_foldl_keys (es : List (GoString × GoString)) :
    ∀ m : Fields, (m.map Prod.fst).Nodup →
      ((es.foldl (fun m kv => Fields.set m kv.1 kv.2) m).map Prod.fst).Nodup ∧
      ∀ k, k ∈ (es.foldl (fun m kv => Fields.set m kv.1 kv.2) m).map Prod.fst ↔
        k ∈ m.map Prod.fst ∨ k ∈ es.map Prod.fst := by
  induction es with
  | nil => intro m hm; simp [hm]
  | cons e es ih =>
    intro m hm
    have hk := Fields_set_keys m e.1 e.2
    have hnd : ((Fields.set m e.1 e.2).map Prod.fst).Nodup := by
      rw [hk]
      split
      · exact hm
      · rename_i hnot
        exact List.Nodup.append hm (List.nodup_singleton _) (by simpa using hnot)
    obtain ⟨ih1, ih2⟩ := ih (Fields.set m e.1 e.2) hnd
    refine ⟨ih1, ?_⟩
    intro k
    rw [List.foldl_cons, ih2 k, hk]
    split
    · rename_i hin
      simp only [List.map_cons, List.mem_cons]
      constructor
      · rintro (h | h)
        · exact Or.inl h
        · exact Or.inr (Or.inr h)
      · rintro (h | h | h)
        · exact Or.inl h
        · exact Or.inl (h ▸ hin)
        · exact Or.inr h
    · simp only [List.mem_append, List.mem_singleton, List.map_cons, List.mem_cons]
      tauto

theorem Fields_keys (l : fieldList) :
    (l.Fields.map Prod.fst).Nodup ∧
    ∀ k, k ∈ l.Fields.map Prod.fst ↔ ∃ v, (k, v) ∈ l.entries := by
  obtain ⟨h1, h2⟩ := Fields_foldl_keys l.entries [] (by simp)
  refine ⟨h1, ?_⟩
  intro k
  have := h2 k
  simp only [fieldList.Fields]
  rw [this]
  simp only [List.map_nil, List.not_mem_nil, false_or, List.mem_map]
  constructor
  · rintro ⟨⟨k1, v⟩, hmem, hk⟩; simp only at hk; subst hk; exact ⟨v, hmem⟩
  · rintro ⟨v, hmem⟩; exact ⟨(k, v), hmem, rfl⟩

theorem Fields_set_new (m : Fields) (k v : GoString) (h : k ∉ m.map Prod.fst) :
    Fields.set m k v = m ++ [(k, v)] := by
  induction m with
  | nil => rfl
  | cons e m ih =>
    obtain ⟨k1, v1⟩ := e
    simp only [List.map_cons, List.mem_cons, not_or] at h
    have h1 : ¬ k1 = k := fun h3 => h.1 h3.symm
    simp [Fields.set, h1, ih h.2]

theorem Fields_foldl_nodup (es : List (GoString × GoString)) :
    ∀ m : Fields, ((m ++ es).map Prod.fst).Nodup →
      es.foldl (fun m kv => Fields.set m kv.1 kv.2) m = m ++ es := by
  induction es with
  | nil => intro m _; simp
  | cons e es ih =>
    intro m hnd
    have hnot : e.1 ∉ m.map Prod.fst := by
      intro hin
      simp only [List.map_append, List.map_cons] at hnd
      have := (List.nodup_append.mp hnd).2.2
      exact this hin (List.mem_cons_self _ _)
    rw [List.foldl_cons, Fields_set_new m e.1 e.2 hnot, ih]
    · simp
    · simpa using hnd

theorem Fields_get_of_mem (m : Fields) (k v : GoString) (hnd : (m.map Prod.fst).Nodup)
    (hmem : (k, v) ∈ m) : Fields.get m k = v := by
  induction m with
  | nil => cases hmem
  | cons e m ih =>
    obtain ⟨k1, v1⟩ := e
    simp only [List.map_cons, List.nodup_cons] at hnd
    rcases List.mem_cons.mp hmem with h | h
    · simp only [Prod.mk.injEq] at h
      simp [Fields.get, h.1, h.2]
    · have hne : ¬ k1 = k := by
        intro hk
        subst hk
        exact hnd.1 (List.mem_map.mpr ⟨(k1, v), h, rfl⟩)
      simp [Fields.get, hne, ih hnd.2 h]

theorem Fields_get_perm (m1 m2 : Fields) (hp : m1.Perm m2) (hnd : (m1.map Prod.fst).Nodup)
    (k : GoString) (hk : k ∈ m1.map Prod.fst) : Fields.get m1 k = Fields.get m2 k := by
  obtain ⟨⟨k1, v⟩, hmem, hk1⟩ := List.mem_map.mp hk
  simp only at hk1
  subst hk1
  have hnd2 : (m2.map Prod.fst).Nodup := (hp.map Prod.fst).nodup_iff.mp hnd
  rw [Fields_get_of_mem m1 k1 v hnd hmem, Fields_get_of_mem m2 k1 v hnd2 (hp.mem_iff.mp hmem)]

theorem FormatHumanContext_loop_appends (lib : GoLib) (fields : Fields) (n : Nat) :
    ∀ (keys : List GoString) (i : Nat) (b : buffer), i + keys.length = n → b.read = false →
      ∃ b1, FormatHumanContext.loop lib fields n i keys b = .ok b1 ∧ b1.read = false ∧
        b1.bytes.data = b.bytes.data ++
          ([32] : List Nat).intercalate (keys.map (humanPair lib fields)) := by
  intro keys
  induction keys with
  | nil => intro i b _ hb; exact ⟨b, rfl, hb, by simp [List.intercalate]⟩
  | cons k rest ih =>
    intro i b hi hb
    obtain ⟨b1, hw1, hr1, hd1⟩ := WriteString_unread b k hb
    obtain ⟨b2, hw2, hr2, hd2⟩ := WriteRune_unread b1 '=' hr1
    obtain ⟨b3, hw3, hr3, hd3⟩ := Write_unread b2 (humanValue lib (fields.get k)) hr2
    have hpair : b3.bytes.data = b.bytes.data ++ humanPair lib fields k := by
      rw [hd3, hd2, hd1]
      simp [humanPair]
    cases rest with
    | nil =>
      have hlast : ¬ ((i : Int) < (n : Int) - 1) := by simp at hi; omega
      refine ⟨b3, ?_, hr3, ?_⟩
      · simp only [FormatHumanContext.loop, hw1, hw2, hw3, hlast, if_false]
      · rw [hpair]
        simp [List.intercalate]
    | cons k2 rest2 =>
      have hnl : (i : Int) < (n : Int) - 1 := by simp at hi; omega
      obtain ⟨b4, hw4, hr4, hd4⟩ := WriteRune_unread b3 ' ' hr3
      obtain ⟨b5, hw5, hr5, hd5⟩ := ih (i + 1) b4 (by simp at hi ⊢; omega) hr4
      refine ⟨b5, ?_, hr5, ?_⟩
      · simp only [FormatHumanContext.loop, hw1, hw2, hw3, hnl, if_true, hw4]
        exact hw5
      · have he : EncodeRune (runeOf ' ') = [32] := by decide
        rw [hd5, hd4, hpair, he]
        simp [List.intercalate, List.intersperse]

theorem FormatHumanContext_loop_congr (lib : GoLib) (f1 f2 : Fields) (n : Nat) :
    ∀ (keys : List GoString) (i : Nat) (b : buffer),
      (∀ k ∈ keys, f1.get k = f2.get k) →
      FormatHumanContext.loop lib f1 n i keys b = FormatHumanContext.loop lib f2 n i keys b := by
  intro keys
  induction keys with
  | nil => intro i b _; rfl
  | cons k rest ih =>
    intro i b hk
    have hkk := hk k (List.mem_cons_self _ _)
    have ih2 := fun i b => ih i b (fun x hx => hk x (List.mem_cons_of_mem _ hx))
    simp only [FormatHumanContext.loop, hkk, ih2]

/-- C13: for every context, `FormatHumanContext` adds, to a buffer that has not been
read, one pair `key=value` for each key of the mapping `Fields()`, that is for each key
that occurs among the entries, the value being the one inserted last for the key; the
pairs stand in strictly ascending order of their keys, compared byte by byte, with one
space between successive pairs and nothing before the first or after the last. The
sorted keys do not depend on the order in which the map is ranged over, and two contexts
whose mappings hold the same pairs are rendered alike, whatever the order of insertion. -/
theorem FormatHumanContext_spec (lib : GoLib) (ev : Event) :
    Appends (FormatHumanContext lib) ev
      (([32] : List Nat).intercalate
        ((sortStrings (ev.Context.Fields.map Prod.fst)).map
          (humanPair lib ev.Context.Fields))) ∧
    (∀ k, k ∈ sortStrings (ev.Context.Fields.map Prod.fst) ↔
      ∃ v, (k, v) ∈ ev.Context.fieldList.entries) ∧
    (sortStrings (ev.Context.Fields.map Prod.fst)).Pairwise
      (fun a b => bytesLess (stringBytes a) (stringBytes b) = true) ∧
    (∀ pre k v post, ev.Context.fieldList.entries = pre ++ (k, v) :: post →
      (∀ e ∈ post, e.1 ≠ k) → ev.Context.Fields.get k = v) ∧
    (∀ ks : List GoString, ks.Perm (ev.Context.Fields.map Prod.fst) →
      sortStrings ks = sortStrings (ev.Context.Fields.map Prod.fst)) ∧
    (∀ ev2 : Event, ev2.Context.Fields.Perm ev.Context.Fields →
      ∀ b, FormatHumanContext lib b ev2 = FormatHumanContext lib b ev) ∧
    ((ev.Context.fieldList.entries.map Prod.fst).Nodup →
      ev.Context.Fields = ev.Context.fieldList.entries) := by
  obtain ⟨hnd, hkeys⟩ := Fields_keys ev.Context.fieldList
  refine ⟨?_, ?_, sortStrings_strict _ hnd, ?_, ?_, ?_, ?_⟩
  · intro b hb
    exact FormatHumanContext_loop_appends lib ev.Context.Fields _ _ 0 b (by simp) hb
  · intro k
    rw [(sortStrings_perm _).mem_iff]
    exact hkeys k
  · intro pre k v post hes hpost
    exact Fields_last_wins ev.Context.fieldList pre post k v hes hpost
  · intro ks hp
    exact sortStrings_congr ks _ hp
  · intro ev2 hp b
    have hsort : sortStrings (ev2.Context.Fields.map Prod.fst) =
        sortStrings (ev.Context.Fields.map Prod.fst) :=
      sortStrings_congr _ _ (hp.map Prod.fst)
    have hnd2 : (ev2.Context.Fields.map Prod.fst).Nodup := (Fields_keys ev2.Context.fieldList).1
    simp only [FormatHumanContext, hsort]
    apply FormatHumanContext_loop_congr
    intro k hk
    have hk2 : k ∈ ev2.Context.Fields.map Prod.fst :=
      (hp.map Prod.fst).mem_iff.mpr ((sortStrings_perm _).mem_iff.mp hk)
    exact Fields_get_perm _ _ hp hnd2 k hk2
  · intro hn
    have := Fields_foldl_nodup ev.Context.fieldList.entries [] (by simpa using hn)
    simpa [context.Fields, fieldList.Fields] using this

/-- Witness of C13: the context with the insertions `b=2`, `a=1`, `a=3` is rendered as
`a=3 b=2`. -/
theorem FormatHumanContext_spec_witness :
    ∃ b1, FormatHumanContext plainLib (NewBufferFrom ⟨[], []⟩)
        ⟨0, Level.INFO, withFieldCalls EmptyContext
          [("b".toList, "2".toList), ("a".toList, "1".toList), ("a".toList, "3".toList)],
          [], none, []⟩ = .ok b1 ∧
      b1.bytes.data = stringBytes "a=3 b=2".toList := by
  obtain ⟨b1, hw, _, hd⟩ := (FormatHumanContext_spec plainLib
    ⟨0, Level.INFO, withFieldCalls EmptyContext
      [("b".toList, "2".toList), ("a".toList, "1".toList), ("a".toList, "3".toList)],
      [], none, []⟩).1 (NewBufferFrom ⟨[], []⟩) rfl
  exact ⟨b1, hw, by rw [hd]; decide⟩

/-! ## Fresh buffers and lossless splitting -/

/-- C21: a buffer from `NewBuffer()` is not empty: before any write its `Len()` is 64 and
its contents are 64 zero bytes; hence for every formatter and event, `Render` returns
those 64 zero bytes followed by exactly the bytes the formatter adds. A buffer from
`NewBufferFrom(s)` has `Len()` 0, whatever `s` is. -/
theorem NewBuffer_not_empty :
    NewBuffer.Len = 64 ∧ NewBuffer.bytes.data = List.replicate 64 0 ∧ NewBuffer.read = false ∧
    (∀ (f : Formatter) (ev : Event) (out : List Nat), Appends f ev out →
      Render f ev = .ok (List.replicate 64 0 ++ out)) ∧
    (∀ s : ByteSlice, (NewBufferFrom s).Len = 0 ∧ (NewBufferFrom s).bytes.data = [] ∧
      (NewBufferFrom s).bytes.cap = s.cap) := by
  refine ⟨rfl, rfl, rfl, ?_, ?_⟩
  · intro f ev out hf
    obtain ⟨b1, hw, _, hd⟩ := hf NewBuffer rfl
    simp only [Render, hw, buffer.Bytes, hd]
    rfl
  · intro s
    refine ⟨rfl, rfl, ?_⟩
    simp [NewBufferFrom, ByteSlice.cap]

/-- Witness of C21: `Render(Literal("x"), event)` is 64 zero bytes followed by the byte
of `x`. -/
theorem NewBuffer_not_empty_witness :
    Render (Literal "x".toList) ⟨0, Level.INFO, EmptyContext, [], none, []⟩ =
      .ok (List.replicate 64 0 ++ [120]) :=
  NewBuffer_not_empty.2.2.2.1 (Literal "x".toList) _ _ (Literal_appends "x".toList _)

theorem flatten_flush (cur : GoString) :
    (segmentStrings (Segment.flush cur)).flatten = cur := by
  rw [segmentStrings_flush]
  split
  · rename_i h; simp [h]
  · simp

theorem flatten_parseTemplate_go (n : Nat) :
    ∀ (input : List Char) (cur : GoString), input.length ≤ n →
      (segmentStrings (parseTemplate.go cur input)).flatten = cur ++ input := by
  induction n with
  | zero =>
    intro input cur hn
    have : input = [] := List.length_eq_zero.mp (Nat.le_zero.mp hn)
    subst this
    simp only [parseTemplate.go, flatten_flush, List.append_nil]
  | succ n ih =>
    intro input cur hn
    match input, hn with
    | [], _ => simp only [parseTemplate.go, flatten_flush, List.append_nil]
    | [c], _ => simp only [parseTemplate.go, flatten_flush]
    | c :: d :: rest, hn =>
      simp only [List.length_cons] at hn
      unfold parseTemplate.go
      split
      · rw [ih rest (cur ++ [c, d]) (by omega)]
        simp
      · split
        · rename_i hcd
          rw [segmentStrings_append, List.flatten_append, flatten_flush]
          simp only [segmentStrings, List.flatten_cons]
          rw [ih rest [] (by omega), hcd.1, hcd.2]
          simp
        · rw [ih (d :: rest) (cur ++ [c]) (by simp; omega)]
          simp

theorem segmentStrings_eq_map (segs : List Segment) :
    segmentStrings segs = segs.map (fun s =>
      match s with
      | Segment.literal text => text
      | Segment.placeholder => "%v".toList) := by
  induction segs with
  | nil => rfl
  | cons x segs ih => cases x <;> simp [segmentStrings, ih]

theorem literals_appends (formatters : List Formatter) (ev : Event) :
    ∀ (segs : List Segment) (k : Nat), Segment.placeholder ∉ segs →
      Appends (runChain (bindSegments formatters segs k)) ev
        (stringBytes (segmentStrings segs).flatten) := by
  intro segs
  induction segs with
  | nil => intro k _ b hb; exact ⟨b, rfl, hb, by simp [segmentStrings, stringBytes]⟩
  | cons x segs ih =>
    intro k hno b hb
    have hrest : Segment.placeholder ∉ segs := fun h => hno (List.mem_cons_of_mem _ h)
    cases x with
    | placeholder => exact absurd (List.mem_cons_self _ _) hno
    | literal text =>
      obtain ⟨b1, hw, hr1, hd1⟩ := Literal_appends text ev b hb
      obtain ⟨b2, hw2, hr2, hd2⟩ := ih k hrest b1 hr1
      refine ⟨b2, by simp [bindSegments, runChain, hw, hw2], hr2, ?_⟩
      rw [hd2, hd1]
      simp [segmentStrings, stringBytes_append]

theorem FormatFormatter_eq (format : GoString) (formatters : List Formatter) :
    FormatFormatter format formatters =
      some (runChain (bindSegments formatters (parseTemplate format) 0)) := by
  have hchain := chain_eq_bindSegments formatters (parseTemplate format) 0
    (fun text h => (parseTemplate_literal format text h).1)
  simp only [FormatFormatter, splitFormat_eq]
  rw [← hchain]
  simp

/-- C22: for every template, `splitFormat` returns normally, so every slice it takes is
in range, and its split loses nothing: no segment is empty, the segments put together in
order are the template, and the segment number `i` is the string `%v` exactly when the
piece number `i` of the template is a placeholder, no literal segment being `%v`. Hence
for a template without placeholder, `FormatFormatter` writes the template as it stands,
whatever the formatters are. -/
theorem splitFormat_lossless (t : GoString) :
    ∃ segments, splitFormat t = some segments ∧
      segments.flatten = t ∧
      (∀ seg ∈ segments, seg ≠ []) ∧
      segments.length = (parseTemplate t).length ∧
      (∀ i : Nat, segments[i]? = some "%v".toList ↔
        (parseTemplate t)[i]? = some Segment.placeholder) ∧
      (Segment.placeholder ∉ parseTemplate t →
        ∀ (formatters : List Formatter) (ev : Event),
          ∃ F, FormatFormatter t formatters = some F ∧ Appends F ev (stringBytes t)) := by
  have hflat : (segmentStrings (parseTemplate t)).flatten = t := by
    have := flatten_parseTemplate_go t.length t [] (Nat.le_refl _)
    simpa [parseTemplate] using this
  refine ⟨segmentStrings (parseTemplate t), splitFormat_eq t, hflat, ?_, ?_, ?_, ?_⟩
  · intro seg hseg
    rw [segmentStrings_eq_map] at hseg
    obtain ⟨x, hx, hxe⟩ := List.mem_map.mp hseg
    cases x with
    | literal text =>
      simp only at hxe
      rw [← hxe]
      exact (parseTemplate_literal t text hx).2
    | placeholder =>
      simp only at hxe
      rw [← hxe]
      decide
  · rw [segmentStrings_eq_map, List.length_map]
  · intro i
    rw [segmentStrings_eq_map, List.getElem?_map]
    cases hi : (parseTemplate t)[i]? with
    | none => simp
    | some x =>
      cases x with
      | placeholder => simp
      | literal text =>
        have hne := (parseTemplate_literal t text (List.getElem?_mem hi)).1
        simp only [Option.map_some', Option.some.injEq]
        constructor
        · intro h; exact absurd h hne
        · intro h; cases h
  · intro hno formatters ev
    refine ⟨_, FormatFormatter_eq t formatters, ?_⟩
    have := literals_appends formatters ev (parseTemplate t) 0 hno
    rwa [hflat] at this

/-- Witness of C22: the template `a%%b` has no placeholder, and `FormatFormatter` builds
for it a formatter that adds the bytes of `a%%b`. -/
theorem splitFormat_lossless_witness :
    Segment.placeholder ∉ parseTemplate "a%%b".toList ∧
    ∃ F, FormatFormatter "a%%b".toList [] = some F ∧
      Appends F ⟨0, Level.INFO, EmptyContext, [], none, []⟩ (stringBytes "a%%b".toList) := by
  have hno : Segment.placeholder ∉ parseTemplate "a%%b".toList := by decide
  obtain ⟨_, _, _, _, _, _, h⟩ := splitFormat_lossless "a%%b".toList
  exact ⟨hno, h hno [] _⟩

/-! ## Decoding what was encoded -/

theorem unescapeStructured_cons (c : Char) (l : List Char) (hc : c ≠ '\\') :
    unescapeStructured (c :: l) = c :: unescapeStructured l := by
  cases l with
  | nil => simp [unescapeStructured]
  | cons d rest => simp [unescapeStructured, hc]

theorem escapeStructured_cons (c : Char) (s : GoString) :
    escapeStructured (c :: s) =
      (if c = '\'' ∨ c = '\\' ∨ c = ']' then ['\\', c] else [c]) ++ escapeStructured s := by
  simp [escapeStructured]

theorem unescape_escape (s : GoString) : unescapeStructured (escapeStructured s) = s := by
  induction s with
  | nil => rfl
  | cons c s ih =>
    rw [escapeStructured_cons]
    by_cases h : c = '\'' ∨ c = '\\' ∨ c = ']'
    · simp only [h, if_true, List.cons_append, List.nil_append, unescapeStructured, ih]
    · have hc : c ≠ '\\' := fun hc => h (Or.inr (Or.inl hc))
      simp only [h, if_false, List.cons_append, List.nil_append]
      rw [unescapeStructured_cons c _ hc, ih]

theorem escapeStructured_lengths (s : GoString) :
    (escapeStructured s).length = s.length + escapedCount s ∧
    strlen (escapeStructured s) = strlen s + escapedCount s := by
  induction s with
  | nil => exact ⟨rfl, rfl⟩
  | cons c s ih =>
    obtain ⟨ih1, ih2⟩ := ih
    have hb : EncodeRune (runeOf '\\') = [92] := by decide
    simp only [strlen] at ih2 ⊢
    rw [escapeStructured_cons]
    by_cases h : c = '\'' ∨ c = '\\' ∨ c = ']'
    · have hcount : escapedCount (c :: s) = escapedCount s + 1 := by
        simp [escapedCount, List.filter_cons, h]
      simp only [h, if_true, List.cons_append, List.nil_append, List.length_cons, ih1, hcount,
        stringBytes, List.flatMap_cons, List.length_append, hb, List.length_singleton]
      simp only [stringBytes] at ih2
      omega
    · have hcount : escapedCount (c :: s) = escapedCount s := by
        simp [escapedCount, List.filter_cons, h]
      simp only [h, if_false, List.cons_append, List.nil_append, List.length_cons, ih1, hcount,
        stringBytes, List.flatMap_cons, List.length_append]
      simp only [stringBytes] at ih2
      omega

theorem severityFor_le (l : Level) (sev : Nat) (h : severityFor l = some sev) : sev ≤ 7 := by
  cases l <;> simp [severityFor, sDEBUG, sINFO, sWARN, sERROR, sCRITICAL] at h <;> omega

theorem severityFor_injective (l1 l2 : Level) (sev : Nat) (h1 : severityFor l1 = some sev)
    (h2 : severityFor l2 = some sev) : l1 = l2 := by
  cases l1 <;> cases l2 <;>
    simp [severityFor, sDEBUG, sINFO, sWARN, sERROR, sCRITICAL] at h1 h2 <;>
    first | rfl | omega

theorem priorityFor_exact (f : Nat) (l : Level) (p : Nat) (hf : 8 * f + 7 < uintSize)
    (hp : priorityFor f l = some p) :
    ∃ sev, severityFor l = some sev ∧ sev ≤ 7 ∧ p = 8 * f + sev := by
  cases hs : severityFor l with
  | none => simp [priorityFor, hs] at hp
  | some sev =>
    have hle := severityFor_le l sev hs
    have h1 : (8 * f) % uintSize = 8 * f := Nat.mod_eq_of_lt (by omega)
    have h2 : (8 * f + sev) % uintSize = 8 * f + sev := Nat.mod_eq_of_lt (by omega)
    simp only [priorityFor, hs, h1, h2, Option.some.injEq] at hp
    exact ⟨sev, rfl, hle, hp.symm⟩

/-- C24 as stated fails: the facility 2^61 is a value of the type `Facility`, and for it
and the level ERROR `priorityFor` returns 3, as it does for the facility 0: the product
`8 * facility` wraps around. The priority divided by 8 is then 0 and not the facility,
and two different facilities have the same priority. -/
theorem priorityFor_wraps :
    2305843009213693952 < uintSize ∧
    priorityFor 2305843009213693952 Level.ERROR = some 3 ∧
    (3 : Nat) / 8 ≠ 2305843009213693952 ∧
    priorityFor 2305843009213693952 Level.ERROR = priorityFor 0 Level.ERROR := by
  refine ⟨by decide, by decide, by decide, by decide⟩

/-- C24, amended: for facilities `f` with `8 * f + 7` within the range of `uint`, as all
defined facilities are, and the levels DEBUG, INFO, WARN, ERROR and FATAL, the priority
divided by 8 is the facility and the priority modulo 8 is the severity, so that different
pairs of facility and level have different priorities; `severityFor` reverses the order
of the levels strictly, and for a facility up to 23 the priority is at most 191. -/
theorem priorityFor_decode (f1 f2 : Nat) (h1 : 8 * f1 + 7 < uintSize)
    (h2 : 8 * f2 + 7 < uintSize) :
    (∀ l sev, severityFor l = some sev →
      ∃ p, priorityFor f1 l = some p ∧ p / 8 = f1 ∧ p % 8 = sev) ∧
    (∀ l1 l2 p, priorityFor f1 l1 = some p → priorityFor f2 l2 = some p →
      f1 = f2 ∧ l1 = l2) ∧
    (∀ l1 l2 r1 r2 s1 s2, levelRank l1 = some r1 → levelRank l2 = some r2 →
      severityFor l1 = some s1 → severityFor l2 = some s2 → r1 < r2 → s2 < s1) ∧
    (∀ l, (∃ r, levelRank l = some r) ↔ (∃ sev, severityFor l = some sev)) ∧
    (f1 ≤ 23 → ∀ l p, priorityFor f1 l = some p → p ≤ 191) := by
  refine ⟨?_, ?_, ?_, ?_, ?_⟩
  · intro l sev hs
    have hle := severityFor_le l sev hs
    have e1 : (8 * f1) % uintSize = 8 * f1 := Nat.mod_eq_of_lt (by omega)
    have e2 : (8 * f1 + sev) % uintSize = 8 * f1 + sev := Nat.mod_eq_of_lt (by omega)
    refine ⟨8 * f1 + sev, by simp only [priorityFor, hs, e1, e2], by omega, by omega⟩
  · intro l1 l2 p hp1 hp2
    obtain ⟨s1, hs1, hle1, he1⟩ := priorityFor_exact f1 l1 p h1 hp1
    obtain ⟨s2, hs2, hle2, he2⟩ := priorityFor_exact f2 l2 p h2 hp2
    have hf : f1 = f2 := by omega
    have hs : s1 = s2 := by omega
    subst hs
    exact ⟨hf, severityFor_injective l1 l2 s1 hs1 hs2⟩
  · intro l1 l2 r1 r2 s1 s2 hr1 hr2 hs1 hs2 hlt
    cases l1 <;> cases l2 <;>
      simp [levelRank, severityFor, sDEBUG, sINFO, sWARN, sERROR, sCRITICAL]
        at hr1 hr2 hs1 hs2 <;> omega
  · intro l
    cases l <;> simp [levelRank, severityFor]
  · intro hf l p hp
    obtain ⟨s, _, hle, he⟩ := priorityFor_exact f1 l p h1 hp
    omega

/-- Witness of C24, amended: LOCAL0 and ERROR give the priority 131, which decodes to the
facility 16 and the severity 3. -/
theorem priorityFor_decode_witness :
    8 * 16 + 7 < uintSize ∧
    ∃ p, priorityFor 16 Level.ERROR = some p ∧ p / 8 = 16 ∧ p % 8 = 3 :=
  ⟨by decide, (priorityFor_decode 16 16 (by decide) (by decide)).1 Level.ERROR 3 rfl⟩

/-! ## Strings that need not be UTF-8 -/

theorem and_0x1F : ∀ y, y < 32 → (0xC0 + y) &&& 0x1F = y := by decide
theorem and_0x0F : ∀ y, y < 16 → (0xE0 + y) &&& 0x0F = y := by decide
theorem and_0x07 : ∀ y, y < 8 → (0xF0 + y) &&& 0x07 = y := by decide
theorem and_cont : ∀ y, y < 64 → (0x80 + y) &&& 0x3F = y := by decide

theorem or2 (a b : Nat) (hb : b < 64) : (a <<< 6) ||| b = a * 64 + b := by
  have h := Nat.mul_add_lt_is_or (show b < 2 ^ 6 by omega) a
  rw [Nat.shiftLeft_eq, Nat.mul_comm a, ← h]

theorem or3 (a b c : Nat) (hb : b < 64) (hc : c < 64) :
    ((a <<< 12) ||| (b <<< 6)) ||| c = a * 4096 + b * 64 + c := by
  have h1 := Nat.mul_add_lt_is_or (show b * 2 ^ 6 < 2 ^ 12 by omega) a
  have h2 := Nat.mul_add_lt_is_or (show c < 2 ^ 6 by omega) (a * 64 + b)
  have e : 2 ^ 12 * a + b * 2 ^ 6 = 2 ^ 6 * (a * 64 + b) := by omega
  rw [Nat.shiftLeft_eq, Nat.shiftLeft_eq, Nat.mul_comm a, ← h1, e, ← h2]
  omega

theorem or4 (a b c d : Nat) (hb : b < 64) (hc : c < 64) (hd : d < 64) :
    ((((a <<< 18) ||| (b <<< 12)) ||| (c <<< 6))) ||| d =
      a * 262144 + b * 4096 + c * 64 + d := by
  have h1 := Nat.mul_add_lt_is_or (show b * 2 ^ 12 < 2 ^ 18 by omega) a
  have h2 := Nat.mul_add_lt_is_or (show c * 2 ^ 6 < 2 ^ 12 by omega) (a * 64 + b)
  have h3 := Nat.mul_add_lt_is_or (show d < 2 ^ 6 by omega) (a * 4096 + b * 64 + c)
  have e1 : 2 ^ 18 * a + b * 2 ^ 12 = 2 ^ 12 * (a * 64 + b) := by omega
  have e2 : 2 ^ 12 * (a * 64 + b) + c * 2 ^ 6 = 2 ^ 6 * (a * 4096 + b * 64 + c) := by omega
  rw [Nat.shiftLeft_eq, Nat.shiftLeft_eq, Nat.shiftLeft_eq, Nat.mul_comm a, ← h1, e1, ← h2, e2,
    ← h3]
  omega

theorem decoderune_utf8Encoding (n : Nat) (h80 : 0x80 ≤ n) (hle : n ≤ 0x10FFFF)
    (hs : ¬ (0xD800 ≤ n ∧ n ≤ 0xDFFF)) (rest : List Nat) :
    decoderune (utf8Encoding n ++ rest) = ((n : Int), (utf8Encoding n).length) := by
  unfold utf8Encoding
  have h1 : ¬ n < 0x80 := by omega
  simp only [h1, if_false]
  by_cases h2 : n < 0x800
  · simp only [h2, if_true, List.cons_append, List.nil_append, decoderune]
    have c0 : 0xC0 ≤ 0xC0 + n / 64 ∧ 0xC0 + n / 64 < 0xE0 := by omega
    have c1 : 0x80 ≤ 0x80 + n % 64 ∧ 0x80 + n % 64 ≤ 0xBF := by omega
    have e : (((0xC0 + n / 64) &&& 0x1F) <<< 6) ||| ((0x80 + n % 64) &&& 0x3F) = n := by
      rw [and_0x1F _ (by omega), and_cont _ (by omega), or2 _ _ (by omega)]
      omega
    simp only [c0, c1, e, and_self, if_true]
    have : 0x7F < n := by omega
    simp [this]
  · simp only [h2, if_false]
    by_cases h3 : n < 0x10000
    · simp only [h3, if_true, List.cons_append, List.nil_append, decoderune]
      have c0 : ¬ (0xC0 ≤ 0xE0 + n / 4096 ∧ 0xE0 + n / 4096 < 0xE0) := by omega
      have c0b : 0xE0 ≤ 0xE0 + n / 4096 ∧ 0xE0 + n / 4096 < 0xF0 := by omega
      have c1 : 0x80 ≤ 0x80 + n / 64 % 64 ∧ 0x80 + n / 64 % 64 ≤ 0xBF := by omega
      have c2 : 0x80 ≤ 0x80 + n % 64 ∧ 0x80 + n % 64 ≤ 0xBF := by omega
      have e : ((((0xE0 + n / 4096) &&& 0x0F) <<< 12) ||| (((0x80 + n / 64 % 64) &&& 0x3F) <<< 6))
          ||| ((0x80 + n % 64) &&& 0x3F) = n := by
        rw [and_0x0F _ (by omega), and_cont _ (by omega), and_cont _ (by omega)]
        rw [or3 _ _ _ (by omega) (by omega)]
        omega
      simp only [c0, c0b, c1, c2, e, and_self, if_true, if_false]
      have : 0x7FF < n ∧ ¬ (0xD800 ≤ n ∧ n ≤ 0xDFFF) := by omega
      simp [this]
    · simp only [h3, if_false, List.cons_append, List.nil_append, decoderune]
      have c0 : ¬ (0xC0 ≤ 0xF0 + n / 262144 ∧ 0xF0 + n / 262144 < 0xE0) := by omega
      have c0a : ¬ (0xE0 ≤ 0xF0 + n / 262144 ∧ 0xF0 + n / 262144 < 0xF0) := by omega
      have c0b : 0xF0 ≤ 0xF0 + n / 262144 ∧ 0xF0 + n / 262144 < 0xF8 := by omega
      have c1 : 0x80 ≤ 0x80 + n / 4096 % 64 ∧ 0x80 + n / 4096 % 64 ≤ 0xBF := by omega
      have c2 : 0x80 ≤ 0x80 + n / 64 % 64 ∧ 0x80 + n / 64 % 64 ≤ 0xBF := by omega
      have c3 : 0x80 ≤ 0x80 + n % 64 ∧ 0x80 + n % 64 ≤ 0xBF := by omega
      have e : (((((0xF0 + n / 262144) &&& 0x07) <<< 18) |||
          (((0x80 + n / 4096 % 64) &&& 0x3F) <<< 12)) |||
          (((0x80 + n / 64 % 64) &&& 0x3F) <<< 6)) ||| ((0x80 + n % 64) &&& 0x3F) = n := by
        rw [and_0x07 _ (by omega), and_cont _ (by omega), and_cont _ (by omega),
          and_cont _ (by omega)]
        rw [or4 _ _ _ _ (by omega) (by omega) (by omega)]
        omega
      simp only [c0, c0a, c0b, c1, c2, c3, e, and_self, if_true, if_false]
      have : 0xFFFF < n ∧ n ≤ 0x10FFFF := by omega
      simp [this]

theorem stringToRunes_go_skip (l1 l2 : List Nat) :
    stringToRunes.go l1.length (l1 ++ l2) = stringToRunes.go 0 l2 := by
  induction l1 with
  | nil => rfl
  | cons a l1 ih => simpa [stringToRunes.go] using ih

theorem stringToRunes_go_cons (c : Nat) (rest : List Nat) (h : ¬ c < 0x80) :
    stringToRunes.go 0 (c :: rest) =
      (decoderune (c :: rest)).1 ::
        stringToRunes.go ((decoderune (c :: rest)).2 - 1) rest := by
  simp only [stringToRunes.go, h, if_false]

theorem stringToRunes_go_char (c : Char) (rest : List Nat) :
    stringToRunes.go 0 (utf8Encoding c.toNat ++ rest) =
      runeOf c :: stringToRunes.go 0 rest := by
  obtain ⟨hle, hs⟩ := char_valid_bounds c
  by_cases h : c.toNat < 0x80
  · simp [utf8Encoding, h, stringToRunes.go, runeOf]
  · have hd := decoderune_utf8Encoding c.toNat (by omega) hle hs rest
    have hhead : ∃ b0 tail, utf8Encoding c.toNat = b0 :: tail ∧ ¬ b0 < 0x80 := by
      unfold utf8Encoding
      split_ifs
      · exact ⟨_, _, rfl, by omega⟩
      · exact ⟨_, _, rfl, by omega⟩
      · exact ⟨_, _, rfl, by omega⟩
    obtain ⟨b0, tail, he, hb0⟩ := hhead
    rw [he] at hd ⊢
    rw [List.cons_append] at hd ⊢
    rw [stringToRunes_go_cons _ _ hb0, hd]
    simp only [List.length_cons, Nat.add_sub_cancel, runeOf]
    rw [stringToRunes_go_skip]

theorem stringToRunes_stringBytes (s : GoString) :
    stringToRunes (stringBytes s) = s.map runeOf := by
  induction s with
  | nil => rfl
  | cons c s ih =>
    simp only [stringToRunes, stringBytes, List.flatMap_cons, List.map_cons] at ih ⊢
    rw [EncodeRune_char, stringToRunes_go_char, ih]

theorem runeToChar_runeOf (c : Char) : runeToChar (runeOf c) = c := by
  obtain ⟨hle, hs⟩ := char_valid_bounds c
  have hv : (0 : Int) ≤ (c.toNat : Int) ∧ (c.toNat : Int) ≤ (0x10FFFF : Int) ∧
      ¬ ((0xD800 : Int) ≤ (c.toNat : Int) ∧ (c.toNat : Int) ≤ (0xDFFF : Int)) := by
    omega
  unfold runeToChar runeOf
  rw [if_pos hv]
  simp

theorem runesToString_map_runeOf (s : GoString) : runesToString (s.map runeOf) = s := by
  induction s with
  | nil => rfl
  | cons c s ih =>
    simp only [runesToString, List.map_cons, runeToChar_runeOf] at ih ⊢
    rw [ih]


theorem runeOf_inj (c d : Char) : runeOf c = runeOf d ↔ c = d := by
  constructor
  · intro h
    have h2 : c.toNat = d.toNat := Int.ofNat.inj h
    have := congrArg Char.ofNat h2
    simpa using this
  · intro h
    rw [h]

theorem Raw_formatStructuredValue_loop (cs : List Char) :
    ∀ b : buffer, Raw.formatStructuredValue.loop (cs.map runeOf) b =
      formatStructuredValue.loop cs b := by
  induction cs with
  | nil => intro b; rfl
  | cons c cs ih =>
    intro b
    simp only [List.map_cons, Raw.formatStructuredValue.loop, formatStructuredValue.loop,
      runeOf_inj, ih]

theorem Raw_formatStructuredValue (b : buffer) (s : GoString) :
    Raw.formatStructuredValue b (stringBytes s) = formatStructuredValue b s := by
  simp only [Raw.formatStructuredValue, formatStructuredValue, stringToRunes_stringBytes,
    Raw_formatStructuredValue_loop]

theorem Raw_sliceRunes (cs : List Char) (lo hi : Nat) :
    Raw.sliceRunes (cs.map runeOf) lo hi = (sliceRunes cs lo hi).map (List.map runeOf) := by
  unfold Raw.sliceRunes sliceRunes
  by_cases h : lo ≤ hi ∧ hi ≤ cs.length
  · simp [h, List.map_drop, List.map_take]
  · simp [h]

theorem Raw_splitFormat_loop (runes : List Char) :
    ∀ (rest : List Char) (i : Nat) (st : splitState),
      Raw.splitFormat.loop (runes.map runeOf) (rest.map runeOf) i
          { segments := st.segments, segstart := st.segstart, lastrune := runeOf st.lastrune } =
        (splitFormat.loop runes rest i st).map (fun t =>
          { segments := t.segments, segstart := t.segstart, lastrune := runeOf t.lastrune }) := by
  intro rest
  induction rest with
  | nil => intro i st; rfl
  | cons r rest ih =>
    intro i st
    have h0 : (0 : rune) = runeOf (Char.ofNat 0) := by decide
    simp only [List.map_cons, Raw.splitFormat.loop, splitFormat.loop, runeOf_inj]
    by_cases h1 : st.lastrune = '%' ∧ r = '%'
    · simp only [h1, and_self, if_true]
      rw [h0]
      exact ih (i + 1) { st with lastrune := Char.ofNat 0 }
    · simp only [h1, if_false]
      by_cases h2 : st.lastrune = '%' ∧ r = 'v'
      · simp only [h2, and_self, if_true]
        by_cases h3 : st.segstart ≠ i - 1
        · simp only [h3, if_true, ne_eq, not_false_eq_true, Raw_sliceRunes]
          cases hs : sliceRunes runes st.segstart (i - 1) with
          | none => simp
          | some seg =>
            simp only [Option.map_some', runesToString_map_runeOf]
            exact ih (i + 1)
              { segments := st.segments ++ [seg] ++ ["%v".toList], segstart := i + 1, lastrune := 'v' }
        · simp only [h3, if_false]
          exact ih (i + 1)
            { segments := st.segments ++ ["%v".toList], segstart := i + 1, lastrune := 'v' }
      · simp only [h2, if_false]
        exact ih (i + 1) { st with lastrune := r }

theorem Raw_splitFormat (format : GoString) :
    Raw.splitFormat (stringBytes format) = splitFormat format := by
  have h0 : (0 : rune) = runeOf (Char.ofNat 0) := by decide
  have hloop := Raw_splitFormat_loop format format 0
    { segments := [], segstart := 0, lastrune := Char.ofNat 0 }
  simp only [Raw.splitFormat, splitFormat, stringToRunes_stringBytes]
  rw [h0, hloop]
  cases splitFormat.loop format format 0
      { segments := [], segstart := 0, lastrune := Char.ofNat 0 } with
  | none => rfl
  | some st =>
    simp only [Option.map_some', Raw.splitFormat.finish, splitFormat.finish, List.length_map,
      Raw_sliceRunes]
    by_cases h : st.segstart < format.length
    · simp only [h, if_true]
      cases sliceRunes format st.segstart format.length with
      | none => rfl
      | some seg => simp only [Option.map_some', runesToString_map_runeOf]
    · simp only [h, if_false]

theorem Raw_FormatFormatter (format : GoString) (formatters : List Formatter) :
    Raw.FormatFormatter (stringBytes format) formatters = FormatFormatter format formatters := by
  simp only [Raw.FormatFormatter, FormatFormatter, Raw_splitFormat]

/-- C3 as stated fails: the template `"\xff%v"`, whose first byte is no UTF-8, with the
formatter `Literal("A")` is rendered as the bytes EF BF BD 41, the encoding of U+FFFD
followed by `A`: the literal segment, the byte FF, is not written as it stands. -/
theorem FormatFormatter_not_verbatim :
    ∃ F b1, Raw.FormatFormatter [0xFF, 0x25, 0x76] [Literal "A".toList] = some F ∧
      F (NewBufferFrom ⟨[], []⟩) ⟨0, Level.INFO, EmptyContext, [], none, []⟩ = .ok b1 ∧
      b1.bytes.data = [0xEF, 0xBF, 0xBD, 0x41] ∧ b1.bytes.data ≠ [0xFF, 0x41] := by
  refine ⟨_, _, rfl, rfl, ?_, ?_⟩ <;> decide

/-- C3, amended: for every template that is well-formed UTF-8, that is the bytes of a
sequence `format` of code points, and every list of formatters, `FormatFormatter` builds
a formatter that runs, from left to right, one formatter per piece of the template: a
literal segment is written as it stands, the placeholder number `k` runs the formatter
number `k` and is the text `%!v(MISSING)` when the list has no such formatter. Hence, with
formatters that add the bytes `outs`, the rendering is the literal segments with the
placeholders replaced by those bytes. A placeholder at the start of a template (and so
one that follows another placeholder) is read as a placeholder, and
`FormatFormatter("%v:%v", A, B)` runs `A`, writes `:` and runs `B`. -/
theorem FormatFormatter_renders (format : GoString) (formatters : List Formatter) :
    ∃ F, Raw.FormatFormatter (stringBytes format) formatters = some F ∧
      F = runChain (bindSegments formatters (parseTemplate format) 0) ∧
      (∀ ev outs, List.Forall₂ (fun f o => Appends f ev o) formatters outs →
        Appends F ev (renderSegments outs (parseTemplate format) 0)) ∧
      (∀ rest, parseTemplate ("%v".toList ++ rest) = Segment.placeholder :: parseTemplate rest) ∧
      parseTemplate "a%v".toList = [Segment.literal "a".toList, Segment.placeholder] ∧
      (∀ A B : Formatter,
        Raw.FormatFormatter (stringBytes "%v:%v".toList) [A, B] =
          some (runChain [A, Literal ":".toList, B])) := by
  obtain ⟨F, hF, h1, h2, h3, h4, h5⟩ := FormatFormatter_text format formatters
  refine ⟨F, ?_, h1, h2, h3, h4, ?_⟩
  · rw [Raw_FormatFormatter, hF]
  · intro A B
    rw [Raw_FormatFormatter, h5 A B]

/-- Witness of C3, amended: the template `%v:%v`, given by its five bytes, with the
formatters `Literal("A")` and `Literal("B")` adds the bytes of `A:B` to an empty buffer. -/
theorem FormatFormatter_renders_witness :
    stringBytes "%v:%v".toList = [0x25, 0x76, 0x3A, 0x25, 0x76] ∧
    ∃ F b1, Raw.FormatFormatter (stringBytes "%v:%v".toList)
        [Literal "A".toList, Literal "B".toList] = some F ∧
      F (NewBufferFrom ⟨[], []⟩) ⟨0, Level.INFO, EmptyContext, [], none, []⟩ = .ok b1 ∧
      b1.bytes.data = stringBytes "A:B".toList := by
  obtain ⟨F, hF, _, happ, _⟩ :=
    FormatFormatter_renders "%v:%v".toList [Literal "A".toList, Literal "B".toList]
  obtain ⟨b1, hb1, _, hd⟩ := happ ⟨0, Level.INFO, EmptyContext, [], none, []⟩
    [stringBytes "A".toList, stringBytes "B".toList]
    (List.Forall₂.cons (Literal_appends _ _)
      (List.Forall₂.cons (Literal_appends _ _) List.Forall₂.nil))
    (NewBufferFrom ⟨[], []⟩) rfl
  exact ⟨by decide, F, b1, hF, hb1, by rw [hd]; decide⟩

theorem Raw_formatStructuredPair_appends (b : buffer) (name : List Nat) (value : GoString)
    (hb : b.read = false) :
    ∃ b1, Raw.formatStructuredPair b name (stringBytes value) = .ok b1 ∧ b1.read = false ∧
      b1.bytes.data = b.bytes.data ++ name ++ stringBytes "=\"".toList ++
        stringBytes (escapeStructured value) ++ stringBytes "\"".toList := by
  obtain ⟨b1, hw1, hr1, hd1⟩ := Write_unread b name hb
  have hw1b : Raw.WriteString b name = .ok b1 := hw1
  obtain ⟨b2, hw2, hr2, hd2⟩ := WriteRune_unread b1 '=' hr1
  obtain ⟨b3, hw3, hr3, hd3⟩ := WriteRune_unread b2 '"' hr2
  obtain ⟨b4, hw4, hr4, hd4⟩ := formatStructuredValue_loop_appends value b3 hr3
  obtain ⟨b5, hw5, hr5, hd5⟩ := WriteRune_unread b4 '"' hr4
  refine ⟨b5, ?_, hr5, ?_⟩
  · simp only [Raw.formatStructuredPair, Raw_formatStructuredValue, formatStructuredValue,
      hw1b, hw2, hw3, hw4, hw5]
  · rw [hd5, hd4, hd3, hd2, hd1]
    simp [stringBytes]

/-- C9 as stated fails: the value `"\xff"`, one byte that is no UTF-8 and is none of `'`,
`\` and `]`, is not added unchanged: `formatStructuredValue` adds the three bytes
EF BF BD, the encoding of U+FFFD. -/
theorem formatStructuredValue_not_unchanged :
    (∀ x ∈ [0xFF], x ≠ 0x27 ∧ x ≠ 0x5C ∧ x ≠ 0x5D) ∧
    ∃ b1, Raw.formatStructuredValue (NewBufferFrom ⟨[], []⟩) [0xFF] = .ok b1 ∧
      b1.bytes.data = [0xEF, 0xBF, 0xBD] ∧ b1.bytes.data ≠ [0xFF] := by
  refine ⟨by decide, _, rfl, ?_, ?_⟩ <;> decide

/-- C9, amended: on a buffer that has not been read, for every string value that is
well-formed UTF-8, that is the bytes of a sequence `s` of code points,
`formatStructuredValue` adds the value with a backslash in front of each `'`, `\` and `]`
and every other code point, `"` included, as it stands and in order, so that a value with
none of the three is added unchanged; `formatStructuredPair` adds the name, whatever its
bytes, then `=`, `"`, that escaped value and `"`. -/
theorem formatStructuredValue_escapes (b : buffer) (name : List Nat) (s : GoString)
    (hb : b.read = false) :
    (∃ b1, Raw.formatStructuredValue b (stringBytes s) = .ok b1 ∧ b1.read = false ∧
      b1.bytes.data = b.bytes.data ++ stringBytes (escapeStructured s)) ∧
    ((∀ c ∈ s, c ≠ '\'' ∧ c ≠ '\\' ∧ c ≠ ']') → escapeStructured s = s) ∧
    (∃ b1, Raw.formatStructuredPair b name (stringBytes s) = .ok b1 ∧ b1.read = false ∧
      b1.bytes.data = b.bytes.data ++ name ++ stringBytes "=\"".toList ++
        stringBytes (escapeStructured s) ++ stringBytes "\"".toList) := by
  obtain ⟨h1, h2, _⟩ := formatStructuredValue_text b [] s hb
  refine ⟨?_, h2, Raw_formatStructuredPair_appends b name s hb⟩
  rw [Raw_formatStructuredValue]
  exact h1

/-- Witness of C9, amended: the value `a'b\c]d"e`, given by its bytes, and the name `k`
on an empty buffer. -/
theorem formatStructuredValue_escapes_witness :
    (NewBufferFrom ⟨[], []⟩).read = false ∧
    stringBytes "a'b\\c]d\"e".toList = [0x61, 0x27, 0x62, 0x5C, 0x63, 0x5D, 0x64, 0x22, 0x65] ∧
    escapeStructured "a'b\\c]d\"e".toList = "a\\'b\\\\c\\]d\"e".toList ∧
    ∃ b1, Raw.formatStructuredValue (NewBufferFrom ⟨[], []⟩)
        (stringBytes "a'b\\c]d\"e".toList) = .ok b1 ∧
      b1.read = false ∧
      b1.bytes.data = (NewBufferFrom ⟨[], []⟩).bytes.data ++
        stringBytes (escapeStructured "a'b\\c]d\"e".toList) :=
  ⟨rfl, by decide, by decide,
    (formatStructuredValue_escapes (NewBufferFrom ⟨[], []⟩) [0x6B] "a'b\\c]d\"e".toList rfl).1⟩

/-- C23 as stated fails: the values `"\xff"` and `"\xfe"`, each one byte that is no
UTF-8, are two different values with the same escaped output, the three bytes EF BF BD,
which is neither value and is longer than the one byte of the value, which holds no `'`,
`\` or `]`. -/
theorem escapeStructured_not_reversible :
    ∃ b1 b2, Raw.formatStructuredValue (NewBufferFrom ⟨[], []⟩) [0xFF] = .ok b1 ∧
      Raw.formatStructuredValue (NewBufferFrom ⟨[], []⟩) [0xFE] = .ok b2 ∧
      b1.bytes.data = b2.bytes.data ∧ ([0xFF] : List Nat) ≠ [0xFE] ∧
      b1.bytes.data = [0xEF, 0xBF, 0xBD] ∧ b1.Len = 3 ∧ ([0xFF] : List Nat).length = 1 := by
  refine ⟨_, _, rfl, rfl, ?_, ?_, ?_, ?_, ?_⟩ <;> decide

/-- C23, amended: the escaping of `formatStructuredValue` can be undone for every string
that is well-formed UTF-8, that is the bytes of a sequence `s` of code points: reading the
escaped value from left to right and replacing each backslash together with the code
point after it by that code point gives the value back, so two different such values
never have the same escaped form, as code points or as bytes; the escaped form is longer
than the value by the number of its `'`, `\` and `]`, in code points and in bytes, and
that escaped form, which reads back as the same code points, is what
`formatStructuredValue` adds to a buffer that has not been read. -/
theorem escapeStructured_reversible (s : GoString) :
    unescapeStructured (escapeStructured s) = s ∧
    (∀ t, escapeStructured s = escapeStructured t → s = t) ∧
    (∀ t, stringBytes (escapeStructured s) = stringBytes (escapeStructured t) → s = t) ∧
    (escapeStructured s).length = s.length + escapedCount s ∧
    strlen (escapeStructured s) = strlen s + escapedCount s ∧
    unescapeStructured (runesToString (stringToRunes (stringBytes (escapeStructured s)))) = s ∧
    (∀ b : buffer, b.read = false →
      ∃ b1, Raw.formatStructuredValue b (stringBytes s) = .ok b1 ∧
        b1.bytes.data = b.bytes.data ++ stringBytes (escapeStructured s) ∧
        b1.Len = b.Len + (stringBytes s).length + escapedCount s) := by
  have hinj : ∀ t, escapeStructured s = escapeStructured t → s = t := by
    intro t h
    have := congrArg unescapeStructured h
    rwa [unescape_escape, unescape_escape] at this
  obtain ⟨hl1, hl2⟩ := escapeStructured_lengths s
  refine ⟨unescape_escape s, hinj, ?_, hl1, hl2, ?_, ?_⟩
  · intro t h
    exact hinj t (stringBytes_injective _ _ h)
  · rw [stringToRunes_stringBytes, runesToString_map_runeOf, unescape_escape]
  · intro b hb
    obtain ⟨b1, hw, _, hd⟩ := formatStructuredValue_loop_appends s b hb
    refine ⟨b1, ?_, hd, ?_⟩
    · rw [Raw_formatStructuredValue]
      exact hw
    · simp only [strlen] at hl2
      simp only [buffer.Len, ByteSlice.len, hd, List.length_append, hl2]
      omega

/-- Witness of C23, amended: the value `a'b\c]d`, given by its bytes, on an empty buffer. -/
theorem escapeStructured_reversible_witness :
    unescapeStructured "a\\'b\\\\c\\]d".toList = "a'b\\c]d".toList ∧
    escapeStructured "a'b\\c]d".toList = "a\\'b\\\\c\\]d".toList ∧
    ∃ b1, Raw.formatStructuredValue (NewBufferFrom ⟨[], []⟩)
        (stringBytes "a'b\\c]d".toList) = .ok b1 ∧
      b1.Len = 10 := by
  obtain ⟨b1, hw, _, hlen⟩ :=
    (escapeStructured_reversible "a'b\\c]d".toList).2.2.2.2.2.2 (NewBufferFrom ⟨[], []⟩) rfl
  exact ⟨by decide, by decide, b1, hw, by rw [hlen]; decide⟩

/-! ## Priority without wrap-around -/

/-- C11 as stated fails: the facility 2^61 + 1 is a value of the type `Facility`, and for
it and the level DEBUG, whose severity is 7, `priorityFor` returns 15 and not
`8 * facility + 7`: the product `8 * facility` wraps around in `uint`. -/
theorem priorityFor_overflow :
    2305843009213693953 < uintSize ∧ severityFor Level.DEBUG = some 7 ∧
    priorityFor 2305843009213693953 Level.DEBUG = some 15 ∧
    (15 : Nat) ≠ 8 * 2305843009213693953 + 7 := by
  refine ⟨by decide, rfl, by decide, by decide⟩

/-- C11, amended: for every facility with `8 * facility + 7` within the range of `uint`,
as every defined facility is, and each of the levels DEBUG, INFO, WARN, ERROR and FATAL,
`priorityFor` returns `8 * facility + severityFor(level)`; `severityFor` maps DEBUG to 7,
INFO to 6, WARN to 4, ERROR to 3 and FATAL to 2 and panics for any other level, and so
does `priorityFor`. For LOCAL0, which is 16, and ERROR the priority is 131 and
`priFormatter` adds `<131>`. -/
theorem priorityFor_spec (f : Nat) (hf : 8 * f + 7 < uintSize) :
    severityFor Level.DEBUG = some 7 ∧ severityFor Level.INFO = some 6 ∧
    severityFor Level.WARN = some 4 ∧ severityFor Level.ERROR = some 3 ∧
    severityFor Level.FATAL = some 2 ∧
    (∀ n, severityFor (Level.other n) = none ∧ priorityFor f (Level.other n) = none) ∧
    (∀ l sev, severityFor l = some sev → priorityFor f l = some (8 * f + sev)) ∧
    LOCAL0 = 16 ∧ priorityFor LOCAL0 Level.ERROR = some 131 ∧
    (∀ ev : Event, ev.Level = Level.ERROR →
      Appends (priFormatter LOCAL0) ev (stringBytes "<131>".toList)) := by
  refine ⟨rfl, rfl, rfl, rfl, rfl, fun n => ⟨rfl, rfl⟩, ?_, rfl, rfl, ?_⟩
  · intro l sev hl
    have hsev : sev ≤ 7 := by
      cases l <;> simp [severityFor, sDEBUG, sINFO, sWARN, sERROR, sCRITICAL] at hl <;> omega
    have e1 : (8 * f) % uintSize = 8 * f := Nat.mod_eq_of_lt (by omega)
    have e2 : (8 * f + sev) % uintSize = 8 * f + sev := Nat.mod_eq_of_lt (by omega)
    simp only [priorityFor, hl, e1, e2]
  · intro ev hev b hb
    obtain ⟨b1, hw, hr, hd⟩ := WriteString_unread b (sprintfPri 131) hb
    refine ⟨b1, ?_, hr, ?_⟩
    · have hp : priorityFor LOCAL0 Level.ERROR = some 131 := rfl
      simp only [priFormatter, hev, hp]
      exact hw
    · rw [hd]
      rfl

/-- Witness of C11, amended: the facility LOCAL7, which is 23, and the level WARN give the
priority `8 * 23 + 4`. -/
theorem priorityFor_spec_witness :
    8 * 23 + 7 < uintSize ∧ priorityFor 23 Level.WARN = some (8 * 23 + 4) :=
  ⟨by decide, (priorityFor_spec 23 (by decide)).2.2.2.2.2.2.1 Level.WARN 4 rfl⟩

/-! ## Dispatch -/

theorem registered_inv (settings : Collector → Level × Nat × Bool)
    (regs : List (Level × Int × Bool × Collector)) :
    ((registered settings regs).RootLogger.registry.map Prod.fst).Nodup ∧
    ((registered settings regs).RootLogger.registry.map (fun kv => kv.2.worker.id)).Nodup ∧
    (∀ x ∈ (registered settings regs).RootLogger.registry,
      x.2.worker.id < (registered settings regs).workers.length) ∧
    (∀ c, c ∈ (registered settings regs).RootLogger.registry.map Prod.fst ↔
      c ∈ regs.map (fun r => r.2.2.2)) ∧
    (registered settings regs).sends = [] := by
  induction regs using List.reverseRecOn with
  | nil => simp [registered, World.start, newLogger]
  | append_singleton regs r ih =>
    obtain ⟨ih1, ih2, ih3, ih4, ih5⟩ := ih
    have hstep : registered settings (regs ++ [r]) =
        logger.collect settings (registered settings regs) r.2.2.2 := by
      simp [registered, List.foldl_append, CollectAsync]
    obtain ⟨hk1, hk2, _⟩ := registry_set_keys (registered settings regs).RootLogger.registry
      r.2.2.2
      { worker := { id := (registered settings regs).workers.length, collector := r.2.2.2 } }
    rw [hstep]
    simp only [logger.collect, newWorker]
    refine ⟨hk2 ih1, ?_, ?_, ?_, ih5⟩
    · apply registry_set_ids _ _ _ ih2
      intro x hx
      have := ih3 x hx
      simp only
      omega
    · intro x hx
      simp only [List.length_append, List.length_singleton]
      rcases registry_set_mem _ _ _ x hx with h | h
      · rw [h]; simp
      · have := ih3 x h
        omega
    · intro c
      rw [hk1 c, ih4 c]
      simp only [List.map_append, List.mem_append, List.map_cons, List.map_nil,
        List.mem_singleton]
      tauto

theorem filter_eq_length_one {α : Type} [DecidableEq α] (l : List α) (a : α)
    (hnd : l.Nodup) (ha : a ∈ l) : (l.filter (fun x => decide (x = a))).length = 1 := by
  induction l with
  | nil => cases ha
  | cons b l ih =>
    simp only [List.nodup_cons] at hnd
    by_cases hb : b = a
    · subst hb
      have hnone : l.filter (fun x => decide (x = b)) = [] := by
        rw [List.filter_eq_nil_iff]
        intro x hx hxb
        simp only [decide_eq_true_eq] at hxb
        exact hnd.1 (hxb ▸ hx)
      simp [List.filter_cons, hnone]
    · have hmem : a ∈ l := by
        rcases List.mem_cons.mp ha with h | h
        · exact absurd h.symm hb
        · exact h
      simp [List.filter_cons, hb, ih hnd.2 hmem]

theorem send_free (w : World) (wk : worker) (event : Event)
    (h : worker.blocks w wk event = false) :
    ∃ w1, worker.send w wk event = .returned w1 ∧
      w1.sends = w.sends ++ [(wk.id, event)] ∧ w1.RootLogger = w.RootLogger ∧
      ∀ j, j ≠ wk.id → w1.workers[j]? = w.workers[j]? := by
  unfold worker.blocks at h
  unfold worker.send
  cases hs : w.workers[wk.id]? with
  | none => exact ⟨_, rfl, rfl, rfl, fun _ _ => rfl⟩
  | some s =>
    rw [hs] at h
    simp only at h ⊢
    by_cases ha : s.accepts event = true
    · by_cases hq : s.queue.length < s.bufferSize
      · simp only [ha, hq, Bool.not_true, if_true, Bool.false_eq_true, if_false]
        refine ⟨_, rfl, rfl, rfl, ?_⟩
        intro j hj
        exact List.getElem?_set_ne (Ne.symm hj)
      · have hd : s.discardOnFull = true := by
          have hfull : s.bufferSize ≤ s.queue.length := by omega
          simpa [ha, hfull] using h
        simp only [ha, hq, hd, Bool.not_true, if_true, Bool.false_eq_true, if_false]
        exact ⟨_, rfl, rfl, rfl, fun _ _ => rfl⟩
    · have ha2 : s.accepts event = false := by simpa using ha
      simp only [ha2, Bool.not_false, if_true]
      exact ⟨_, rfl, rfl, rfl, fun _ _ => rfl⟩

theorem send_blocked (w : World) (wk : worker) (event : Event)
    (h : worker.blocks w wk event = true) :
    worker.send w wk event = .blocked { w with sends := w.sends ++ [(wk.id, event)] } := by
  unfold worker.blocks at h
  unfold worker.send
  cases hs : w.workers[wk.id]? with
  | none => rw [hs] at h; simp at h
  | some s =>
    rw [hs] at h
    simp only [Bool.and_eq_true, decide_eq_true_eq, Bool.not_eq_true'] at h
    obtain ⟨⟨ha, hq⟩, hd⟩ := h
    have hq2 : ¬ s.queue.length < s.bufferSize := by omega
    simp [ha, hq2, hd]

theorem blocks_congr (w w1 : World) (wk : worker) (event : Event)
    (h : w1.workers[wk.id]? = w.workers[wk.id]?) :
    worker.blocks w1 wk event = worker.blocks w wk event := by
  simp only [worker.blocks, h]

theorem dispatch_loop_free (event : Event) (m : List (Collector × entry)) :
    ∀ w : World, (m.map (fun kv => kv.2.worker.id)).Nodup →
      (∀ kv ∈ m, worker.blocks w kv.2.worker event = false) →
      ∃ w1, logger.dispatchEvent.loop event m w = .returned w1 ∧
        w1.sends = w.sends ++ m.map (fun kv => (kv.2.worker.id, event)) ∧
        w1.RootLogger = w.RootLogger := by
  induction m with
  | nil => intro w _ _; exact ⟨w, rfl, by simp, rfl⟩
  | cons kv m ih =>
    intro w hnd hfree
    simp only [List.map_cons, List.nodup_cons] at hnd
    obtain ⟨w1, hs, hsends, hroot, hframe⟩ :=
      send_free w kv.2.worker event (hfree kv (List.mem_cons_self _ _))
    have hfree1 : ∀ x ∈ m, worker.blocks w1 x.2.worker event = false := by
      intro x hx
      have hne : x.2.worker.id ≠ kv.2.worker.id := by
        intro he
        exact hnd.1 (List.mem_map.mpr ⟨x, hx, he⟩)
      rw [blocks_congr w w1 x.2.worker event (hframe _ hne)]
      exact hfree x (List.mem_cons_of_mem _ hx)
    obtain ⟨w2, hl, hsends2, hroot2⟩ := ih w1 hnd.2 hfree1
    refine ⟨w2, ?_, ?_, ?_⟩
    · simp only [logger.dispatchEvent.loop, hs, hl]
    · rw [hsends2, hsends]
      simp
    · rw [hroot2, hroot]

theorem dispatch_loop_blocked (event : Event) (kv : Collector × entry)
    (post : List (Collector × entry)) (pre : List (Collector × entry)) :
    ∀ w : World, ((pre ++ kv :: post).map (fun x => x.2.worker.id)).Nodup →
      (∀ x ∈ pre, worker.blocks w x.2.worker event = false) →
      worker.blocks w kv.2.worker event = true →
      ∃ w1, logger.dispatchEvent.loop event (pre ++ kv :: post) w = .blocked w1 ∧
        w1.sends = w.sends ++ (pre ++ [kv]).map (fun x => (x.2.worker.id, event)) := by
  induction pre with
  | nil =>
    intro w _ _ hb
    refine ⟨{ w with sends := w.sends ++ [(kv.2.worker.id, event)] }, ?_, ?_⟩
    · show logger.dispatchEvent.loop event (kv :: post) w = _
      simp only [logger.dispatchEvent.loop, send_blocked w _ event hb]
    · simp
  | cons y pre ih =>
    intro w hnd hfree hb
    simp only [List.cons_append, List.map_cons, List.nodup_cons] at hnd
    obtain ⟨w1, hs, hsends, hroot, hframe⟩ :=
      send_free w y.2.worker event (hfree y (List.mem_cons_self _ _))
    have hne : ∀ x ∈ pre ++ kv :: post, x.2.worker.id ≠ y.2.worker.id := by
      intro x hx he
      exact hnd.1 (List.mem_map.mpr ⟨x, hx, he⟩)
    have hfree1 : ∀ x ∈ pre, worker.blocks w1 x.2.worker event = false := by
      intro x hx
      rw [blocks_congr w w1 x.2.worker event
        (hframe _ (hne x (List.mem_append_left _ hx)))]
      exact hfree x (List.mem_cons_of_mem _ hx)
    have hb1 : worker.blocks w1 kv.2.worker event = true := by
      rw [blocks_congr w w1 kv.2.worker event
        (hframe _ (hne kv (List.mem_append_right _ (List.mem_cons_self _ _))))]
      exact hb
    obtain ⟨w2, hl, hsends2⟩ := ih w1 hnd.2 hfree1 hb1
    refine ⟨w2, ?_, ?_⟩
    · show logger.dispatchEvent.loop event (y :: (pre ++ kv :: post)) w = _
      simp only [logger.dispatchEvent.loop, hs, hl]
    · rw [hsends2, hsends]
      simp

/-- C20 as stated fails. Two collectors, 7 and 9, are registered; the worker of 7 has a
queue of capacity 1 and the worker of 9 one of capacity 8, and neither discards. A first
event is dispatched and reaches both. When a second event is dispatched, the queue of
the first worker is full: `send` waits there, and the second worker, which has room, is
not sent the event. -/
theorem dispatchEvent_held_up :
    ∃ w1 w2,
      logger.dispatchEvent
        (registered (fun c => if c = 7 then (Level.DEBUG, 1, false) else (Level.DEBUG, 8, false))
          [(Level.DEBUG, 8, false, 7), (Level.DEBUG, 8, false, 9)])
        ⟨0, Level.FATAL, EmptyContext, [], none, "first".toList⟩ = .returned w1 ∧
      w1.RootLogger.registry = [(7, ⟨⟨0, 7⟩⟩), (9, ⟨⟨1, 9⟩⟩)] ∧
      worker.blocks w1 ⟨1, 9⟩ ⟨1, Level.FATAL, EmptyContext, [], none, "second".toList⟩ = false ∧
      logger.dispatchEvent w1 ⟨1, Level.FATAL, EmptyContext, [], none, "second".toList⟩ =
        .blocked w2 ∧
      w2.sends = [(0, ⟨0, Level.FATAL, EmptyContext, [], none, "first".toList⟩),
        (1, ⟨0, Level.FATAL, EmptyContext, [], none, "first".toList⟩),
        (0, ⟨1, Level.FATAL, EmptyContext, [], none, "second".toList⟩)] := by
  refine ⟨_, _, rfl, rfl, rfl, rfl, rfl⟩

/-- C20, amended: in every state whose registry is the one reached from program start by
registering collectors through `CollectAsync`, whatever the states of the workers, the
registry holds one entry, with a worker of its own, for each collector that was
registered. When no worker of the registry would make `send` wait (none has a full queue
that does not discard, for an event that passes its threshold), `dispatchEvent` returns,
having called `send` with the event exactly once on the worker of each entry and on no
one else, and leaves the registry as it is. When a worker would make `send` wait,
`dispatchEvent` waits at the first such worker in the order of the range, having called
`send` on the workers before it and on it, and on none of the workers after it. -/
theorem dispatchEvent_broadcast (settings : Collector → Level × Nat × Bool)
    (regs : List (Level × Int × Bool × Collector)) (event : Event) (w : World)
    (hreg : w.RootLogger.registry = (registered settings regs).RootLogger.registry) :
    (∀ c, (∃ e, (c, e) ∈ w.RootLogger.registry) ↔ c ∈ regs.map (fun r => r.2.2.2)) ∧
    (w.RootLogger.registry.map Prod.fst).Nodup ∧
    (w.RootLogger.registry.map (fun kv => kv.2.worker.id)).Nodup ∧
    ((∀ kv ∈ w.RootLogger.registry, worker.blocks w kv.2.worker event = false) →
      ∃ w1, logger.dispatchEvent w event = .returned w1 ∧
        w1.sends = w.sends ++ w.RootLogger.registry.map (fun kv => (kv.2.worker.id, event)) ∧
        (∀ kv ∈ w.RootLogger.registry,
          ((w.RootLogger.registry.map (fun x => (x.2.worker.id, event))).filter
            (fun x => decide (x = (kv.2.worker.id, event)))).length = 1) ∧
        w1.RootLogger = w.RootLogger) ∧
    (∀ pre kv post, w.RootLogger.registry = pre ++ kv :: post →
      (∀ x ∈ pre, worker.blocks w x.2.worker event = false) →
      worker.blocks w kv.2.worker event = true →
      ∃ w1, logger.dispatchEvent w event = .blocked w1 ∧
        w1.sends = w.sends ++ (pre ++ [kv]).map (fun x => (x.2.worker.id, event))) := by
  obtain ⟨h1, h2, _, h4, _⟩ := registered_inv settings regs
  rw [← hreg] at h1 h2 h4
  have hnd : (w.RootLogger.registry.map (fun kv => (kv.2.worker.id, event))).Nodup := by
    have hcomp : w.RootLogger.registry.map (fun kv => (kv.2.worker.id, event)) =
        (w.RootLogger.registry.map (fun kv => kv.2.worker.id)).map
          (fun i => (i, event)) := by simp
    rw [hcomp]
    exact List.Nodup.map (fun a b hab => by simpa using hab) h2
  refine ⟨?_, h1, h2, ?_, ?_⟩
  · intro c
    rw [← h4 c]
    simp only [List.mem_map]
    constructor
    · rintro ⟨e, he⟩; exact ⟨(c, e), he, rfl⟩
    · rintro ⟨⟨k, e⟩, he, hk⟩; simp only at hk; subst hk; exact ⟨e, he⟩
  · intro hfree
    obtain ⟨w1, hl, hsends, hroot⟩ := dispatch_loop_free event w.RootLogger.registry w h2 hfree
    refine ⟨w1, hl, hsends, ?_, hroot⟩
    intro kv hkv
    exact filter_eq_length_one _ _ hnd (List.mem_map.mpr ⟨kv, hkv, rfl⟩)
  · intro pre kv post hsplit hfree hb
    have hnd2 : ((pre ++ kv :: post).map (fun x => x.2.worker.id)).Nodup := by
      rw [← hsplit]
      exact h2
    obtain ⟨w1, hl, hsends⟩ := dispatch_loop_blocked event kv post pre w hnd2 hfree hb
    refine ⟨w1, ?_, hsends⟩
    simp only [logger.dispatchEvent, hsplit]
    exact hl

/-- Witness of C20, amended: two collectors registered, both workers with room for four
events; the event is sent once to each worker. -/
theorem dispatchEvent_broadcast_witness :
    ∃ w1, logger.dispatchEvent
        (registered (fun _ => (Level.DEBUG, 4, false))
          [(Level.INFO, 8, true, 7), (Level.WARN, 2, false, 9)])
        ⟨0, Level.FATAL, EmptyContext, [], none, "x".toList⟩ = .returned w1 ∧
      w1.sends = [(0, ⟨0, Level.FATAL, EmptyContext, [], none, "x".toList⟩),
        (1, ⟨0, Level.FATAL, EmptyContext, [], none, "x".toList⟩)] := by
  obtain ⟨w1, h1, h2, _⟩ :=
    (dispatchEvent_broadcast (fun _ => (Level.DEBUG, 4, false))
      [(Level.INFO, 8, true, 7), (Level.WARN, 2, false, 9)]
      ⟨0, Level.FATAL, EmptyContext, [], none, "x".toList⟩
      (registered (fun _ => (Level.DEBUG, 4, false))
        [(Level.INFO, 8, true, 7), (Level.WARN, 2, false, 9)]) rfl).2.2.2.1 (by decide)
  exact ⟨w1, h1, by rw [h2]; rfl⟩

end Billet
